import Mathlib

/-!
# Spectral subtraction: noise estimators

A shallow embedding of the noise-estimation stage of the spectral-subtraction
library (`libnoisered/estimation/simple_estimation.cpp`,
`libnoisered/estimation/martin_estimation.cpp`, `libnoisered/mathutils/math_util.h`).

Conventions of the embedding.

* A C++ `double` is a `Dbl`: an exact rational, `+inf`, `-inf` or `NaN`.  Finite
  arithmetic is exact (rounding, overflow and underflow are not modelled) and zero
  carries no sign: a division by zero takes the divisor as `+0`.  Comparisons with
  `NaN` are false, as in IEEE 754.
* `std::min` and `std::max` are the library templates `(b < a) ? b : a` and
  `(a < b) ? b : a`; they are not symmetric on `NaN`.
* `exp`, `sqrt` and `pow` of `<cmath>` are not part of the repository: they are
  fields of a `Cmath` record, which also says what the platform yields where C++
  leaves the behaviour undefined (a `double` that does not fit an `int`, an array
  read before the first element, the content of a fresh `new double[n]`).
* An array is a function of the index; a loop `for (i = 0; i < n; ++i) a[i] = e`
  rewrites the entries below `n` (`forLoop`).  The values are kept apart from the heap
  blocks that hold them: `algo` gives the values, `algoH` adds the state of the heap
  blocks and is undefined where a `delete[]` or an access of the source is.
* `int` variables are unbounded integers: the counters of the estimator would need
  `2^31` frames to overflow.
-/

/-- A C++ `double` without rounding: a rational, an infinity or `NaN`. -/
inductive Dbl where
  | nan
  | ninf
  | fin (q : ℚ)
  | pinf
deriving DecidableEq

namespace Dbl

/-- IEEE addition. -/
def add : Dbl → Dbl → Dbl
  | nan, _ => nan
  | ninf, nan => nan
  | ninf, ninf => ninf
  | ninf, fin _ => ninf
  | ninf, pinf => nan
  | fin _, nan => nan
  | fin _, ninf => ninf
  | fin a, fin b => fin (a + b)
  | fin _, pinf => pinf
  | pinf, nan => nan
  | pinf, ninf => nan
  | pinf, fin _ => pinf
  | pinf, pinf => pinf

/-- IEEE negation. -/
def neg : Dbl → Dbl
  | nan => nan
  | ninf => pinf
  | fin a => fin (-a)
  | pinf => ninf

/-- IEEE subtraction. -/
def sub (a b : Dbl) : Dbl := add a (neg b)

/-- The infinity with the sign of `s * t`, for `s` an infinity's sign (`true` is `+`)
and `t` a rational; `NaN` when `t = 0`. -/
def infTimes (s : Bool) (t : ℚ) : Dbl :=
  if t = 0 then nan
  else if 0 < t then (if s then pinf else ninf)
  else (if s then ninf else pinf)

/-- IEEE multiplication. -/
def mul : Dbl → Dbl → Dbl
  | nan, _ => nan
  | ninf, nan => nan
  | ninf, ninf => pinf
  | ninf, fin b => infTimes false b
  | ninf, pinf => ninf
  | fin _, nan => nan
  | fin a, ninf => infTimes false a
  | fin a, fin b => fin (a * b)
  | fin a, pinf => infTimes true a
  | pinf, nan => nan
  | pinf, ninf => ninf
  | pinf, fin b => infTimes true b
  | pinf, pinf => pinf

/-- IEEE division; a zero divisor is `+0`. -/
def div : Dbl → Dbl → Dbl
  | nan, _ => nan
  | ninf, nan => nan
  | ninf, ninf => nan
  | ninf, fin b => if 0 ≤ b then ninf else pinf
  | ninf, pinf => nan
  | fin _, nan => nan
  | fin _, ninf => fin 0
  | fin a, fin b =>
      if b = 0 then (if a = 0 then nan else if 0 < a then pinf else ninf) else fin (a / b)
  | fin _, pinf => fin 0
  | pinf, nan => nan
  | pinf, ninf => nan
  | pinf, fin b => if 0 ≤ b then pinf else ninf
  | pinf, pinf => nan

/-- The C++ comparison `a < b` (false when an operand is `NaN`). -/
def blt : Dbl → Dbl → Bool
  | nan, _ => false
  | ninf, nan => false
  | ninf, ninf => false
  | ninf, fin _ => true
  | ninf, pinf => true
  | fin _, nan => false
  | fin _, ninf => false
  | fin a, fin b => decide (a < b)
  | fin _, pinf => true
  | pinf, _ => false

/-- The C++ comparison `a <= b` (false when an operand is `NaN`). -/
def ble : Dbl → Dbl → Bool
  | nan, _ => false
  | ninf, nan => false
  | ninf, ninf => true
  | ninf, fin _ => true
  | ninf, pinf => true
  | fin _, nan => false
  | fin _, ninf => false
  | fin a, fin b => decide (a ≤ b)
  | fin _, pinf => true
  | pinf, nan => false
  | pinf, ninf => false
  | pinf, fin _ => false
  | pinf, pinf => true

instance : Add Dbl := ⟨add⟩

instance : Neg Dbl := ⟨neg⟩

instance : Sub Dbl := ⟨sub⟩

instance : Mul Dbl := ⟨mul⟩

instance : Div Dbl := ⟨div⟩

instance : LT Dbl := ⟨fun a b => blt a b = true⟩

instance : LE Dbl := ⟨fun a b => ble a b = true⟩

instance (a b : Dbl) : Decidable (a < b) := inferInstanceAs (Decidable (blt a b = true))

instance (a b : Dbl) : Decidable (a ≤ b) := inferInstanceAs (Decidable (ble a b = true))

/-- The template `std::max`: `(a < b) ? b : a`. -/
def max (a b : Dbl) : Dbl := if a < b then b else a

/-- The template `std::min`: `(b < a) ? b : a`. -/
def min (a b : Dbl) : Dbl := if b < a then b else a

/-- An `int` (or `unsigned`) converted to `double`. -/
def ofInt (n : Int) : Dbl := fin n

/-- The value is a number (`x == x` in C++). -/
def isNum : Dbl → Bool
  | nan => false
  | _ => true

/-- Rounding of a rational to the nearest integer, halves away from zero. -/
def roundQ (q : ℚ) : Int := if 0 ≤ q then ⌊q + 1 / 2⌋ else -⌊-q + 1 / 2⌋

/-- The C function `round`. -/
def round : Dbl → Dbl
  | fin q => fin (roundQ q)
  | x => x

/-- Truncation of a rational toward zero. -/
def truncQ (q : ℚ) : Int := if 0 ≤ q then ⌊q⌋ else -⌊-q⌋

/-- The constant `INT_MAX` of `<climits>`. -/
def INT_MAX : Int := 2147483647

/-- The constant `INT_MIN` of `<climits>`. -/
def INT_MIN : Int := -2147483648

end Dbl

/-- What the repository takes from outside: the `<cmath>` functions, and the results
the platform gives where the C++ standard leaves the behaviour undefined. -/
structure Cmath where
  /-- The function `exp`. -/
  exp : Dbl → Dbl
  /-- The function `sqrt`. -/
  sqrt : Dbl → Dbl
  /-- The function `pow`. -/
  pow : Dbl → Dbl → Dbl
  /-- The `int` obtained from a `double` whose truncation does not fit an `int`. -/
  toIntUB : Dbl → Int
  /-- The value read from an array of doubles before its first element. -/
  oobRead : Dbl
  /-- The content of an entry of a fresh `new double[n]`. -/
  uninit : Dbl
  /-- The content of an entry of a fresh `new bool[n]`. -/
  uninitB : Bool

namespace Cmath

/-- The conversion `(int) x` of a `double`: truncation toward zero when the result
fits an `int`, the platform's answer otherwise. -/
def toInt (m : Cmath) (x : Dbl) : Int :=
  match x with
  | Dbl.fin q =>
      if Dbl.INT_MIN ≤ Dbl.truncQ q ∧ Dbl.truncQ q ≤ Dbl.INT_MAX then Dbl.truncQ q
      else m.toIntUB x
  | _ => m.toIntUB x

end Cmath

/-- A rational stand-in for `exp`: the (2,2) Padé approximant. -/
def refExp : Dbl → Dbl
  | Dbl.nan => Dbl.nan
  | Dbl.ninf => Dbl.fin 0
  | Dbl.fin q => Dbl.fin ((12 + 6 * q + q * q) / (12 - 6 * q + q * q))
  | Dbl.pinf => Dbl.pinf

/-- Bit-by-bit integer square root: the largest `r + t` with `t < 2 ^ k` and
`(r + t) ^ 2 ≤ n`, for `r` a multiple of `2 ^ k` with `r ^ 2 ≤ n`. -/
def isqrtBits (n : Nat) : Nat → Nat → Nat
  | 0, r => r
  | k + 1, r => if (r + 2 ^ k) * (r + 2 ^ k) ≤ n then isqrtBits n k (r + 2 ^ k) else isqrtBits n k r

/-- The integer square root, for arguments below `2 ^ 128`. -/
def isqrt (n : Nat) : Nat := isqrtBits n 64 0

/-- A rational stand-in for `sqrt`: the integer square root at six decimals. -/
def refSqrt : Dbl → Dbl
  | Dbl.nan => Dbl.nan
  | Dbl.ninf => Dbl.nan
  | Dbl.fin q =>
      if q < 0 then Dbl.nan
      else Dbl.fin ((isqrt (⌊q * 1000000000000⌋).toNat : ℚ) / 1000000)
  | Dbl.pinf => Dbl.pinf

/-- A rational stand-in for `pow`: exact for the exponents 0, 1 and 2, and
`exp (y * log x)` with `log x` replaced by `2 (x - 1) / (x + 1)` otherwise. -/
def refPow (x y : Dbl) : Dbl :=
  if y = Dbl.fin 2 then x * x
  else if y = Dbl.fin 0 then Dbl.fin 1
  else if y = Dbl.fin 1 then x
  else match x with
    | Dbl.fin q =>
        if q < 0 then Dbl.nan
        else if q = 0 then (if y < Dbl.fin 0 then Dbl.pinf else Dbl.fin 0)
        else refExp (y * Dbl.fin (2 * (q - 1) / (q + 1)))
    | _ => Dbl.nan

/-- A concrete `Cmath`, to run the embedding on concrete inputs: rational stand-ins
for the `<cmath>` functions and the answers of an x86-64 build (`cvttsd2si` turns
every out-of-range `double` into `INT_MIN`). -/
def refMath : Cmath where
  exp := refExp
  sqrt := refSqrt
  pow := refPow
  toIntUB := fun _ => Dbl.INT_MIN
  oobRead := Dbl.fin 0
  uninit := Dbl.fin 0
  uninitB := false

/-- A complex sample `std::complex<double>` (`fftw_complex`). -/
structure Cplx where
  /-- The real part. -/
  re : Dbl
  /-- The imaginary part. -/
  im : Dbl

/-- The loop `for (i = 0; i < n; ++i) a[i] = body i` over an array `a`. -/
def forLoop {α : Type} (n : Nat) (body : Nat → α) (a : Nat → α) : Nat → α :=
  fun i => if i < n then body i else a i

/-- The call `std::accumulate(a, a + n, 0.)` on doubles. -/
def accumulate (a : Nat → Dbl) (n : Nat) : Dbl :=
  (List.range n).foldl (fun acc i => acc + a i) (Dbl.fin 0)

/-- The read-only configuration reached through `conf` (the getters the estimators
call on the `SubtractionManager`, whose class is declared outside the sources). -/
structure Conf where
  /-- The getter `spectrumSize()`. -/
  spectrumSize : Nat
  /-- The getter `getFrameIncrement()`. -/
  getFrameIncrement : Nat
  /-- The getter `getSamplingRate()`. -/
  getSamplingRate : Nat

namespace MathUtil

/-- Modelled from the spec: `MathUtil::CplxToPower` is declared in `math_util.h`
(`@return x^2 + y^2`) and defined outside the sources; §4.1 gives
`complexToPower(c) = re(c)² + im(c)²`. -/
def CplxToPower (val : Cplx) : Dbl := val.re * val.re + val.im * val.im

/-- Modelled from the spec: `MathUtil::computePowerSpectrum` is declared in
`math_util.h` and defined outside the sources; §4.1 gives
`out[k] ← power(spectrum[k])` for the `size` first entries. -/
def computePowerSpectrum (inp : Nat → Cplx) (powoutput : Nat → Dbl) (size : Nat) : Nat → Dbl :=
  forLoop size (fun k => CplxToPower (inp k)) powoutput

/-- The template `MathUtil::mapReduce_n`, run by one worker (the OpenMP region is
entered once): the worker folds from `baseval`, then its result is reduced into
`val`, which also starts at `baseval`. -/
def mapReduce_n {α T : Type} (inp : Nat → α) (size : Nat) (baseval : T)
    (map : α → T) (reduce : T → T → T) : T :=
  let val := baseval
  let map_val := (List.range size).foldl (fun acc i => reduce acc (map (inp i))) baseval
  reduce val map_val

end MathUtil

/-- The fields of a `SimpleEstimation` object: its own `noise_rms` and the
`noise_power` buffer of the `Estimation` base. -/
structure SimpleEstimation where
  /-- The member `noise_rms`. -/
  noise_rms : Dbl
  /-- The buffer `noise_power`. -/
  noise_power : Nat → Dbl

namespace SimpleEstimation

/-- The method `SimpleEstimation::updateNoise`. -/
def updateNoise (m : Cmath) (conf : Conf) (e : SimpleEstimation) (inp : Nat → Cplx) :
    Bool × SimpleEstimation :=
  let current_rms :=
    m.sqrt (MathUtil.mapReduce_n inp conf.spectrumSize (Dbl.fin 0) MathUtil.CplxToPower
      (fun a b => a + b) / Dbl.ofInt conf.spectrumSize)
  if current_rms < e.noise_rms ∨
      (e.noise_rms ≤ current_rms ∧ current_rms ≤ e.noise_rms * Dbl.fin 1.02) then
    (true, { e with noise_rms := current_rms })
  else (false, e)

/-- The call operator `SimpleEstimation::operator()`. -/
def call (m : Cmath) (conf : Conf) (e : SimpleEstimation) (input_spectrum : Nat → Cplx) :
    Bool × SimpleEstimation :=
  let r := updateNoise m conf e input_spectrum
  if r.1 then
    (true, { r.2 with
      noise_power := MathUtil.computePowerSpectrum input_spectrum r.2.noise_power conf.spectrumSize })
  else (false, r.2)

/-- The method `SimpleEstimation::specific_onDataUpdate`. -/
def specific_onDataUpdate (e : SimpleEstimation) : SimpleEstimation :=
  { e with noise_rms := Dbl.fin 100000 }

/-- The method `SimpleEstimation::specific_onFFTSizeUpdate`. -/
def specific_onFFTSizeUpdate (e : SimpleEstimation) : SimpleEstimation := e

/-- The method `SimpleEstimation::clone`: `new SimpleEstimation(*this)`, the
compiler-generated copy constructor (the sources define no other), which copies every
member. -/
def clone (e : SimpleEstimation) : SimpleEstimation := { e with }

/-- The estimator after a sequence of frames, each handed to `operator()`. -/
def run (m : Cmath) (conf : Conf) (e : SimpleEstimation) (frames : List (Nat → Cplx)) :
    SimpleEstimation :=
  frames.foldl (fun st y => (call m conf st y).2) e

/-- The value `cur = sqrt (Σ_k |Y[k]|² / nrf)` of the frame `Y`. -/
def cur (m : Cmath) (nrf : Nat) (y : Nat → Cplx) : Dbl :=
  m.sqrt (accumulate (fun k => MathUtil.CplxToPower (y k)) nrf / Dbl.ofInt nrf)

end SimpleEstimation

namespace Dbl

/-- The C++ comparison `a == b` (false when an operand is `NaN`). -/
def beq (a b : Dbl) : Bool := a.isNum && decide (a = b)

end Dbl

/-- The call `std::accumulate(a, a + n, 0)`: the initial value `0` is an `int`, so the
accumulator is an `int` and every partial sum is converted back to `int`. -/
def accumulateInt (m : Cmath) (a : Nat → Dbl) (n : Nat) : Int :=
  (List.range n).foldl (fun acc i => m.toInt (Dbl.ofInt acc + a i)) 0

/-- The read `a[i]` of an array of doubles at an `int` index. -/
def readAt (m : Cmath) (a : Nat → Dbl) (i : Int) : Dbl :=
  if 0 ≤ i then a i.toNat else m.oobRead

/-- The parameter block `qq` of type `MartinEstimation::MartinNoiseParams`. -/
structure MartinNoiseParams where
  /-- Smoothing time constant for `alpha_c`. -/
  taca : Dbl
  /-- Max smoothing time constant. -/
  tamax : Dbl
  /-- Min smoothing time constant (upper limit). -/
  taminh : Dbl
  /-- Time constant for `P` to fall. -/
  tpfall : Dbl
  /-- Max smoothing time constant in (20). -/
  tbmax : Dbl
  /-- Minimum value of `Qeq`. -/
  qeqmin : Dbl
  /-- Max value of `Qeq` per frame. -/
  qeqmax : Dbl
  /-- Fudge factor for the `bc` calculation. -/
  av : Dbl
  /-- Time to take the minimum over. -/
  td : Dbl
  /-- Number of subwindows. -/
  nu : Int
  /-- The thresholds `qith[4]`. -/
  qith : Nat → Dbl
  /-- The slopes `nsmdb[4]`. -/
  nsmdb : Nat → Dbl

/-- The function-local `static` variables of `MartinEstimation::algo`: one copy for
the whole process. -/
structure Statics where
  /-- Sub-window counter. -/
  subwc : Int
  /-- Frame counter. -/
  segment_number : Int
  /-- Periodogram of the current frame. -/
  yft : Nat → Dbl
  /-- Smoothed power. -/
  p : Nat → Dbl
  /-- Noise estimate. -/
  sn2 : Nat → Dbl
  /-- Smoothed periodogram. -/
  pb : Nat → Dbl
  /-- Running minimum. -/
  pminu : Nat → Dbl
  /-- Smoothed squared periodogram. -/
  pb2 : Nat → Dbl
  /-- Minimum of the current sub-window. -/
  actmin : Nat → Dbl
  /-- Minimum of the current sub-window, sub-window bias. -/
  actminsub : Nat → Dbl
  /-- Smoothing factor per bin. -/
  ah : Nat → Dbl
  /-- Variance smoothing factor per bin. -/
  b : Nat → Dbl
  /-- Inverse of `Qeq` per bin. -/
  qeqi : Nat → Dbl
  /-- Bias correction over the whole window. -/
  bmind : Nat → Dbl
  /-- Bias correction over a sub-window. -/
  bminv : Nat → Dbl
  /-- Local-minimum mask (a `double` array). -/
  lmin : Nat → Dbl
  /-- Square roots of `qeqi`. -/
  qisq : Nat → Dbl
  /-- New-minimum mask. -/
  kmod : Nat → Bool
  /-- Latched new-minimum flag. -/
  lminflag : Nat → Bool
  /-- Ring of sub-window minima, `actbuf[slot][bin]`. -/
  actbuf : Nat → Nat → Dbl
  /-- Parameter block. -/
  qq : MartinNoiseParams
  /-- Number of sub-windows. -/
  nu : Int
  /-- Ring index. -/
  ibuf : Int
  /-- The factor `alpha_c`. -/
  ac : Dbl
  /-- Smoothing constant for `alpha_c`. -/
  aca : Dbl
  /-- Lower limit of `alpha_c-bar`. -/
  acmax : Dbl
  /-- Max smoothing constant. -/
  amax : Dbl
  /-- Min smoothing constant (upper limit). -/
  aminh : Dbl
  /-- Max smoothing constant in (20). -/
  bmax : Dbl
  /-- Exponent of the SNR floor. -/
  snrexp : Dbl
  /-- Length of a sub-window in frames. -/
  nv : Dbl
  /-- Length of the whole window in frames. -/
  nd : Dbl
  /-- The value `M(nd)`. -/
  md : Dbl
  /-- The value `H(nd)`. -/
  hd : Dbl
  /-- The value `M(nv)`. -/
  mv : Dbl
  /-- The value `H(nv)`. -/
  hv : Dbl
  /-- Upper clamp of `qeqi`. -/
  qeqimax : Dbl
  /-- Numerator of the lower clamp of `qeqi`. -/
  qeqimin : Dbl
  /-- The slope caps `nsms[4]`. -/
  nsms : Nat → Dbl

/-- The fields of a `MartinEstimation` object: the flag `_reinit` and the
`noise_power` buffer of the `Estimation` base.  The algorithm state is not among
them: it lives in the `Statics`. -/
structure MartinEstimation where
  /-- The member `_reinit`. -/
  _reinit : Bool
  /-- The buffer `noise_power`. -/
  noise_power : Nat → Dbl

namespace MartinEstimation

/-- The table `dmh[3][18]` of `mh_values`. -/
def dmh : List (List ℚ) :=
  [[1, 2, 5, 8, 10, 15, 20, 30, 40, 60, 80, 120, 140, 160, 180, 220, 260, 300],
   [0, 0.26, 0.48, 0.58, 0.61, 0.668, 0.705, 0.762, 0.8, 0.841, 0.865, 0.89, 0.9, 0.91, 0.92,
     0.93, 0.935, 0.94],
   [0, 0.15, 0.48, 0.78, 0.98, 1.55, 2, 2.3, 2.52, 3.1, 3.38, 4.15, 4.35, 4.25, 3.9, 4.1,
     4.7, 5]]

/-- The read `dmh[r][i]` at an `int` index `i`. -/
def dmhAt (m : Cmath) (r : Nat) (i : Int) : Dbl :=
  if 0 ≤ i then Dbl.fin (((dmh.getD r []).getD i.toNat 0)) else m.oobRead

/-- The function `MartinEstimation::mh_values`: the pair `(*m, *h)`. -/
def mh_values (m : Cmath) (d : Dbl) : Dbl × Dbl :=
  let found := (List.range 18).find? (fun (i : Nat) => decide (d ≤ dmhAt m 0 (i : Int)))
  let ichosen : Int := match found with
    | some i => (i : Int)
    | none => 17
  let jchosen : Int := match found with
    | some i => (i : Int) - 1
    | none => 17
  if Dbl.beq d (dmhAt m 0 ichosen) then (dmhAt m 1 ichosen, dmhAt m 2 ichosen)
  else
    let qj := m.sqrt (dmhAt m 0 jchosen)
    let qi := m.sqrt (dmhAt m 0 ichosen)
    let q := m.sqrt d
    let h := dmhAt m 2 ichosen + (q - qi) * (dmhAt m 2 jchosen - dmhAt m 2 ichosen) / (qj - qi)
    let mm := dmhAt m 1 ichosen
      + (qi * qj / q - qj) * (dmhAt m 1 jchosen - dmhAt m 1 ichosen) / (qi - qj)
    (mm, h)

/-- The constants written to `qq` by the initialisation. -/
def qqInit : MartinNoiseParams where
  taca := Dbl.fin 0.0449
  tamax := Dbl.fin 0.392
  taminh := Dbl.fin 0.0133
  tpfall := Dbl.fin 0.064
  tbmax := Dbl.fin 0.0717
  qeqmin := Dbl.fin 2
  qeqmax := Dbl.fin 14
  av := Dbl.fin 2.12
  td := Dbl.fin 1.536
  nu := 8
  qith := fun i => if i = 0 then Dbl.fin 0.03 else if i = 1 then Dbl.fin 0.05
    else if i = 2 then Dbl.fin 0.06 else Dbl.ofInt Dbl.INT_MAX
  nsmdb := fun i => if i = 0 then Dbl.fin 47 else if i = 1 then Dbl.fin 31.4
    else if i = 2 then Dbl.fin 15.7 else Dbl.fin 4.1

/-- The sub-window length `nv` set by the initialisation (lines 120-125). -/
def nvInit (tinc : Dbl) : Dbl :=
  let nv := Dbl.round (qqInit.td / (tinc * Dbl.ofInt qqInit.nu))
  if nv < Dbl.fin 4 then Dbl.fin 4 else nv

/-- The number of sub-windows `nu` set by the initialisation (lines 112-126). -/
def nuInit (m : Cmath) (tinc : Dbl) : Int :=
  let nv := Dbl.round (qqInit.td / (tinc * Dbl.ofInt qqInit.nu))
  if nv < Dbl.fin 4 then
    m.toInt (Dbl.max (Dbl.round (qqInit.td / (tinc * Dbl.fin 4))) (Dbl.fin 1))
  else qqInit.nu

/-- The values left by the branch `if (reinit)` of `algo` (lines 89-207): every static
variable is assigned, every array is allocated anew.  The `delete[]` of the old arrays
(lines 141-184), which run on the heap left by the history, are in `algoDefined`. -/
def algoInit (m : Cmath) (spectrum : Nat → Cplx) (nrf : Nat) (tinc : Dbl) : Statics :=
  let qq := qqInit
  let nu := nuInit m tinc
  let aca := m.exp (-tinc / qq.taca)
  let nv := nvInit tinc
  let nd := Dbl.ofInt nu * nv
  let mhd := mh_values m nd
  let mhv := mh_values m nv
  let fresh : Nat → Dbl := fun _ => m.uninit
  let yft := MathUtil.computePowerSpectrum spectrum fresh nrf
  let p := forLoop nrf (fun i => yft i) fresh
  { subwc := m.toInt nv
    segment_number := 0
    yft := yft
    p := p
    sn2 := forLoop nrf (fun i => p i) fresh
    pb := forLoop nrf (fun i => p i) fresh
    pminu := forLoop nrf (fun i => p i) fresh
    pb2 := forLoop nrf (fun i => p i * p i) fresh
    actmin := forLoop nrf (fun _ => Dbl.ofInt Dbl.INT_MAX) fresh
    actminsub := forLoop nrf (fun _ => Dbl.ofInt Dbl.INT_MAX) fresh
    ah := fresh
    b := fresh
    qeqi := fresh
    bmind := fresh
    bminv := fresh
    lmin := fresh
    qisq := fresh
    kmod := fun _ => m.uninitB
    lminflag := forLoop nrf (fun _ => false) (fun _ => m.uninitB)
    actbuf := fun i => if i < nu.toNat then forLoop nrf (fun _ => Dbl.ofInt Dbl.INT_MAX) fresh
      else fresh
    qq := qq
    nu := nu
    ibuf := 0
    ac := Dbl.fin 1
    aca := aca
    acmax := aca
    amax := m.exp (-tinc / qq.tamax)
    aminh := m.exp (-tinc / qq.taminh)
    bmax := m.exp (-tinc / qq.tbmax)
    snrexp := -tinc / qq.tpfall
    nv := nv
    nd := nd
    md := mhd.1
    hd := mhd.2
    mv := mhv.1
    hv := mhv.2
    qeqimax := Dbl.fin 1 / qq.qeqmin
    qeqimin := Dbl.fin 1 / qq.qeqmax
    nsms := forLoop 4 (fun i => m.pow (Dbl.fin 10) (qq.nsmdb i * nv * tinc / Dbl.fin 10)) fresh }

/-- The branch `else` of `if (reinit)` (lines 208-212). -/
def algoNext (spectrum : Nat → Cplx) (nrf : Nat) (s : Statics) : Statics :=
  { s with
    yft := MathUtil.computePowerSpectrum spectrum s.yft nrf
    segment_number := s.segment_number + 1 }

/-- The smoothing part of the main processing (lines 217-236).  The loop of lines
226-236 reads and writes only the entries of its own index, so it is written array
by array. -/
def algoSmooth (m : Cmath) (nrf : Nat) (s : Statics) : Statics :=
  let acb := Dbl.fin 1 /
    (Dbl.fin 1 + m.pow (accumulate s.p nrf / accumulate s.yft nrf - Dbl.fin 1) (Dbl.fin 2))
  let ac := s.aca * s.ac + (Dbl.fin 1 - s.aca) * Dbl.max acb s.acmax
  let ah1 := forLoop nrf (fun i =>
    s.amax * ac * Dbl.fin 1 / (Dbl.fin 1 + m.pow (s.p i / s.sn2 i - Dbl.fin 1) (Dbl.fin 2))) s.ah
  let snr := accumulate s.p nrf / accumulate s.sn2 nrf
  let localmin := Dbl.min s.aminh (m.pow snr s.snrexp)
  let ah := forLoop nrf (fun i => Dbl.max (ah1 i) localmin) ah1
  let p := forLoop nrf (fun i => ah i * s.p i + (Dbl.fin 1 - ah i) * s.yft i) s.p
  let b := forLoop nrf (fun i => Dbl.min (m.pow (ah i) (Dbl.fin 2)) s.bmax) s.b
  let pb := forLoop nrf (fun i => b i * s.pb i + (Dbl.fin 1 - b i) * p i) s.pb
  let pb2 := forLoop nrf (fun i =>
    b i * s.pb2 i + (Dbl.fin 1 - b i) * m.pow (p i) (Dbl.fin 2)) s.pb2
  let qeqi := forLoop nrf (fun i =>
    Dbl.max
      (Dbl.min ((pb2 i - m.pow (pb i) (Dbl.fin 2)) / (Dbl.fin 2 * m.pow (s.sn2 i) (Dbl.fin 2)))
        s.qeqimax)
      (s.qeqimin / Dbl.ofInt s.segment_number)) s.qeqi
  { s with ac := ac, ah := ah, p := p, b := b, pb := pb, pb2 := pb2, qeqi := qeqi }

/-- The local `qiav` (line 238): an `int` sum divided by the `int` `nrf`. -/
def qiav (m : Cmath) (nrf : Nat) (s : Statics) : Dbl :=
  Dbl.ofInt (Int.tdiv (accumulateInt m s.qeqi nrf) nrf)

/-- The local `bc` (line 239). -/
def bc (m : Cmath) (nrf : Nat) (s : Statics) : Dbl :=
  Dbl.fin 1 + s.qq.av * m.sqrt (qiav m nrf s)

/-- The minimum tracking of the main processing (lines 238-252). -/
def algoTrack (m : Cmath) (nrf : Nat) (s : Statics) : Statics :=
  let bc := bc m nrf s
  let bmind := forLoop nrf (fun i =>
    Dbl.fin 1 + Dbl.fin 2 * (s.nd - Dbl.fin 1) * (Dbl.fin 1 - s.md)
      / (Dbl.fin 1 / s.qeqi i - Dbl.fin 2 * s.md)) s.bmind
  let bminv := forLoop nrf (fun i =>
    Dbl.fin 1 + Dbl.fin 2 * (s.nv - Dbl.fin 1) * (Dbl.fin 1 - s.mv)
      / (Dbl.fin 1 / s.qeqi i - Dbl.fin 2 * s.mv)) s.bminv
  let kmod := forLoop nrf (fun i => decide (bc * s.p i * bmind i < s.actmin i)) s.kmod
  let actmin := forLoop nrf (fun i =>
    if kmod i then bc * s.p i * bmind i else s.actmin i) s.actmin
  let actminsub := forLoop nrf (fun i =>
    if kmod i then bc * s.p i * bminv i else s.actminsub i) s.actminsub
  { s with bmind := bmind, bminv := bminv, kmod := kmod, actmin := actmin,
           actminsub := actminsub }

/-- The branch `subwc > 0 && subwc < nv` (lines 255-263). -/
def algoMid (nrf : Nat) (s : Statics) : Statics :=
  let pminu := forLoop nrf (fun i => Dbl.min (s.actminsub i) (s.pminu i)) s.pminu
  { s with
    lminflag := forLoop nrf (fun i => s.lminflag i || s.kmod i) s.lminflag
    pminu := pminu
    sn2 := forLoop nrf (fun i => pminu i) s.sn2 }

/-- The slope index `tmp_index` (lines 282-290). -/
def slopeIndex (qiav : Dbl) (qith : Nat → Dbl) : Int :=
  match (List.range 4).find? (fun i => decide (qiav < qith i)) with
  | some i => i
  | none => -1

/-- The branch `subwc >= nv` (lines 264-310).  In `lmin[i]` the operand `!kmod`
negates the pointer `kmod`, which is not null after `new bool[nrf]`. -/
def algoBoundary (m : Cmath) (nrf : Nat) (s : Statics) : Statics :=
  let ibuf := Int.tmod s.ibuf s.nu
  let actbuf1 : Nat → Nat → Dbl := fun j =>
    if j = ibuf.toNat then forLoop nrf (fun i => s.actmin i) (s.actbuf j) else s.actbuf j
  let pminu1 := forLoop nrf (fun i =>
    (List.range s.nu.toNat).foldl (fun tmp j => Dbl.min tmp (actbuf1 j i)) (Dbl.fin 1)) s.pminu
  let tmp_index := slopeIndex (qiav m nrf s) s.qq.qith
  let nsm := readAt m s.nsms tmp_index
  let kmodIsNull := false
  let lmin := forLoop nrf (fun i =>
    if s.lminflag i && kmodIsNull && decide (s.actminsub i < nsm * pminu1 i)
        && decide (pminu1 i < s.actminsub i)
    then Dbl.fin 1 else Dbl.fin 0) s.lmin
  let pminu := forLoop nrf (fun i =>
    if lmin i ≠ Dbl.fin 0 then s.actminsub i else pminu1 i) pminu1
  let actbuf : Nat → Nat → Dbl := fun j =>
    if j < s.nu.toNat then
      forLoop nrf (fun i => if lmin i ≠ Dbl.fin 0 then pminu i else actbuf1 j i) (actbuf1 j)
    else actbuf1 j
  { s with
    ibuf := ibuf
    actbuf := actbuf
    pminu := pminu
    lmin := lmin
    lminflag := forLoop nrf (fun _ => false) s.lminflag
    actmin := forLoop nrf (fun _ => Dbl.ofInt Dbl.INT_MAX) s.actmin
    subwc := 0 }

/-- The sub-window phase (lines 255-311). -/
def algoWindow (m : Cmath) (nrf : Nat) (s : Statics) : Statics :=
  let s1 :=
    if 0 < s.subwc ∧ Dbl.ofInt s.subwc < s.nv then algoMid nrf s
    else if s.nv ≤ Dbl.ofInt s.subwc then algoBoundary m nrf s
    else s
  { s1 with subwc := s1.subwc + 1 }

/-- The output loop (lines 313-319): the new `qisq`. -/
def algoOutput (m : Cmath) (nrf : Nat) (s : Statics) : Statics :=
  { s with qisq := forLoop nrf (fun i => m.sqrt (s.qeqi i)) s.qisq }

/-- The values computed by the function `MartinEstimation::algo`: the new statics and the
new content of the output array `x`.  The `lastcall` branch (lines 55-86) changes no
value: it deletes the arrays, which `algoH` accounts for. -/
def algo (m : Cmath) (spectrum : Nat → Cplx) (nrf : Nat) (x : Nat → Dbl) (tinc : Dbl)
    (reinit lastcall : Bool) (s : Statics) : Statics × (Nat → Dbl) :=
  if lastcall then (s, x)
  else
    let s0 := if reinit then algoInit m spectrum nrf tinc else algoNext spectrum nrf s
    let s3 := algoWindow m nrf (algoTrack m nrf (algoSmooth m nrf s0))
    (algoOutput m nrf s3, forLoop nrf (fun i => s3.sn2 i) x)

/-- The frame increment over the sampling rate, as `operator()` computes it. -/
def tincOf (conf : Conf) : Dbl :=
  Dbl.ofInt conf.getFrameIncrement / Dbl.ofInt conf.getSamplingRate

/-- The call operator `MartinEstimation::operator()`, on the process statics and the
object. -/
def call (m : Cmath) (conf : Conf) (input_spectrum : Nat → Cplx)
    (w : Statics × MartinEstimation) : Bool × Statics × MartinEstimation :=
  let r := algo m input_spectrum conf.spectrumSize w.2.noise_power (tincOf conf)
    w.2._reinit false w.1
  (true, r.1, { _reinit := false, noise_power := r.2 })

/-- The method `MartinEstimation::specific_onFFTSizeUpdate`. -/
def specific_onFFTSizeUpdate (e : MartinEstimation) : MartinEstimation :=
  { e with _reinit := true }

/-- The method `MartinEstimation::specific_onDataUpdate`. -/
def specific_onDataUpdate (e : MartinEstimation) : MartinEstimation :=
  { e with _reinit := true }

/-- The method `MartinEstimation::clone`: `new MartinEstimation(*this)`, the
compiler-generated copy constructor, which copies every member. -/
def clone (e : MartinEstimation) : MartinEstimation := { e with }

/-- The statics and the object after a sequence of frames handed to `operator()`. -/
def run (m : Cmath) (conf : Conf) (w : Statics × MartinEstimation)
    (frames : List (Nat → Cplx)) : Statics × MartinEstimation :=
  frames.foldl (fun st y => (call m conf y st).2) w

end MartinEstimation

/-! ## Concrete inputs -/

/-- A one-bin configuration at 16 kHz with a hop of 256 samples (`tinc = 0.016`). -/
def exConf1 : Conf := { spectrumSize := 1, getFrameIncrement := 256, getSamplingRate := 16000 }

/-- The spectrum whose every bin is the real number `a`. -/
def constFrame (a : ℚ) : Nat → Cplx := fun _ => { re := Dbl.fin a, im := Dbl.fin 0 }

/-- A `SimpleEstimation` with `noise_rms = 1` and an all-zero `noise_power`. -/
def exSimple : SimpleEstimation := { noise_rms := Dbl.fin 1, noise_power := fun _ => Dbl.fin 0 }

/-- The spectrum `Y[k] = δ_{k,32}`. -/
def delta32 : Nat → Cplx := fun k =>
  if k = 32 then { re := Dbl.fin 1, im := Dbl.fin 0 } else { re := Dbl.fin 0, im := Dbl.fin 0 }

/-- The statics before the first call: static storage starts zeroed (the arrays are
null pointers then; their entries are given the value 0 here). -/
def MartinEstimation.staticsZero : Statics where
  subwc := 0
  segment_number := 0
  yft := fun _ => Dbl.fin 0
  p := fun _ => Dbl.fin 0
  sn2 := fun _ => Dbl.fin 0
  pb := fun _ => Dbl.fin 0
  pminu := fun _ => Dbl.fin 0
  pb2 := fun _ => Dbl.fin 0
  actmin := fun _ => Dbl.fin 0
  actminsub := fun _ => Dbl.fin 0
  ah := fun _ => Dbl.fin 0
  b := fun _ => Dbl.fin 0
  qeqi := fun _ => Dbl.fin 0
  bmind := fun _ => Dbl.fin 0
  bminv := fun _ => Dbl.fin 0
  lmin := fun _ => Dbl.fin 0
  qisq := fun _ => Dbl.fin 0
  kmod := fun _ => false
  lminflag := fun _ => false
  actbuf := fun _ _ => Dbl.fin 0
  qq := { taca := Dbl.fin 0, tamax := Dbl.fin 0, taminh := Dbl.fin 0, tpfall := Dbl.fin 0,
          tbmax := Dbl.fin 0, qeqmin := Dbl.fin 0, qeqmax := Dbl.fin 0, av := Dbl.fin 0,
          td := Dbl.fin 0, nu := 0, qith := fun _ => Dbl.fin 0, nsmdb := fun _ => Dbl.fin 0 }
  nu := 0
  ibuf := 0
  ac := Dbl.fin 0
  aca := Dbl.fin 0
  acmax := Dbl.fin 0
  amax := Dbl.fin 0
  aminh := Dbl.fin 0
  bmax := Dbl.fin 0
  snrexp := Dbl.fin 0
  nv := Dbl.fin 0
  nd := Dbl.fin 0
  md := Dbl.fin 0
  hd := Dbl.fin 0
  mv := Dbl.fin 0
  hv := Dbl.fin 0
  qeqimax := Dbl.fin 0
  qeqimin := Dbl.fin 0
  nsms := fun _ => Dbl.fin 0

/-- A `MartinEstimation` before its first frame: it needs a reinit. -/
def exMartin : MartinEstimation := { _reinit := true, noise_power := fun _ => Dbl.fin 0 }

/-- Object `A` and the statics after `A` has processed its reinit frame, of power 1. -/
def sessA1 : Statics × MartinEstimation :=
  (MartinEstimation.call refMath exConf1 (constFrame 1) (MartinEstimation.staticsZero, exMartin)).2

/-- Object `A` and the statics after a second frame of power 1, nothing else having run. -/
def sessA2 : Statics × MartinEstimation :=
  (MartinEstimation.call refMath exConf1 (constFrame 1) sessA1).2

/-- A second object `B` and the statics after `B` has processed its own first frame, of
power 1/9, once `A` has processed its reinit frame. -/
def sessB : Statics × MartinEstimation :=
  (MartinEstimation.call refMath exConf1 (constFrame (1 / 3)) (sessA1.1, exMartin)).2

/-- Object `A` and the statics after `A` has processed its second frame, of power 1, once
`B` has run in between. -/
def sessA2afterB : Statics × MartinEstimation :=
  (MartinEstimation.call refMath exConf1 (constFrame 1) (sessB.1, sessA1.2)).2

/-- A `SimpleEstimation` that has been reset and has then accepted one frame of rms 1. -/
def exSimpleUsed : SimpleEstimation :=
  (SimpleEstimation.call refMath exConf1 (SimpleEstimation.specific_onDataUpdate exSimple)
    (constFrame 1)).2

/-! ## Predicates used by the statements and the proofs -/

namespace MartinEstimation

/-- The two sessions agree: same statics, no reinit pending, same `noise_power` below
`nrf`. -/
def Agree (nrf : Nat) (w1 w2 : Statics × MartinEstimation) : Prop :=
  w1.1 = w2.1 ∧ w1.2._reinit = false ∧ w2.2._reinit = false ∧
  ∀ k, k < nrf → w1.2.noise_power k = w2.2.noise_power k

end MartinEstimation

namespace Dbl

/-- A finite non-negative value. -/
def NN (x : Dbl) : Prop := ∃ q : ℚ, x = fin q ∧ 0 ≤ q

/-- `NaN` or a finite non-negative value. -/
def NNn (x : Dbl) : Prop := x = nan ∨ NN x

/-- `NaN` or a non-negative value, `+inf` included. -/
def NNin (x : Dbl) : Prop := x = nan ∨ fin 0 ≤ x

/-- A finite value in `[0, 1]`. -/
def U01 (x : Dbl) : Prop := ∃ q : ℚ, x = fin q ∧ 0 ≤ q ∧ q ≤ 1

/-- `NaN` or a finite value in `[0, 1]`. -/
def U01n (x : Dbl) : Prop := x = nan ∨ U01 x

/-- `NaN`, `+inf` or a finite value at least 1. -/
def GE1n (x : Dbl) : Prop := x = nan ∨ x = pinf ∨ ∃ q : ℚ, x = fin q ∧ 1 ≤ q

/-- `NaN` or a finite value at least 1. -/
def GE1f (x : Dbl) : Prop := x = nan ∨ ∃ q : ℚ, x = fin q ∧ 1 ≤ q

end Dbl

/-- The properties of the `<cmath>` functions that the sign analysis of the Martin
estimator relies on. -/
structure Cmath.Lawful (m : Cmath) : Prop where
  /-- Squaring: `pow(x, 2) = x * x`. -/
  pow_two : ∀ x, m.pow x (Dbl.fin 2) = x * x
  /-- A power of a non-negative base (or of `NaN`) is non-negative or `NaN`. -/
  pow_nonneg : ∀ x y, Dbl.NNin x → Dbl.NNin (m.pow x y)
  /-- On negative arguments `exp` is in `[0, 1]`. -/
  exp_neg : ∀ x, x < Dbl.fin 0 → Dbl.U01 (m.exp x)
  /-- The square root of a negative number is `NaN`. -/
  sqrt_neg : ∀ q : ℚ, q < 0 → m.sqrt (Dbl.fin q) = Dbl.nan
  /-- The square root of a non-negative number is finite and non-negative. -/
  sqrt_nonneg : ∀ q : ℚ, 0 ≤ q → Dbl.NN (m.sqrt (Dbl.fin q))
  /-- On the integers from 1 to 300 `sqrt` is positive and strictly increasing. -/
  sqrt_table : ∀ a b : ℕ, 1 ≤ a → a < b → b ≤ 300 →
    ∃ ra rb : ℚ, m.sqrt (Dbl.fin a) = Dbl.fin ra ∧ m.sqrt (Dbl.fin b) = Dbl.fin rb ∧
      0 < ra ∧ ra < rb

namespace MartinEstimation

/-- The window lengths are at least 1 and the table values `M(nd)`, `M(nv)` are finite
and below 1, unless `M(nd)` is `NaN`. -/
def TableOK (s : Statics) : Prop :=
  (∃ N : ℚ, s.nd = Dbl.fin N ∧ 1 ≤ N) ∧ (∃ n : ℚ, s.nv = Dbl.fin n ∧ 1 ≤ n) ∧
  (s.md = Dbl.nan ∨ ∃ a b : ℚ, s.md = Dbl.fin a ∧ s.mv = Dbl.fin b ∧ a < 1 ∧ b < 1)

/-- The sign invariant of the statics, for `nrf` bins. -/
structure Inv (nrf : Nat) (s : Statics) : Prop where
  /-- Smoothing constant in `[0, 1]`. -/
  aca : Dbl.U01 s.aca
  /-- Limit in `[0, 1]`. -/
  acmax : Dbl.U01 s.acmax
  /-- Smoothing constant in `[0, 1]`. -/
  amax : Dbl.U01 s.amax
  /-- Smoothing constant in `[0, 1]`. -/
  aminh : Dbl.U01 s.aminh
  /-- Upper clamp. -/
  qmax : s.qeqimax = Dbl.fin (1 / 2)
  /-- Lower clamp numerator. -/
  qmin : s.qeqimin = Dbl.fin (1 / 14)
  /-- Bias factor. -/
  av : s.qq.av = Dbl.fin 2.12
  /-- Frame counter. -/
  seg : 0 ≤ s.segment_number
  /-- Window lengths and table values. -/
  table : TableOK s
  /-- The factor `alpha_c`. -/
  ac : Dbl.U01n s.ac
  /-- Smoothed power. -/
  p : ∀ k, k < nrf → Dbl.NNn (s.p k)
  /-- Periodogram. -/
  yft : ∀ k, k < nrf → Dbl.NN (s.yft k)
  /-- Noise estimate. -/
  sn2 : ∀ k, k < nrf → Dbl.NN (s.sn2 k)
  /-- Running minimum. -/
  pminu : ∀ k, k < nrf → Dbl.NN (s.pminu k)
  /-- Sub-window minimum. -/
  actmin : ∀ k, k < nrf → Dbl.NN (s.actmin k)
  /-- Sub-window minimum, sub-window bias. -/
  actminsub : ∀ k, k < nrf → Dbl.NN (s.actminsub k)
  /-- Ring of minima. -/
  actbuf : ∀ j k, j < s.nu.toNat → k < nrf → Dbl.NN (s.actbuf j k)

end MartinEstimation

namespace Dbl

/-- `NaN` or a finite value in `(0, 1/2]`. -/
def QOK (x : Dbl) : Prop := x = nan ∨ ∃ q : ℚ, x = fin q ∧ 0 < q ∧ q ≤ 1 / 2

end Dbl

namespace MartinEstimation

/-- Every bin of the spectrum below `nrf` has finite parts. -/
def FiniteFrame (nrf : Nat) (y : Nat → Cplx) : Prop :=
  ∀ k, k < nrf → ∃ a b : ℚ, (y k).re = Dbl.fin a ∧ (y k).im = Dbl.fin b

/-- The abscissae of the table, as natural numbers. -/
def T0 (i : Nat) : Nat :=
  [1, 2, 5, 8, 10, 15, 20, 30, 40, 60, 80, 120, 140, 160, 180, 220, 260, 300].getD i 0

/-- The row `m` of the table. -/
def T1 (i : Nat) : ℚ := (dmh.getD 1 []).getD i 0

end MartinEstimation

/-! ## The table rows, the ring of minima, `mapReduce2_n` and further concrete inputs -/

namespace MartinEstimation

/-- The row `h` of the table. -/
def T2 (i : Nat) : ℚ := (dmh.getD 2 []).getD i 0

end MartinEstimation

namespace MathUtil

/-- The template `MathUtil::mapReduce2_n` (lines 79-99), run by one worker: as
`mapReduce_n`, with a map of two arguments read from two arrays. -/
def mapReduce2_n {α β T : Type} (inp : Nat → α) (inp2 : Nat → β) (size : Nat) (baseval : T)
    (map : α → β → T) (reduce : T → T → T) : T :=
  let val := baseval
  let map_val := (List.range size).foldl (fun acc i => reduce acc (map (inp i) (inp2 i))) baseval
  reduce val map_val

/-- What the documentation of `mapReduce_n` promises (`baseval`: "Base value, like for
std::accumulate"): the left fold
`reduce(...reduce(reduce(baseval, map(in[0])), map(in[1]))..., map(in[size-1]))`. -/
def accumulateSpec {α T : Type} (inp : Nat → α) (size : Nat) (baseval : T)
    (map : α → T) (reduce : T → T → T) : T :=
  (List.range size).foldl (fun acc i => reduce acc (map (inp i))) baseval

/-- The same promise for `mapReduce2_n`. -/
def accumulateSpec2 {α β T : Type} (inp : Nat → α) (inp2 : Nat → β) (size : Nat) (baseval : T)
    (map : α → β → T) (reduce : T → T → T) : T :=
  (List.range size).foldl (fun acc i => reduce acc (map (inp i) (inp2 i))) baseval

end MathUtil

/-- The array `{10, 20}`. -/
def exInts : Nat → Int := fun i => if i = 0 then 10 else 20

namespace MartinEstimation

/-- The ring `actbuf` after the save of lines 266-270: the slot `ibuf % nu` holds the
`nrf` first entries of `actmin`. -/
def ringSaved (nrf : Nat) (s : Statics) : Nat → Nat → Dbl := fun j =>
  if j = (Int.tmod s.ibuf s.nu).toNat then forLoop nrf (fun i => s.actmin i) (s.actbuf j)
  else s.actbuf j

/-- The value the loop of lines 272-280 gives to `pminu[i]`: `tmp` starts at 1 and
takes the minimum with every slot of the ring. -/
def pminuMin (nrf : Nat) (s : Statics) (i : Nat) : Dbl :=
  (List.range s.nu.toNat).foldl (fun tmp j => Dbl.min tmp (ringSaved nrf s j i)) (Dbl.fin 1)

/-- The local `nsm` (lines 282-292): the entry of `nsms` at the slope index. -/
def nsmOf (m : Cmath) (nrf : Nat) (s : Statics) : Dbl :=
  readAt m s.nsms (slopeIndex (qiav m nrf s) s.qq.qith)

/-- The mean of `Qeqi` with a `double` accumulator, `accumulate(qeqi, qeqi + nrf, 0.) / nrf`:
what line 238 would compute with the initial value `0.` of lines 217 and 223. -/
def qiavSpec (nrf : Nat) (s : Statics) : Dbl :=
  accumulate s.qeqi nrf / Dbl.ofInt nrf

end MartinEstimation

/-- A one-bin configuration at 16 kHz with a hop of 768 samples (`tinc = 0.048`): the
sub-windows have `nv = 4` frames. -/
def exConf48 : Conf := { spectrumSize := 1, getFrameIncrement := 768, getSamplingRate := 16000 }

/-- The statics after four frames of power 2.25, the first one a reinit frame. -/
def sess48 : Statics × MartinEstimation :=
  MartinEstimation.run refMath exConf48 (MartinEstimation.staticsZero, exMartin)
    [constFrame 1.5, constFrame 1.5, constFrame 1.5, constFrame 1.5]

/-- The statics of the fifth frame, of power 100, on entry to its sub-window phase
(line 255): the frame is the second sub-window boundary of the session. -/
def exBoundary : Statics :=
  MartinEstimation.algoTrack refMath 1 (MartinEstimation.algoSmooth refMath 1
    (MartinEstimation.algoNext (constFrame 10) 1 sess48.1))

/-- The statics of a second frame, of power 100 after a reinit frame of power 1, when
`qiav` is computed (line 238). -/
def exLoud : Statics :=
  MartinEstimation.algoSmooth refMath 1 (MartinEstimation.algoNext (constFrame 10) 1 sessA1.1)

/-- The statics of a reinit frame of power 1 on entry to its sub-window phase (line 255). -/
def exReinit : Statics :=
  MartinEstimation.algoTrack refMath 1 (MartinEstimation.algoSmooth refMath 1
    (MartinEstimation.algoInit refMath (constFrame 1) 1 (Dbl.fin 0.016)))

/-! ## Positivity predicates and the divisors of the main processing -/

namespace Dbl

/-- A finite positive value. -/
def Pos (x : Dbl) : Prop := ∃ q : ℚ, x = fin q ∧ 0 < q

/-- `NaN` or a finite positive value. -/
def PosN (x : Dbl) : Prop := x = nan ∨ Pos x

end Dbl

namespace MartinEstimation

/-- The divisor of the lower clamp of `Qeqi` (line 235, `qeqimin / segment_number`): the
frame counter. -/
def clampDivisor (s : Statics) : Dbl := Dbl.ofInt s.segment_number

/-- The other divisors of the main processing (lines 217-243) for the bin `k`, in the
order of the source, `s` being the statics on entry to the main processing: `sum(y)` and
`1 + (..)²` (line 217), `sn2[k]` and `1 + (..)²` (line 221), `sum(sn2)` (line 223),
`2·sn2[k]²` (line 235), `nrf` (line 238), `Qeqi[k]` and `1/Qeqi[k] − 2·M` for `M(nd)`
(line 242) and for `M(nv)` (line 243). -/
def frameDivisors (m : Cmath) (nrf : Nat) (s : Statics) (k : Nat) : List Dbl :=
  [ accumulate s.yft nrf,
    Dbl.fin 1 + m.pow (accumulate s.p nrf / accumulate s.yft nrf - Dbl.fin 1) (Dbl.fin 2),
    s.sn2 k,
    Dbl.fin 1 + m.pow (s.p k / s.sn2 k - Dbl.fin 1) (Dbl.fin 2),
    accumulate s.sn2 nrf,
    Dbl.fin 2 * m.pow (s.sn2 k) (Dbl.fin 2),
    Dbl.ofInt nrf,
    (algoSmooth m nrf s).qeqi k,
    Dbl.fin 1 / (algoSmooth m nrf s).qeqi k - Dbl.fin 2 * s.md,
    Dbl.fin 1 / (algoSmooth m nrf s).qeqi k - Dbl.fin 2 * s.mv ]

/-- Every bin of the spectrum below `nrf` is finite and not zero. -/
def PositiveFrame (nrf : Nat) (y : Nat → Cplx) : Prop :=
  ∀ k, k < nrf → ∃ a b : ℚ, (y k).re = Dbl.fin a ∧ (y k).im = Dbl.fin b ∧ (a ≠ 0 ∨ b ≠ 0)

/-- The table values `M(nd)` and `M(nv)` are `NaN` or in `(0, 1)`. -/
def TablePos (s : Statics) : Prop :=
  (s.md = Dbl.nan ∨ ∃ a : ℚ, s.md = Dbl.fin a ∧ 0 < a ∧ a < 1) ∧
  (s.mv = Dbl.nan ∨ ∃ b : ℚ, s.mv = Dbl.fin b ∧ 0 < b ∧ b < 1)

/-- The positivity invariant of the statics, for `nrf` bins. -/
structure PInv (nrf : Nat) (s : Statics) : Prop where
  /-- Table values. -/
  table : TablePos s
  /-- Smoothed power. -/
  p : ∀ k, k < nrf → Dbl.PosN (s.p k)
  /-- Noise estimate. -/
  sn2 : ∀ k, k < nrf → Dbl.Pos (s.sn2 k)
  /-- Running minimum. -/
  pminu : ∀ k, k < nrf → Dbl.Pos (s.pminu k)
  /-- Sub-window minimum. -/
  actmin : ∀ k, k < nrf → Dbl.Pos (s.actmin k)
  /-- Sub-window minimum, sub-window bias. -/
  actminsub : ∀ k, k < nrf → Dbl.Pos (s.actminsub k)
  /-- Ring of minima. -/
  actbuf : ∀ j k, j < s.nu.toNat → k < nrf → Dbl.Pos (s.actbuf j k)

end MartinEstimation

/-- The statics of a reinit frame `Y[k] = δ_{k,32}` of 64 bins on entry to the main
processing (line 217). -/
def exDelta : Statics := MartinEstimation.algoInit refMath delta32 64 (Dbl.fin 0.016)

/-- Three one-bin frames of rms 1.02, 1.0404 and 1.061208: each is 2% louder than the
one before, the first one 2% louder than the `noise_rms = 1` of `exSimple`. -/
def exLouder : List (Nat → Cplx) :=
  [constFrame 1.02, constFrame 1.0404, constFrame 1.061208]

/-! ## A saturating platform and the heap blocks of the static arrays -/

/-- A second concrete `Cmath`: the stand-ins of `refMath` with the answers of a build whose
conversion from `double` to `int` saturates (AArch64 `fcvtzs`: `INT_MAX` above the range,
`INT_MIN` below it, 0 for `NaN`). -/
def satMath : Cmath :=
  { refMath with
    toIntUB := fun x =>
      match x with
      | Dbl.nan => 0
      | Dbl.ninf => Dbl.INT_MIN
      | Dbl.pinf => Dbl.INT_MAX
      | Dbl.fin q => if q < 0 then Dbl.INT_MIN else Dbl.INT_MAX }

/-- The statics of a reinit frame of power 1 when `qiav` is computed (line 238), on the
saturating platform. -/
def exSatReinit : Statics :=
  MartinEstimation.algoSmooth satMath 1
    (MartinEstimation.algoInit satMath (constFrame 1) 1 (Dbl.fin 0.016))

/-- Two frames of power 1 from a reinit, one bin at 16 kHz with a hop of 256, on the
saturating platform. -/
def sessSat : Statics × MartinEstimation :=
  MartinEstimation.run satMath exConf1 (MartinEstimation.staticsZero, exMartin)
    [constFrame 1, constFrame 1]

/-- The heap blocks behind the static pointers of `algo` (lines 18-37). -/
inductive Heap where
  /-- Every pointer is `nullptr`: no reinit has run yet. -/
  | null
  /-- The blocks allocated by the last reinit (lines 141-192): arrays of `len` entries and
  a ring `actbuf` of `rows` rows. -/
  | live (rows len : Nat)
  /-- The blocks have been deleted by the `lastcall` branch (lines 55-86), which leaves
  every pointer at its old value. -/
  | dangling
  deriving DecidableEq

namespace MartinEstimation

/-- Whether a call of `algo` has defined behaviour on the heap.

* `lastcall` (lines 55-86): `delete[]` on null pointers does nothing; on live blocks the
  loop `i < nu` must stay within the rows of the ring; on dangling pointers every
  `delete[]` is a double free.
* `reinit` (lines 89-207): `nu` is assigned first (lines 112 and 125), then each array is
  deleted if its pointer is not null (a double free on dangling pointers), then the loop
  `i < nu` of lines 179-182 deletes `actbuf[i]` for the NEW `nu`, which must not exceed
  the rows of the OLD ring; `new double*[nu]` needs `nu ≥ 0`.
* otherwise the frame reads and writes the `nrf` first entries of the arrays and the
  `nu` rows of the ring, which must be live and that large. -/
def algoDefined (m : Cmath) (nrf : Nat) (tinc : Dbl) (reinit lastcall : Bool) (h : Heap)
    (s : Statics) : Bool :=
  if lastcall then
    match h with
    | Heap.null => true
    | Heap.live rows _ => decide (s.nu ≤ (rows : Int))
    | Heap.dangling => false
  else if reinit then
    match h with
    | Heap.null => decide (0 ≤ nuInit m tinc)
    | Heap.live rows _ => decide (0 ≤ nuInit m tinc ∧ nuInit m tinc ≤ (rows : Int))
    | Heap.dangling => false
  else
    match h with
    | Heap.live rows len => decide (nrf ≤ len ∧ s.nu ≤ (rows : Int))
    | _ => false

/-- The heap after a call of `algo` with defined behaviour. -/
def heapAfter (m : Cmath) (nrf : Nat) (tinc : Dbl) (reinit lastcall : Bool) (h : Heap) : Heap :=
  if lastcall then
    match h with
    | Heap.null => Heap.null
    | _ => Heap.dangling
  else if reinit then Heap.live (nuInit m tinc).toNat nrf
  else h

/-- The function `MartinEstimation::algo` with its heap: `none` when the call has
undefined behaviour on the heap, and otherwise the new heap with the values that `algo`
computes. -/
def algoH (m : Cmath) (spectrum : Nat → Cplx) (nrf : Nat) (x : Nat → Dbl) (tinc : Dbl)
    (reinit lastcall : Bool) (h : Heap) (s : Statics) :
    Option (Heap × Statics × (Nat → Dbl)) :=
  if algoDefined m nrf tinc reinit lastcall h s then
    some (heapAfter m nrf tinc reinit lastcall h,
      (algo m spectrum nrf x tinc reinit lastcall s).1,
      (algo m spectrum nrf x tinc reinit lastcall s).2)
  else none

/-- The call operator `MartinEstimation::operator()` with the heap. -/
def callH (m : Cmath) (conf : Conf) (input_spectrum : Nat → Cplx)
    (w : Heap × Statics × MartinEstimation) : Option (Heap × Statics × MartinEstimation) :=
  match algoH m input_spectrum conf.spectrumSize w.2.2.noise_power (tincOf conf)
      w.2.2._reinit false w.1 w.2.1 with
  | some r => some (r.1, r.2.1, { _reinit := false, noise_power := r.2.2 })
  | none => none

/-- The destructor `MartinEstimation::~MartinEstimation` (lines 368-372), which calls
`algo(nullptr, 0, nullptr, 0, false, true)`: the heap and the statics it leaves. -/
def destroyH (m : Cmath) (w : Heap × Statics × MartinEstimation) : Option (Heap × Statics) :=
  match algoH m (fun _ => { re := Dbl.fin 0, im := Dbl.fin 0 }) 0 w.2.2.noise_power (Dbl.fin 0)
      false true w.1 w.2.1 with
  | some r => some (r.1, r.2.1)
  | none => none

/-- A sequence of frames handed to `operator()`, with the heap. -/
def runH (m : Cmath) (conf : Conf) (w : Heap × Statics × MartinEstimation)
    (frames : List (Nat → Cplx)) : Option (Heap × Statics × MartinEstimation) :=
  frames.foldl (fun st y => st.bind (callH m conf y)) (some w)

end MartinEstimation

/-- A one-bin configuration at 16 kHz with a hop of 1024 samples (`tinc = 0.064`): the
reinit sets `nv = 4` and `nu = 6`. -/
def exConf1024 : Conf :=
  { spectrumSize := 1, getFrameIncrement := 1024, getSamplingRate := 16000 }

/-- The heap, the statics and the object after one frame of power 1 at a hop of 1024
samples, from the start of the process. -/
def hist1024 : Option (Heap × Statics × MartinEstimation) :=
  MartinEstimation.callH refMath exConf1024 (constFrame 1)
    (Heap.null, MartinEstimation.staticsZero, exMartin)

/-- The heap, the statics and the object after one frame of power 1 at a hop of 256
samples, from the start of the process. -/
def hist256 : Option (Heap × Statics × MartinEstimation) :=
  MartinEstimation.callH refMath exConf1 (constFrame 1)
    (Heap.null, MartinEstimation.staticsZero, exMartin)

/-! ## Theorems -/

namespace Dbl

theorem add_def (a b : Dbl) : a + b = add a b := rfl

theorem sub_def (a b : Dbl) : a - b = add a (neg b) := rfl

theorem mul_def (a b : Dbl) : a * b = mul a b := rfl

theorem div_def (a b : Dbl) : a / b = div a b := rfl

theorem neg_def (a : Dbl) : -a = neg a := rfl

theorem lt_def (a b : Dbl) : a < b ↔ blt a b = true := Iff.rfl

theorem le_def (a b : Dbl) : a ≤ b ↔ ble a b = true := Iff.rfl

theorem zero_add (x : Dbl) : fin 0 + x = x := by
  cases x <;> simp [add_def, add]

theorem not_le_of_lt (a b : Dbl) (h : a < b) : ¬ b ≤ a := by
  cases a <;> cases b <;> simp [lt_def, le_def, blt, ble] at h ⊢
  exact h

end Dbl

theorem MathUtil.mapReduce_n_plus (inp : Nat → Cplx) (size : Nat) :
    MathUtil.mapReduce_n inp size (Dbl.fin 0) MathUtil.CplxToPower (fun a b => a + b)
      = accumulate (fun k => MathUtil.CplxToPower (inp k)) size := by
  simp [MathUtil.mapReduce_n, accumulate, Dbl.zero_add]

theorem SimpleEstimation.call_cur (m : Cmath) (conf : Conf) (e : SimpleEstimation)
    (y : Nat → Cplx) :
    SimpleEstimation.call m conf e y =
      if SimpleEstimation.cur m conf.spectrumSize y < e.noise_rms ∨
          (e.noise_rms ≤ SimpleEstimation.cur m conf.spectrumSize y ∧
            SimpleEstimation.cur m conf.spectrumSize y ≤ e.noise_rms * Dbl.fin 1.02) then
        (true, { noise_rms := SimpleEstimation.cur m conf.spectrumSize y
                 noise_power :=
                   MathUtil.computePowerSpectrum y e.noise_power conf.spectrumSize })
      else (false, e) := by
  simp only [SimpleEstimation.call, SimpleEstimation.updateNoise, SimpleEstimation.cur,
    MathUtil.mapReduce_n_plus]
  split <;> rfl

/-- C4: `SimpleEstimation::operator()` on a spectrum `Y`, with
`cur = sqrt (Σ_k |Y[k]|² / nrf)`: it returns true exactly when `cur < noise_rms` or
`noise_rms ≤ cur ≤ 1.02 * noise_rms`; and when it returns true, afterwards
`noise_rms = cur` and `noise_power[k] = |Y[k]|²` for every bin `k`. -/
theorem SimpleEstimation.call_accepts_iff (m : Cmath) (conf : Conf) (e : SimpleEstimation)
    (y : Nat → Cplx) :
    ((SimpleEstimation.call m conf e y).1 = true ↔
      (SimpleEstimation.cur m conf.spectrumSize y < e.noise_rms ∨
        (e.noise_rms ≤ SimpleEstimation.cur m conf.spectrumSize y ∧
          SimpleEstimation.cur m conf.spectrumSize y ≤ e.noise_rms * Dbl.fin 1.02))) ∧
    ((SimpleEstimation.call m conf e y).1 = true →
      (SimpleEstimation.call m conf e y).2.noise_rms = SimpleEstimation.cur m conf.spectrumSize y ∧
      ∀ k, k < conf.spectrumSize →
        (SimpleEstimation.call m conf e y).2.noise_power k
          = (y k).re * (y k).re + (y k).im * (y k).im) := by
  rw [SimpleEstimation.call_cur]
  by_cases hc : SimpleEstimation.cur m conf.spectrumSize y < e.noise_rms ∨
      (e.noise_rms ≤ SimpleEstimation.cur m conf.spectrumSize y ∧
        SimpleEstimation.cur m conf.spectrumSize y ≤ e.noise_rms * Dbl.fin 1.02)
  · rw [if_pos hc]
    refine ⟨⟨fun _ => hc, fun _ => rfl⟩, fun _ => ⟨rfl, ?_⟩⟩
    intro k hk
    simp [MathUtil.computePowerSpectrum, forLoop, hk, MathUtil.CplxToPower]
  · rw [if_neg hc]
    exact ⟨⟨fun h => absurd h (by simp), fun h => absurd h hc⟩, fun h => absurd h (by simp)⟩

namespace Dbl

theorem truncQ_intCast (n : Int) : truncQ (n : ℚ) = n := by
  unfold truncQ
  split
  · exact Int.floor_intCast n
  · rw [← Int.cast_neg, Int.floor_intCast]; omega

end Dbl

theorem Cmath.toInt_intCast (m : Cmath) (n : Int) (h1 : Dbl.INT_MIN ≤ n) (h2 : n ≤ Dbl.INT_MAX) :
    m.toInt (Dbl.fin (n : ℚ)) = n := by
  simp [Cmath.toInt, Dbl.truncQ_intCast, h1, h2]

namespace MartinEstimation

theorem nvInit_eq (tinc : Dbl) (ht : Dbl.fin 0 < tinc) :
    ∃ n : Int, 4 ≤ n ∧ nvInit tinc = Dbl.fin (n : ℚ) := by
  unfold nvInit
  have hr : ∃ r : Int, Dbl.round (qqInit.td / (tinc * Dbl.ofInt qqInit.nu)) = Dbl.fin (r : ℚ) := by
    cases tinc with
    | nan => simp [Dbl.lt_def, Dbl.blt] at ht
    | ninf => simp [Dbl.lt_def, Dbl.blt] at ht
    | pinf =>
      refine ⟨Dbl.roundQ 0, ?_⟩
      norm_num [qqInit, Dbl.ofInt, Dbl.mul_def, Dbl.mul, Dbl.infTimes, Dbl.div_def, Dbl.div,
        Dbl.round]
    | fin t =>
      have ht0 : (0 : ℚ) < t := by simpa [Dbl.lt_def, Dbl.blt] using ht
      refine ⟨Dbl.roundQ (1.536 / (t * 8)), ?_⟩
      have : t * 8 ≠ 0 := by positivity
      simp [qqInit, Dbl.ofInt, Dbl.mul_def, Dbl.mul, Dbl.div_def, Dbl.div, Dbl.round, this]
  obtain ⟨r, hr⟩ := hr
  simp only [hr]
  by_cases h4 : Dbl.fin (r : ℚ) < Dbl.fin 4
  · exact ⟨4, le_refl _, by simp [h4]⟩
  · refine ⟨r, ?_, by simp [h4]⟩
    have : ¬ ((r : ℚ) < 4) := by simpa [Dbl.lt_def, Dbl.blt] using h4
    have h : (4 : ℚ) ≤ r := not_lt.mp this
    exact_mod_cast h

end MartinEstimation

namespace Dbl

@[simp] theorem fin_lt_fin (a b : ℚ) : fin a < fin b ↔ a < b := by simp [lt_def, blt]

@[simp] theorem fin_le_fin (a b : ℚ) : fin a ≤ fin b ↔ a ≤ b := by simp [le_def, ble]

@[simp] theorem not_nan_lt (x : Dbl) : ¬ nan < x := by simp [lt_def, blt]

@[simp] theorem not_lt_nan (x : Dbl) : ¬ x < nan := by cases x <;> simp [lt_def, blt]

@[simp] theorem not_nan_le (x : Dbl) : ¬ nan ≤ x := by simp [le_def, ble]

@[simp] theorem not_le_nan (x : Dbl) : ¬ x ≤ nan := by cases x <;> simp [le_def, ble]

@[simp] theorem fin_lt_pinf (a : ℚ) : fin a < pinf := by simp [lt_def, blt]

@[simp] theorem fin_le_pinf (a : ℚ) : fin a ≤ pinf := by simp [le_def, ble]

@[simp] theorem not_pinf_lt (x : Dbl) : ¬ pinf < x := by simp [lt_def, blt]

@[simp] theorem not_pinf_le_fin (a : ℚ) : ¬ pinf ≤ fin a := by simp [le_def, ble]

@[simp] theorem ninf_lt_fin (a : ℚ) : ninf < fin a := by simp [lt_def, blt]

@[simp] theorem ninf_le_fin (a : ℚ) : ninf ≤ fin a := by simp [le_def, ble]

@[simp] theorem not_lt_ninf (x : Dbl) : ¬ x < ninf := by cases x <;> simp [lt_def, blt]

@[simp] theorem not_fin_le_ninf (a : ℚ) : ¬ fin a ≤ ninf := by simp [le_def, ble]

@[simp] theorem ninf_lt_pinf : ninf < pinf := by simp [lt_def, blt]

@[simp] theorem pinf_le_pinf : pinf ≤ pinf := by simp [le_def, ble]

@[simp] theorem ninf_le_ninf : ninf ≤ ninf := by simp [le_def, ble]

@[simp] theorem ninf_le_pinf : ninf ≤ pinf := by simp [le_def, ble]

@[simp] theorem not_pinf_le_ninf : ¬ pinf ≤ ninf := by simp [le_def, ble]

theorem clamp_range (x : Dbl) (a c : ℚ) (hca : c ≤ a) :
    max (min x (fin a)) (fin c) = nan ∨
      (fin c ≤ max (min x (fin a)) (fin c) ∧ max (min x (fin a)) (fin c) ≤ fin a) := by
  have hac : ¬ a < c := not_lt.mpr hca
  cases x with
  | nan => left; simp [max, min]
  | ninf => right; simp [max, min, hca]
  | pinf => right; simp [max, min, hca, hac]
  | fin q =>
    right
    by_cases h1 : a < q
    · simp [max, min, h1, hac, hca]
    · by_cases h2 : q < c
      · simp [max, min, h1, h2, hca]
      · simp [max, min, h1, h2, not_lt.mp h1, not_lt.mp h2]

end Dbl

namespace MartinEstimation

theorem run_cons (m : Cmath) (conf : Conf) (w : Statics × MartinEstimation)
    (y : Nat → Cplx) (ys : List (Nat → Cplx)) :
    run m conf w (y :: ys) = run m conf (call m conf y w).2 ys := rfl

theorem run_append (m : Cmath) (conf : Conf) (w : Statics × MartinEstimation)
    (ys zs : List (Nat → Cplx)) :
    run m conf w (ys ++ zs) = run m conf (run m conf w ys) zs := by
  simp [run, List.foldl_append]

/-- Induction along a session whose frames all satisfy `Q`: a property of the statics
and the object that holds after a reinit frame and is kept by every later frame holds
after every frame. -/
theorem run_induction (m : Cmath) (conf : Conf) (Q : (Nat → Cplx) → Prop)
    (P : Nat → Statics × MartinEstimation → Prop)
    (hinit : ∀ (s : Statics) (x : Nat → Dbl) (y : Nat → Cplx), Q y →
      P 0 (call m conf y (s, { _reinit := true, noise_power := x })).2)
    (hstep : ∀ (t : Nat) (s : Statics) (x : Nat → Dbl) (y : Nat → Cplx), Q y →
      P t (s, { _reinit := false, noise_power := x }) →
      P (t + 1) (call m conf y (s, { _reinit := false, noise_power := x })).2)
    (s : Statics) (e : MartinEstimation) (he : e._reinit = true)
    (y0 : Nat → Cplx) (ys : List (Nat → Cplx)) (hQ : ∀ y ∈ y0 :: ys, Q y) :
    P ys.length (run m conf (s, e) (y0 :: ys)) := by
  have hgen : ∀ (zs : List (Nat → Cplx)) (t : Nat) (w : Statics × MartinEstimation),
      (∀ z ∈ zs, Q z) → w.2._reinit = false → P t w →
      P (t + zs.length) (run m conf w zs) := by
    intro zs
    induction zs with
    | nil => intro t w _ _ hP; simpa [run] using hP
    | cons z zs ih =>
      intro t w hz hw hP
      rw [run_cons]
      have h1 : P (t + 1) (call m conf z w).2 := by
        obtain ⟨s1, e1⟩ := w
        obtain ⟨r1, x1⟩ := e1
        simp only at hw
        subst hw
        exact hstep t s1 x1 z (hz z (List.mem_cons_self z zs)) hP
      have := ih (t + 1) (call m conf z w).2
        (fun u hu => hz u (List.mem_cons_of_mem z hu)) rfl h1
      simpa [Nat.add_assoc, Nat.add_comm 1] using this
  rw [run_cons]
  obtain ⟨r, x⟩ := e
  simp only at he
  subst he
  have := hgen ys 0 (call m conf y0 (s, { _reinit := true, noise_power := x })).2
    (fun u hu => hQ u (List.mem_cons_of_mem y0 hu)) rfl
    (hinit s x y0 (hQ y0 (List.mem_cons_self y0 ys)))
  simpa using this

theorem algoTrack_actmin (m : Cmath) (nrf : Nat) (s : Statics) (k : Nat) :
    (algoTrack m nrf s).actmin k < s.actmin k ∨ (algoTrack m nrf s).actmin k = s.actmin k := by
  simp only [algoTrack, forLoop]
  by_cases hk : k < nrf
  · simp only [hk, if_true]
    split
    · left; simp_all
    · right; rfl
  · right; simp [hk]

theorem algoWindow_actmin (m : Cmath) (nrf : Nat) (s : Statics) (k : Nat) :
    (algoWindow m nrf s).actmin k = s.actmin k ∨
    ((¬ (0 < s.subwc ∧ Dbl.ofInt s.subwc < s.nv) ∧ s.nv ≤ Dbl.ofInt s.subwc) ∧
      (algoWindow m nrf s).actmin k = Dbl.ofInt Dbl.INT_MAX) := by
  unfold algoWindow
  by_cases hmid : 0 < s.subwc ∧ Dbl.ofInt s.subwc < s.nv
  · left; simp only [if_pos hmid]; rfl
  · by_cases hb : s.nv ≤ Dbl.ofInt s.subwc
    · simp only [if_neg hmid, if_pos hb]
      by_cases hk : k < nrf
      · right; exact ⟨⟨hmid, hb⟩, by simp [algoBoundary, forLoop, hk]⟩
      · left; simp [algoBoundary, forLoop, hk]
    · left; simp only [if_neg hmid, if_neg hb]

theorem Dbl_le_of_lt_or_eq (a b : Dbl) (hb : b.isNum = true) (h : a < b ∨ a = b) : a ≤ b := by
  rcases h with h | h
  · cases a <;> cases b <;> simp_all [Dbl.lt_def, Dbl.le_def, Dbl.blt, Dbl.ble]
    exact le_of_lt h
  · subst h
    cases a <;> simp_all [Dbl.le_def, Dbl.ble, Dbl.isNum]

/-- C6: monotone minimum.  In a frame without reinit that takes the middle branch
(`0 < subwc < nv` on entry), `actmin[k]` after the frame is below or equal to `actmin[k]`
before it, for every bin `k` (`≤` of C++ when the old value is a number).  And in any
frame without reinit in which `actmin[k]` is not lowered or kept, the boundary branch
ran and `actmin[k]` was reset to `INT_MAX`. -/
theorem actmin_monotone (m : Cmath) (spectrum : Nat → Cplx) (nrf : Nat) (x : Nat → Dbl)
    (tinc : Dbl) (s : Statics) (k : Nat) :
    ((0 < s.subwc ∧ Dbl.ofInt s.subwc < s.nv) →
      ((algo m spectrum nrf x tinc false false s).1.actmin k < s.actmin k ∨
        (algo m spectrum nrf x tinc false false s).1.actmin k = s.actmin k) ∧
      ((s.actmin k).isNum = true →
        (algo m spectrum nrf x tinc false false s).1.actmin k ≤ s.actmin k)) ∧
    (¬ ((algo m spectrum nrf x tinc false false s).1.actmin k < s.actmin k ∨
        (algo m spectrum nrf x tinc false false s).1.actmin k = s.actmin k) →
      (¬ (0 < s.subwc ∧ Dbl.ofInt s.subwc < s.nv) ∧ s.nv ≤ Dbl.ofInt s.subwc) ∧
      (algo m spectrum nrf x tinc false false s).1.actmin k = Dbl.ofInt Dbl.INT_MAX) := by
  have hT := algoTrack_actmin m nrf (algoSmooth m nrf (algoNext spectrum nrf s)) k
  have hW := algoWindow_actmin m nrf (algoTrack m nrf (algoSmooth m nrf (algoNext spectrum nrf s))) k
  have hold : (algoSmooth m nrf (algoNext spectrum nrf s)).actmin k = s.actmin k := rfl
  have hsub : (algoTrack m nrf (algoSmooth m nrf (algoNext spectrum nrf s))).subwc = s.subwc := rfl
  have hnv : (algoTrack m nrf (algoSmooth m nrf (algoNext spectrum nrf s))).nv = s.nv := rfl
  rw [hold] at hT
  rw [hsub, hnv] at hW
  have hres : (algo m spectrum nrf x tinc false false s).1.actmin k
      = (algoWindow m nrf (algoTrack m nrf (algoSmooth m nrf (algoNext spectrum nrf s)))).actmin k := by
    simp [algo, algoOutput]
  rw [hres]
  constructor
  · intro hmid
    have hkeep : (algoWindow m nrf (algoTrack m nrf (algoSmooth m nrf
        (algoNext spectrum nrf s)))).actmin k
        = (algoTrack m nrf (algoSmooth m nrf (algoNext spectrum nrf s))).actmin k := by
      rcases hW with h | h
      · exact h
      · exact absurd hmid h.1.1
    rw [hkeep]
    exact ⟨hT, fun hnum => Dbl_le_of_lt_or_eq _ _ hnum hT⟩
  · intro hraised
    rcases hW with h | h
    · rw [h] at hraised
      exact absurd hT hraised
    · exact h

/-- Witness of C6: the second frame of a session of constant frames is a middle frame
(`subwc = 1 < nv = 12`) and lowers `actmin[0]` from `INT_MAX`. -/
theorem actmin_monotone_witness :
    (0 < sessA1.1.subwc ∧ Dbl.ofInt sessA1.1.subwc < sessA1.1.nv) ∧
    (sessA1.1.actmin 0).isNum = true ∧
    (algo refMath (constFrame 1) 1 (fun _ => Dbl.fin 0) (Dbl.fin 0.016) false false
      sessA1.1).1.actmin 0 ≤ sessA1.1.actmin 0 :=
  ⟨by decide!, by decide!,
    ((actmin_monotone refMath (constFrame 1) 1 (fun _ => Dbl.fin 0) (Dbl.fin 0.016)
      sessA1.1 0).1 (by decide!)).2 (by decide!)⟩

/-- C7: Martin reinit idempotence.  Two `onDataUpdate()` in a row leave the object as one
does (it only raises `_reinit`), so the statics, the object and the `noise_power`
outputs after any sequence of frames are the same. -/
theorem onDataUpdate_idempotent (e : MartinEstimation) :
    specific_onDataUpdate (specific_onDataUpdate e) = specific_onDataUpdate e ∧
    ∀ (m : Cmath) (conf : Conf) (s : Statics) (frames : List (Nat → Cplx)),
      run m conf (s, specific_onDataUpdate (specific_onDataUpdate e)) frames
        = run m conf (s, specific_onDataUpdate e) frames :=
  ⟨rfl, fun _ _ _ _ => rfl⟩

theorem algo_statics_indep (m : Cmath) (y : Nat → Cplx) (nrf : Nat) (x1 x2 : Nat → Dbl)
    (tinc : Dbl) (s1 s2 : Statics) :
    (algo m y nrf x1 tinc true false s1).1 = (algo m y nrf x2 tinc true false s2).1 ∧
    (algo m y nrf x1 tinc false false s1).1 = (algo m y nrf x2 tinc false false s1).1 := by
  simp [algo]

theorem agree_call (m : Cmath) (conf : Conf) (y : Nat → Cplx)
    (w1 w2 : Statics × MartinEstimation)
    (h : Agree conf.spectrumSize w1 w2 ∨ (w1.2._reinit = true ∧ w2.2._reinit = true)) :
    Agree conf.spectrumSize (call m conf y w1).2 (call m conf y w2).2 := by
  obtain ⟨s1, r1, x1⟩ := w1
  obtain ⟨s2, r2, x2⟩ := w2
  rcases h with ⟨hs, hr1, hr2, _⟩ | ⟨hr1, hr2⟩
  · simp only at hs hr1 hr2
    subst hs hr1 hr2
    refine ⟨?_, rfl, rfl, ?_⟩
    · simp [call, algo]
    · intro k hk
      simp [call, algo, forLoop, hk]
  · simp only at hr1 hr2
    subst hr1 hr2
    refine ⟨?_, rfl, rfl, ?_⟩
    · simp [call, algo]
    · intro k hk
      simp [call, algo, forLoop, hk]

theorem agree_run (m : Cmath) (conf : Conf) (ys : List (Nat → Cplx)) :
    ∀ (w1 w2 : Statics × MartinEstimation), Agree conf.spectrumSize w1 w2 →
      Agree conf.spectrumSize (run m conf w1 ys) (run m conf w2 ys) := by
  induction ys with
  | nil => intro w1 w2 h; exact h
  | cons y ys ih =>
    intro w1 w2 h
    rw [run_cons, run_cons]
    exact ih _ _ (agree_call m conf y w1 w2 (Or.inl h))

theorem agree_after_reset (m : Cmath) (conf : Conf) (w1 w2 : Statics × MartinEstimation)
    (h1 : w1.2._reinit = true) (h2 : w2.2._reinit = true)
    (y0 : Nat → Cplx) (ys : List (Nat → Cplx)) :
    Agree conf.spectrumSize (run m conf w1 (y0 :: ys)) (run m conf w2 (y0 :: ys)) := by
  rw [run_cons, run_cons]
  exact agree_run m conf ys _ _ (agree_call m conf y0 w1 w2 (Or.inr ⟨h1, h2⟩))

/-- The values after a Martin reset do not depend on the history.  Take any two statics
`s1`, `s2` and objects `e1`, `e2`.  After `onDataUpdate()` on both, or
`onFFTSizeUpdate()` on both, feeding the same frames `y0, ys` with the same configuration
leaves, after every frame, the same values of the statics and the same `noise_power[k]`
for `k < nrf`.  This is about the values only; whether the reset frame is defined on the
heap that the history left is the matter of `algoH`. -/
theorem reset_discards_history (m : Cmath) (conf : Conf) (s1 s2 : Statics)
    (e1 e2 : MartinEstimation) (y0 : Nat → Cplx) (ys : List (Nat → Cplx)) :
    ((run m conf (s1, specific_onDataUpdate e1) (y0 :: ys)).1
        = (run m conf (s2, specific_onDataUpdate e2) (y0 :: ys)).1 ∧
      ∀ k, k < conf.spectrumSize →
        (run m conf (s1, specific_onDataUpdate e1) (y0 :: ys)).2.noise_power k
          = (run m conf (s2, specific_onDataUpdate e2) (y0 :: ys)).2.noise_power k) ∧
    ((run m conf (s1, specific_onFFTSizeUpdate e1) (y0 :: ys)).1
        = (run m conf (s2, specific_onFFTSizeUpdate e2) (y0 :: ys)).1 ∧
      ∀ k, k < conf.spectrumSize →
        (run m conf (s1, specific_onFFTSizeUpdate e1) (y0 :: ys)).2.noise_power k
          = (run m conf (s2, specific_onFFTSizeUpdate e2) (y0 :: ys)).2.noise_power k) := by
  have hD := agree_after_reset m conf (s1, specific_onDataUpdate e1)
    (s2, specific_onDataUpdate e2) rfl rfl y0 ys
  have hF := agree_after_reset m conf (s1, specific_onFFTSizeUpdate e1)
    (s2, specific_onFFTSizeUpdate e2) rfl rfl y0 ys
  exact ⟨⟨hD.1, hD.2.2.2⟩, ⟨hF.1, hF.2.2.2⟩⟩

/-- C9, the code at the failing input: object `A` processes its reinit frame (power 1),
then another object `B` processes its first frame (power 1/9), then `A` processes a
second frame (power 1).  The call of `B` has rewritten the statics `A` runs on
(`sn2[0]` is `1/9`, not `1`), and the `noise_power[0]` that `A` then produces is not the
value `1` it produces when `B` never runs. -/
theorem shared_statics_interference :
    sessA1.1.sn2 0 = Dbl.fin 1 ∧ sessB.1.sn2 0 = Dbl.fin (1 / 9) ∧
    sessA1.2._reinit = false ∧
    sessA2.2.noise_power 0 = Dbl.fin 1 ∧
    sessA2afterB.2.noise_power 0 ≠ sessA2.2.noise_power 0 := by
  decide!

end MartinEstimation

/-- C10, as the code has it: `clone()` copy-constructs, so the clone of a
`SimpleEstimation` has the `noise_rms` (and `noise_power`) of the original, and the clone
of a `MartinEstimation` has its `_reinit` flag: it needs a reinit exactly when the
original does. -/
theorem clone_copies_members :
    (∀ e : SimpleEstimation, (SimpleEstimation.clone e).noise_rms = e.noise_rms ∧
      (SimpleEstimation.clone e).noise_power = e.noise_power) ∧
    (∀ e : MartinEstimation, (MartinEstimation.clone e)._reinit = e._reinit ∧
      (MartinEstimation.clone e).noise_power = e.noise_power) :=
  ⟨fun _ => ⟨rfl, rfl⟩, fun _ => ⟨rfl, rfl⟩⟩

/-- Counterexample to C10 as stated: a `SimpleEstimation` reset to `noise_rms = 100000`
accepts a frame of rms 1; its clone has `noise_rms = 1`, not the reset value.  A
`MartinEstimation` that has processed a frame has `_reinit = false`, and so has its
clone. -/
theorem clone_counterexample :
    (SimpleEstimation.call refMath exConf1 (SimpleEstimation.specific_onDataUpdate exSimple)
      (constFrame 1)).1 = true ∧
    (SimpleEstimation.clone exSimpleUsed).noise_rms = Dbl.fin 1 ∧
    (SimpleEstimation.clone exSimpleUsed).noise_rms
      ≠ (SimpleEstimation.specific_onDataUpdate exSimple).noise_rms ∧
    (MartinEstimation.clone sessA1.2)._reinit = false := by
  decide!

namespace Dbl

theorem NN.nonneg {x : Dbl} (h : NN x) : fin 0 ≤ x := by
  obtain ⟨q, rfl, hq⟩ := h
  simpa using hq

theorem sq_NNin (z : Dbl) : NNin (z * z) := by
  cases z with
  | nan => left; rfl
  | ninf => right; simp [mul_def, mul]
  | pinf => right; simp [mul_def, mul]
  | fin q => right; simp [mul_def, mul]; exact mul_self_nonneg q

theorem one_add_NNin {x : Dbl} (h : NNin x) : GE1n (fin 1 + x) := by
  rcases h with rfl | h
  · left; rfl
  · cases x with
    | nan => simp at h
    | ninf => simp at h
    | pinf => right; left; rfl
    | fin q =>
      right; right
      refine ⟨1 + q, rfl, ?_⟩
      have : (0 : ℚ) ≤ q := by simpa using h
      linarith

theorem U01n_div_GE1n {x d : Dbl} (hx : U01n x) (hd : GE1n d) : U01n (x / d) := by
  rcases hx with rfl | ⟨q, rfl, hq0, hq1⟩
  · left; rfl
  · rcases hd with rfl | rfl | ⟨e, rfl, he⟩
    · left; rfl
    · right; exact ⟨0, rfl, le_refl _, zero_le_one⟩
    · right
      have hne : e ≠ 0 := by linarith
      refine ⟨q / e, by simp [div_def, div, hne], div_nonneg hq0 (by linarith), ?_⟩
      rw [div_le_one (by linarith)]
      linarith

theorem U01.U01n {x : Dbl} (h : U01 x) : U01n x := Or.inr h

theorem U01_one : U01 (fin 1) := ⟨1, rfl, zero_le_one, le_refl _⟩

theorem U01n_mul {a b : Dbl} (ha : U01n a) (hb : U01n b) : U01n (a * b) := by
  rcases ha with rfl | ⟨p, rfl, hp0, hp1⟩
  · left; rfl
  · rcases hb with rfl | ⟨q, rfl, hq0, hq1⟩
    · left; rfl
    · right
      exact ⟨p * q, rfl, mul_nonneg hp0 hq0, mul_le_one₀ hp1 hq0 hq1⟩

theorem U01n_max {a l : Dbl} (ha : U01n a) (hl : U01 l) : U01n (max a l) := by
  unfold max
  split
  · exact Or.inr hl
  · exact ha

theorem U01_min {a x : Dbl} (ha : U01 a) (hx : NNin x) : U01 (min a x) := by
  unfold min
  split
  · rename_i hlt
    obtain ⟨p, rfl, hp0, hp1⟩ := ha
    rcases hx with rfl | hx
    · simp at hlt
    · cases x with
      | nan => simp at hlt
      | ninf => simp at hx
      | pinf => simp at hlt
      | fin q =>
        have h1 : q < p := by simpa using hlt
        have h2 : (0 : ℚ) ≤ q := by simpa using hx
        exact ⟨q, rfl, h2, by linarith⟩
  · exact ha

theorem U01n_convex {a x y : Dbl} (ha : U01 a) (hx : U01n x) (hy : U01n y) :
    U01n (a * x + (fin 1 - a) * y) := by
  obtain ⟨p, rfl, hp0, hp1⟩ := ha
  rcases hx with rfl | ⟨u, rfl, hu0, hu1⟩
  · left; rfl
  · rcases hy with rfl | ⟨v, rfl, hv0, hv1⟩
    · left; rfl
    · right
      refine ⟨p * u + (1 + -p) * v, rfl, ?_, ?_⟩
      · have := mul_nonneg hp0 hu0
        have := mul_nonneg (by linarith : (0 : ℚ) ≤ 1 + -p) hv0
        linarith
      · nlinarith

theorem NNn_smooth {a p y : Dbl} (ha : U01n a) (hp : NNn p) (hy : NN y) :
    NNn (a * p + (fin 1 - a) * y) := by
  rcases ha with rfl | ⟨u, rfl, hu0, hu1⟩
  · left; rfl
  · rcases hp with rfl | ⟨v, rfl, hv0⟩
    · left; rfl
    · obtain ⟨w, rfl, hw0⟩ := hy
      right
      refine ⟨u * v + (1 + -u) * w, rfl, ?_⟩
      have := mul_nonneg hu0 hv0
      have := mul_nonneg (by linarith : (0 : ℚ) ≤ 1 + -u) hw0
      linarith

theorem NNn_add {a b : Dbl} (ha : NNn a) (hb : NNn b) : NNn (a + b) := by
  rcases ha with rfl | ⟨u, rfl, hu0⟩
  · left; rfl
  · rcases hb with rfl | ⟨v, rfl, hv0⟩
    · left; rfl
    · right; exact ⟨u + v, rfl, by linarith⟩

theorem NN_add {a b : Dbl} (ha : NN a) (hb : NN b) : NN (a + b) := by
  obtain ⟨u, rfl, hu0⟩ := ha
  obtain ⟨v, rfl, hv0⟩ := hb
  exact ⟨u + v, rfl, by linarith⟩

theorem NNin_div {x y : Dbl} (hx : NNn x) (hy : NN y) : NNin (x / y) := by
  rcases hx with rfl | ⟨u, rfl, hu0⟩
  · left; rfl
  · obtain ⟨v, rfl, hv0⟩ := hy
    by_cases hv : v = 0
    · by_cases hu : u = 0
      · left; simp [div_def, div, hv, hu]
      · right
        have : 0 < u := lt_of_le_of_ne hu0 (Ne.symm hu)
        simp [div_def, div, hv, hu, this]
    · right
      simp [div_def, div, hv]
      exact div_nonneg hu0 hv0

theorem NN_min {a b : Dbl} (ha : NN a) (hb : NN b) : NN (min a b) := by
  unfold min
  split
  · exact hb
  · exact ha

end Dbl

theorem accumulate_NNn (a : Nat → Dbl) (n : Nat) (h : ∀ k, k < n → Dbl.NNn (a k)) :
    Dbl.NNn (accumulate a n) := by
  unfold accumulate
  induction n with
  | zero => right; exact ⟨0, rfl, le_refl _⟩
  | succ n ih =>
    rw [List.range_succ, List.foldl_append]
    exact Dbl.NNn_add (ih (fun k hk => h k (Nat.lt_succ_of_lt hk))) (h n (Nat.lt_succ_self n))

theorem accumulate_NN (a : Nat → Dbl) (n : Nat) (h : ∀ k, k < n → Dbl.NN (a k)) :
    Dbl.NN (accumulate a n) := by
  unfold accumulate
  induction n with
  | zero => exact ⟨0, rfl, le_refl _⟩
  | succ n ih =>
    rw [List.range_succ, List.foldl_append]
    exact Dbl.NN_add (ih (fun k hk => h k (Nat.lt_succ_of_lt hk))) (h n (Nat.lt_succ_self n))

namespace MartinEstimation

theorem pow2_NNin (m : Cmath) (hm : m.Lawful) (z : Dbl) : Dbl.NNin (m.pow z (Dbl.fin 2)) := by
  rw [hm.pow_two]
  exact Dbl.sq_NNin z

theorem acb_U01n (m : Cmath) (hm : m.Lawful) (z : Dbl) :
    Dbl.U01n (Dbl.fin 1 / (Dbl.fin 1 + m.pow z (Dbl.fin 2))) :=
  Dbl.U01n_div_GE1n Dbl.U01_one.U01n (Dbl.one_add_NNin (pow2_NNin m hm z))

theorem inv_smooth (m : Cmath) (hm : m.Lawful) (nrf : Nat) (s : Statics) (h : Inv nrf s) :
    Inv nrf (algoSmooth m nrf s) := by
  have hac : Dbl.U01n (algoSmooth m nrf s).ac :=
    Dbl.U01n_convex h.aca h.ac (Dbl.U01n_max (acb_U01n m hm _) h.acmax)
  have hah : ∀ k, k < nrf → Dbl.U01n ((algoSmooth m nrf s).ah k) := by
    intro k hk
    simp only [algoSmooth, forLoop, hk, if_true]
    apply Dbl.U01n_max
    · exact Dbl.U01n_div_GE1n
        (Dbl.U01n_mul (Dbl.U01n_mul h.amax.U01n hac) Dbl.U01_one.U01n)
        (Dbl.one_add_NNin (pow2_NNin m hm _))
    · exact Dbl.U01_min h.aminh
        (hm.pow_nonneg _ _ (Dbl.NNin_div (accumulate_NNn _ _ h.p) (accumulate_NN _ _ h.sn2)))
  have hp : ∀ k, k < nrf → Dbl.NNn ((algoSmooth m nrf s).p k) := by
    intro k hk
    have := hah k hk
    simp only [algoSmooth, forLoop, hk, if_true] at this ⊢
    exact Dbl.NNn_smooth this (h.p k hk) (h.yft k hk)
  exact { aca := h.aca, acmax := h.acmax, amax := h.amax, aminh := h.aminh, qmax := h.qmax,
          qmin := h.qmin, av := h.av, seg := h.seg, table := h.table, ac := hac, p := hp,
          yft := h.yft, sn2 := h.sn2, pminu := h.pminu, actmin := h.actmin,
          actminsub := h.actminsub, actbuf := h.actbuf }

end MartinEstimation

namespace Dbl

@[simp] theorem nan_mul (x : Dbl) : nan * x = nan := rfl

@[simp] theorem mul_nan (x : Dbl) : x * nan = nan := by cases x <;> rfl

@[simp] theorem nan_add (x : Dbl) : nan + x = nan := rfl

@[simp] theorem add_nan (x : Dbl) : x + nan = nan := by cases x <;> rfl

@[simp] theorem nan_sub (x : Dbl) : nan - x = nan := rfl

@[simp] theorem sub_nan (x : Dbl) : x - nan = nan := by cases x <;> rfl

@[simp] theorem nan_div (x : Dbl) : nan / x = nan := rfl

@[simp] theorem div_nan (x : Dbl) : x / nan = nan := by cases x <;> rfl

@[simp] theorem fin_add_fin (a b : ℚ) : fin a + fin b = fin (a + b) := rfl

@[simp] theorem fin_sub_fin (a b : ℚ) : fin a - fin b = fin (a - b) := by
  show fin (a + -b) = _
  rw [sub_eq_add_neg]

@[simp] theorem fin_mul_fin (a b : ℚ) : fin a * fin b = fin (a * b) := rfl

theorem fin_div_fin (a b : ℚ) (hb : b ≠ 0) : fin a / fin b = fin (a / b) := by
  simp [div_def, div, hb]

theorem clamp_QOK (x : Dbl) (c : ℚ) (hc0 : 0 < c) (hc : c ≤ 1 / 2) :
    QOK (max (min x (fin (1 / 2))) (fin c)) := by
  rcases clamp_range x (1 / 2) c hc with h | ⟨h1, h2⟩
  · exact Or.inl h
  · right
    generalize max (min x (fin (1 / 2))) (fin c) = v at h1 h2
    cases v with
    | nan => simp at h1
    | ninf => simp at h1
    | pinf => simp at h2
    | fin q =>
      have h1 : c ≤ q := by simpa using h1
      have h2 : q ≤ 1 / 2 := by simpa using h2
      exact ⟨q, rfl, by linarith, h2⟩

theorem clamp_pinf (x : Dbl) (a : ℚ) :
    max (min x (fin a)) pinf = nan ∨ max (min x (fin a)) pinf = pinf := by
  cases x with
  | nan => left; simp [max, min]
  | ninf => right; simp [max, min]
  | pinf => right; simp [max, min]
  | fin q => right; simp only [max, min]; split <;> simp

theorem bmin_form (N a r : ℚ) (hN : 1 ≤ N) (ha1 : a < 1) (hr0 : 0 < r)
    (hr : r ≤ 1 / 2) :
    ∃ B : ℚ, 1 ≤ B ∧
      fin 1 + fin 2 * (fin N - fin 1) * (fin 1 - fin a) / (fin 1 / fin r - fin 2 * fin a)
        = fin B := by
  have hr' : r ≠ 0 := ne_of_gt hr0
  have h2 : (2 : ℚ) ≤ 1 / r := by
    rw [le_div_iff₀ hr0]; linarith
  have hden : (1 / r - 2 * a) ≠ 0 := by
    have : 0 < 1 / r - 2 * a := by linarith
    exact ne_of_gt this
  refine ⟨1 + 2 * (N - 1) * (1 - a) / (1 / r - 2 * a), ?_, ?_⟩
  · have : 0 ≤ 2 * (N - 1) * (1 - a) / (1 / r - 2 * a) := by
      apply div_nonneg
      · apply mul_nonneg
        · linarith
        · linarith
      · linarith
    linarith
  · rw [fin_div_fin 1 r hr']
    simp only [fin_sub_fin, fin_mul_fin]
    rw [fin_div_fin _ _ hden]
    simp

theorem track_bin {bc p nd md nv mv q old : Dbl} (hbc : GE1f bc) (hp : NNn p)
    (hN : ∃ N : ℚ, nd = fin N ∧ 1 ≤ N) (hn : ∃ n : ℚ, nv = fin n ∧ 1 ≤ n)
    (hM : md = nan ∨ ∃ a b : ℚ, md = fin a ∧ mv = fin b ∧ a < 1 ∧ b < 1)
    (hq : bc = nan ∨ QOK q)
    (hlt : bc * p * (fin 1 + fin 2 * (nd - fin 1) * (fin 1 - md) / (fin 1 / q - fin 2 * md))
      < old) :
    NN (bc * p * (fin 1 + fin 2 * (nd - fin 1) * (fin 1 - md) / (fin 1 / q - fin 2 * md))) ∧
    NN (bc * p * (fin 1 + fin 2 * (nv - fin 1) * (fin 1 - mv) / (fin 1 / q - fin 2 * mv))) := by
  rcases hbc with rfl | ⟨b, rfl, hb⟩
  · simp at hlt
  rcases hp with rfl | ⟨v, rfl, hv⟩
  · simp at hlt
  rcases hM with rfl | ⟨a, a', rfl, rfl, ha1, hb1⟩
  · simp at hlt
  rcases hq with hq | hq | ⟨r, rfl, hr0, hr⟩
  · cases hq
  · subst hq; simp at hlt
  obtain ⟨N, rfl, hN⟩ := hN
  obtain ⟨n, rfl, hn⟩ := hn
  obtain ⟨B, hB, hBe⟩ := bmin_form N a r hN ha1 hr0 hr
  obtain ⟨B', hB', hBe'⟩ := bmin_form n a' r hn hb1 hr0 hr
  rw [hBe, hBe']
  simp only [fin_mul_fin]
  exact ⟨⟨_, rfl, mul_nonneg (mul_nonneg (by linarith) hv) (by linarith)⟩,
    ⟨_, rfl, mul_nonneg (mul_nonneg (by linarith) hv) (by linarith)⟩⟩

theorem NN_foldl_min (f : Nat → Dbl) (n : Nat) (init : Dbl) (hi : NN init)
    (h : ∀ j, j < n → NN (f j)) :
    NN ((List.range n).foldl (fun tmp j => min tmp (f j)) init) := by
  induction n with
  | zero => exact hi
  | succ n ih =>
    rw [List.range_succ, List.foldl_append]
    exact NN_min (ih (fun j hj => h j (Nat.lt_succ_of_lt hj))) (h n (Nat.lt_succ_self n))

theorem NN_intMax : NN (ofInt INT_MAX) := ⟨_, rfl, by norm_num [INT_MAX]⟩

end Dbl

namespace MartinEstimation

theorem smooth_qeqi (m : Cmath) (nrf : Nat) (s : Statics) (h : Inv nrf s) (k : Nat)
    (hk : k < nrf) :
    (s.segment_number = 0 →
      (algoSmooth m nrf s).qeqi k = Dbl.nan ∨ (algoSmooth m nrf s).qeqi k = Dbl.pinf) ∧
    (0 < s.segment_number → Dbl.QOK ((algoSmooth m nrf s).qeqi k)) := by
  simp only [algoSmooth, forLoop, hk, if_true, h.qmax, h.qmin]
  constructor
  · intro h0
    rw [h0]
    have : Dbl.fin (1 / 14) / Dbl.ofInt 0 = Dbl.pinf := by
      norm_num [Dbl.ofInt, Dbl.div_def, Dbl.div]
    rw [this]
    exact Dbl.clamp_pinf _ _
  · intro hpos
    have hne : ((s.segment_number : ℤ) : ℚ) ≠ 0 := by
      have : (0 : ℚ) < (s.segment_number : ℚ) := by exact_mod_cast hpos
      exact ne_of_gt this
    have hge : (1 : ℚ) ≤ (s.segment_number : ℚ) := by exact_mod_cast hpos
    rw [Dbl.ofInt, Dbl.fin_div_fin _ _ hne]
    apply Dbl.clamp_QOK
    · positivity
    · rw [div_le_iff₀ (by linarith)]
      linarith

theorem bc_GE1f (m : Cmath) (hm : m.Lawful) (nrf : Nat) (s : Statics)
    (hav : s.qq.av = Dbl.fin 2.12) : Dbl.GE1f (bc m nrf s) := by
  unfold bc qiav Dbl.ofInt
  rw [hav]
  by_cases hz : ((Int.tdiv (accumulateInt m s.qeqi nrf) nrf : ℤ) : ℚ) < 0
  · left
    rw [hm.sqrt_neg _ hz]
    simp
  · right
    obtain ⟨r, hr, hr0⟩ := hm.sqrt_nonneg _ (not_lt.mp hz)
    rw [hr]
    refine ⟨1 + 2.12 * r, by simp, ?_⟩
    have : (0 : ℚ) ≤ 2.12 * r := mul_nonneg (by norm_num) hr0
    linarith

theorem accumulateInt_reinit (m : Cmath) (hx : ∀ x, m.toIntUB x = Dbl.INT_MIN) (a : Nat → Dbl)
    (n : Nat) (hn : 0 < n) (ha : ∀ k, k < n → a k = Dbl.nan ∨ a k = Dbl.pinf) :
    accumulateInt m a n = Dbl.INT_MIN := by
  obtain ⟨n, rfl⟩ := Nat.exists_eq_succ_of_ne_zero (Nat.pos_iff_ne_zero.mp hn)
  unfold accumulateInt
  rw [List.range_succ, List.foldl_append]
  simp only [List.foldl_cons, List.foldl_nil]
  rcases ha n (Nat.lt_succ_self n) with h | h <;> rw [h] <;>
    simp [Dbl.ofInt, Dbl.add_def, Dbl.add, Cmath.toInt, hx]

theorem bc_nan_reinit (m : Cmath) (hm : m.Lawful) (hx : ∀ x, m.toIntUB x = Dbl.INT_MIN)
    (nrf : Nat) (s : Statics) (hn : 0 < nrf) (hmax : (nrf : Int) ≤ Dbl.INT_MAX)
    (ha : ∀ k, k < nrf → s.qeqi k = Dbl.nan ∨ s.qeqi k = Dbl.pinf) :
    bc m nrf s = Dbl.nan := by
  unfold bc qiav Dbl.ofInt
  rw [accumulateInt_reinit m hx s.qeqi nrf hn ha]
  have hneg : Int.tdiv Dbl.INT_MIN nrf < 0 := by
    unfold Dbl.INT_MIN
    unfold Dbl.INT_MAX at hmax
    rw [show (-2147483648 : ℤ) = -(2147483648 : ℤ) by norm_num, Int.neg_tdiv]
    have : (1 : ℤ) ≤ Int.tdiv 2147483648 nrf := by
      rw [Int.tdiv_eq_ediv (by norm_num) (by omega)]
      apply Int.le_ediv_of_mul_le (by omega)
      omega
    omega
  have hq : ((Int.tdiv Dbl.INT_MIN nrf : ℤ) : ℚ) < 0 := by exact_mod_cast hneg
  rw [hm.sqrt_neg _ hq]
  simp

theorem inv_track (m : Cmath) (hm : m.Lawful) (nrf : Nat) (s : Statics) (h : Inv nrf s)
    (hq : bc m nrf s = Dbl.nan ∨ ∀ k, k < nrf → Dbl.QOK (s.qeqi k)) :
    Inv nrf (algoTrack m nrf s) := by
  have hbc := bc_GE1f m hm nrf s h.av
  obtain ⟨hN, hn, hM⟩ := h.table
  have key : ∀ k, k < nrf → (algoTrack m nrf s).kmod k = true →
      Dbl.NN ((algoTrack m nrf s).actmin k) ∧ Dbl.NN ((algoTrack m nrf s).actminsub k) := by
    intro k hk hkm
    simp only [algoTrack, forLoop, hk, if_true, decide_eq_true_eq] at hkm ⊢
    rw [if_pos hkm, if_pos hkm]
    exact Dbl.track_bin hbc (h.p k hk) hN hn hM
      (hq.imp id (fun hq => hq k hk)) hkm
  have hkeep : ∀ k, k < nrf → (algoTrack m nrf s).kmod k = false →
      (algoTrack m nrf s).actmin k = s.actmin k ∧
      (algoTrack m nrf s).actminsub k = s.actminsub k := by
    intro k hk hkm
    simp only [algoTrack, forLoop, hk, if_true, decide_eq_false_iff_not] at hkm
    simp only [algoTrack, forLoop, hk, if_true, decide_eq_true_eq, if_neg hkm]
    exact ⟨trivial, trivial⟩
  have hboth : ∀ k, k < nrf →
      Dbl.NN ((algoTrack m nrf s).actmin k) ∧ Dbl.NN ((algoTrack m nrf s).actminsub k) := by
    intro k hk
    cases hkm : (algoTrack m nrf s).kmod k with
    | true => exact key k hk hkm
    | false =>
      obtain ⟨h1, h2⟩ := hkeep k hk hkm
      rw [h1, h2]
      exact ⟨h.actmin k hk, h.actminsub k hk⟩
  exact { aca := h.aca, acmax := h.acmax, amax := h.amax, aminh := h.aminh, qmax := h.qmax,
          qmin := h.qmin, av := h.av, seg := h.seg, table := h.table, ac := h.ac, p := h.p,
          yft := h.yft, sn2 := h.sn2, pminu := h.pminu,
          actmin := fun k hk => (hboth k hk).1,
          actminsub := fun k hk => (hboth k hk).2, actbuf := h.actbuf }

theorem inv_mid (nrf : Nat) (s : Statics) (h : Inv nrf s) : Inv nrf (algoMid nrf s) := by
  have hp : ∀ k, k < nrf → Dbl.NN ((algoMid nrf s).pminu k) := by
    intro k hk
    simp only [algoMid, forLoop, hk, if_true]
    exact Dbl.NN_min (h.actminsub k hk) (h.pminu k hk)
  have hs : ∀ k, k < nrf → Dbl.NN ((algoMid nrf s).sn2 k) := by
    intro k hk
    have := hp k hk
    simp only [algoMid, forLoop, hk, if_true] at this ⊢
    exact this
  exact { aca := h.aca, acmax := h.acmax, amax := h.amax, aminh := h.aminh, qmax := h.qmax,
          qmin := h.qmin, av := h.av, seg := h.seg, table := h.table, ac := h.ac, p := h.p,
          yft := h.yft, sn2 := hs, pminu := hp, actmin := h.actmin,
          actminsub := h.actminsub, actbuf := h.actbuf }

theorem inv_boundary (m : Cmath) (nrf : Nat) (s : Statics) (h : Inv nrf s) :
    Inv nrf (algoBoundary m nrf s) := by
  have hbuf1 : ∀ j k, j < s.nu.toNat → k < nrf →
      Dbl.NN ((if j = (Int.tmod s.ibuf s.nu).toNat
        then forLoop nrf (fun i => s.actmin i) (s.actbuf j) else s.actbuf j) k) := by
    intro j k hj hk
    split
    · simp only [forLoop, hk, if_true]; exact h.actmin k hk
    · exact h.actbuf j k hj hk
  have hp : ∀ k, k < nrf → Dbl.NN ((algoBoundary m nrf s).pminu k) := by
    intro k hk
    simp only [algoBoundary, forLoop, hk, if_true, Bool.and_false, Bool.false_and,
      Bool.false_eq_true, if_false, ne_eq, not_true_eq_false]
    exact Dbl.NN_foldl_min _ _ _ ⟨1, rfl, zero_le_one⟩ (fun j hj => hbuf1 j k hj hk)
  have hb : ∀ j k, j < (algoBoundary m nrf s).nu.toNat → k < nrf →
      Dbl.NN ((algoBoundary m nrf s).actbuf j k) := by
    intro j k hj hk
    have hj' : j < s.nu.toNat := hj
    simp only [algoBoundary, forLoop, hk, hj', if_true, Bool.and_false, Bool.false_and,
      Bool.false_eq_true, if_false, ne_eq, not_true_eq_false]
    exact hbuf1 j k hj' hk
  have ha : ∀ k, k < nrf → Dbl.NN ((algoBoundary m nrf s).actmin k) := by
    intro k hk
    simp only [algoBoundary, forLoop, hk, if_true]
    exact Dbl.NN_intMax
  exact { aca := h.aca, acmax := h.acmax, amax := h.amax, aminh := h.aminh, qmax := h.qmax,
          qmin := h.qmin, av := h.av, seg := h.seg, table := h.table, ac := h.ac, p := h.p,
          yft := h.yft, sn2 := h.sn2, pminu := hp, actmin := ha,
          actminsub := h.actminsub, actbuf := hb }

theorem inv_subwc (nrf : Nat) (s : Statics) (c : Int) (h : Inv nrf s) :
    Inv nrf { s with subwc := c } :=
  { aca := h.aca, acmax := h.acmax, amax := h.amax, aminh := h.aminh, qmax := h.qmax,
    qmin := h.qmin, av := h.av, seg := h.seg, table := h.table, ac := h.ac, p := h.p,
    yft := h.yft, sn2 := h.sn2, pminu := h.pminu, actmin := h.actmin,
    actminsub := h.actminsub, actbuf := h.actbuf }

theorem inv_window (m : Cmath) (nrf : Nat) (s : Statics) (h : Inv nrf s) :
    Inv nrf (algoWindow m nrf s) := by
  unfold algoWindow
  apply inv_subwc
  split_ifs
  · exact inv_mid nrf s h
  · exact inv_boundary m nrf s h
  · exact h

theorem inv_output (m : Cmath) (nrf : Nat) (s : Statics) (h : Inv nrf s) :
    Inv nrf (algoOutput m nrf s) :=
  { aca := h.aca, acmax := h.acmax, amax := h.amax, aminh := h.aminh, qmax := h.qmax,
    qmin := h.qmin, av := h.av, seg := h.seg, table := h.table, ac := h.ac, p := h.p,
    yft := h.yft, sn2 := h.sn2, pminu := h.pminu, actmin := h.actmin,
    actminsub := h.actminsub, actbuf := h.actbuf }

theorem power_NN (nrf : Nat) (y : Nat → Cplx) (hy : FiniteFrame nrf y) (k : Nat) (hk : k < nrf) :
    Dbl.NN (MathUtil.CplxToPower (y k)) := by
  obtain ⟨a, b, ha, hb⟩ := hy k hk
  unfold MathUtil.CplxToPower
  rw [ha, hb]
  exact ⟨a * a + b * b, rfl, by nlinarith [mul_self_nonneg a, mul_self_nonneg b]⟩

theorem inv_next (nrf : Nat) (s : Statics) (y : Nat → Cplx) (hy : FiniteFrame nrf y)
    (h : Inv nrf s) : Inv nrf (algoNext y nrf s) ∧ 0 < (algoNext y nrf s).segment_number := by
  have hyft : ∀ k, k < nrf → Dbl.NN ((algoNext y nrf s).yft k) := by
    intro k hk
    simp only [algoNext, MathUtil.computePowerSpectrum, forLoop, hk, if_true]
    exact power_NN nrf y hy k hk
  have hseg : 0 < (algoNext y nrf s).segment_number := by
    show 0 < s.segment_number + 1
    have := h.seg
    omega
  exact ⟨{ aca := h.aca, acmax := h.acmax, amax := h.amax, aminh := h.aminh, qmax := h.qmax,
           qmin := h.qmin, av := h.av, seg := le_of_lt hseg, table := h.table, ac := h.ac,
           p := h.p, yft := hyft, sn2 := h.sn2, pminu := h.pminu, actmin := h.actmin,
           actminsub := h.actminsub, actbuf := h.actbuf }, hseg⟩

/-- One frame keeps the invariant: after the first part of `algo` (`s0` is the state
left by the reinit branch or by its `else`), the main processing and the sub-window
phase keep it, if `bc` is `NaN` or every `qeqi[k]` is `NaN` or in `(0, 1/2]`. -/
theorem inv_frame (m : Cmath) (hm : m.Lawful) (nrf : Nat) (s0 : Statics) (h : Inv nrf s0)
    (hq : bc m nrf (algoSmooth m nrf s0) = Dbl.nan ∨
      ∀ k, k < nrf → Dbl.QOK ((algoSmooth m nrf s0).qeqi k)) :
    Inv nrf (algoOutput m nrf (algoWindow m nrf (algoTrack m nrf (algoSmooth m nrf s0)))) :=
  inv_output m nrf _ (inv_window m nrf _ (inv_track m hm nrf _ (inv_smooth m hm nrf s0 h) hq))

end MartinEstimation

theorem find_range_spec (p : Nat → Bool) (n : Nat) :
    (∀ i, (List.range n).find? p = some i → i < n ∧ p i = true ∧ ∀ j, j < i → p j = false) ∧
    ((List.range n).find? p = none → ∀ j, j < n → p j = false) := by
  induction n with
  | zero => simp
  | succ n ih =>
    rw [List.range_succ, List.find?_append]
    cases hf : (List.range n).find? p with
    | some i0 =>
      obtain ⟨h1, h2, h3⟩ := ih.1 i0 hf
      constructor
      · intro i hi
        simp only [Option.or] at hi
        cases hi
        exact ⟨Nat.lt_succ_of_lt h1, h2, h3⟩
      · intro hi
        simp only [Option.or] at hi
        cases hi
    | none =>
      have hall := ih.2 hf
      cases hp : p n with
      | true =>
        constructor
        · intro i hi
          simp only [Option.or, List.find?_cons, hp] at hi
          cases hi
          exact ⟨Nat.lt_succ_self _, hp, hall⟩
        · intro hi
          simp only [Option.or, List.find?_cons, hp] at hi
          cases hi
      | false =>
        constructor
        · intro i hi
          simp only [Option.or, List.find?_cons, hp, List.find?_nil] at hi
          cases hi
        · intro _ j hj
          rcases Nat.lt_succ_iff_lt_or_eq.mp hj with h | h
          · exact hall j h
          · rw [h]; exact hp

namespace MartinEstimation

theorem dmhAt_zero (m : Cmath) (i : Nat) (hi : i < 18) :
    dmhAt m 0 (i : Int) = Dbl.fin ((T0 i : ℕ) : ℚ) := by
  simp only [dmhAt, Int.toNat_natCast, Nat.cast_nonneg, if_true]
  interval_cases i <;> norm_num [dmh, T0]

theorem dmhAt_one (m : Cmath) (i : Nat) : dmhAt m 1 (i : Int) = Dbl.fin (T1 i) := by
  simp only [dmhAt, Int.toNat_natCast, Nat.cast_nonneg, if_true, T1]

theorem T0_range (i : Nat) (hi : i < 18) : 1 ≤ T0 i ∧ T0 i ≤ 300 := by
  interval_cases i <;> simp [T0]

theorem T0_mono (i : Nat) (hi : i + 1 < 18) : T0 i < T0 (i + 1) := by
  have hi' : i < 17 := by omega
  interval_cases i <;> simp [T0]

theorem T1_lt_one (i : Nat) (hi : i < 18) : T1 i < 1 := by
  interval_cases i <;> norm_num [T1, dmh]

theorem T1_mono (i : Nat) (hi : i + 1 < 18) : T1 i ≤ T1 (i + 1) := by
  have hi' : i < 17 := by omega
  interval_cases i <;> norm_num [T1, dmh]

theorem mh_values_m_lt_one (m : Cmath) (hm : m.Lawful) (N : Nat) (h1 : 1 ≤ N) (h300 : N ≤ 300) :
    ∃ a : ℚ, (mh_values m (Dbl.fin (N : ℚ))).1 = Dbl.fin a ∧ a < 1 := by
  have hspec := find_range_spec (fun (i : Nat) => decide (Dbl.fin (N : ℚ) ≤ dmhAt m 0 (i : Int))) 18
  cases hf : (List.range 18).find?
      (fun (i : Nat) => decide (Dbl.fin (N : ℚ) ≤ dmhAt m 0 (i : Int))) with
  | none =>
    have := hspec.2 hf 17 (by norm_num)
    rw [dmhAt_zero m 17 (by norm_num)] at this
    simp [T0] at this
    omega
  | some i =>
    obtain ⟨hi, hpi, hlow⟩ := hspec.1 i hf
    rw [dmhAt_zero m i hi] at hpi
    have hNi : N ≤ T0 i := by
      have : (N : ℚ) ≤ (T0 i : ℚ) := by simpa using hpi
      exact_mod_cast this
    simp only [mh_values, hf]
    by_cases heq : N = T0 i
    · refine ⟨T1 i, ?_, T1_lt_one i hi⟩
      rw [dmhAt_zero m i hi, ← heq]
      simp [Dbl.beq, Dbl.isNum, dmhAt_one]
    · have hlt : N < T0 i := lt_of_le_of_ne hNi heq
      have hi0 : i ≠ 0 := by
        rintro rfl
        simp [T0] at hlt
        omega
      obtain ⟨j, rfl⟩ := Nat.exists_eq_succ_of_ne_zero hi0
      have hj : j < 18 := Nat.lt_of_succ_lt hi
      have hpj := hlow j (Nat.lt_succ_self j)
      rw [dmhAt_zero m j hj] at hpj
      have hjN : T0 j < N := by
        have : (T0 j : ℚ) < (N : ℚ) := by simpa using hpj
        exact_mod_cast this
      obtain ⟨rj, r, hsj, hsN, hrj0, hrjr⟩ :=
        hm.sqrt_table (T0 j) N (T0_range j hj).1 hjN h300
      obtain ⟨r', ri, hsN', hsi, _, hrri⟩ :=
        hm.sqrt_table N (T0 (j + 1)) h1 hlt (T0_range (j + 1) hi).2
      have hrr : r' = r := by
        rw [hsN] at hsN'
        exact (Dbl.fin.inj hsN').symm
      subst hrr
      have hcast : ((j + 1 : ℕ) : Int) - 1 = (j : Int) := by push_cast; ring
      have hne : ¬ ((N : ℚ) = (T0 (j + 1) : ℚ)) := by exact_mod_cast heq
      have hr0 : r' ≠ 0 := by linarith
      have hd0 : ri - rj ≠ 0 := by linarith
      refine ⟨T1 (j + 1) + (ri * rj / r' - rj) * (T1 j - T1 (j + 1)) / (ri - rj), ?_, ?_⟩
      · rw [dmhAt_zero m (j + 1) hi]
        simp only [Dbl.beq, Dbl.isNum, Dbl.fin.injEq, hne, decide_False, Bool.and_false,
          Bool.false_eq_true, if_false, hcast, dmhAt_one, dmhAt_zero m j hj, hsj, hsi, hsN,
          Dbl.fin_mul_fin, Dbl.fin_sub_fin, Dbl.fin_div_fin _ _ hr0, Dbl.fin_div_fin _ _ hd0,
          Dbl.fin_add_fin]
      · have hT := T1_mono j hi
        have hTi := T1_lt_one (j + 1) hi
        have h1 : 0 ≤ ri * rj / r' - rj := by
          rw [sub_nonneg, le_div_iff₀ (by linarith)]
          nlinarith
        have h2 : (ri * rj / r' - rj) * (T1 j - T1 (j + 1)) / (ri - rj) ≤ 0 := by
          apply div_nonpos_of_nonpos_of_nonneg
          · exact mul_nonpos_of_nonneg_of_nonpos h1 (by linarith)
          · linarith
        linarith

theorem mh_values_m_nan (m : Cmath) (N : Nat) (h300 : 300 < N) :
    (mh_values m (Dbl.fin (N : ℚ))).1 = Dbl.nan := by
  have hspec := find_range_spec (fun (i : Nat) => decide (Dbl.fin (N : ℚ) ≤ dmhAt m 0 (i : Int))) 18
  cases hf : (List.range 18).find?
      (fun (i : Nat) => decide (Dbl.fin (N : ℚ) ≤ dmhAt m 0 (i : Int))) with
  | some i =>
    obtain ⟨hi, hpi, _⟩ := hspec.1 i hf
    rw [dmhAt_zero m i hi] at hpi
    have : (N : ℚ) ≤ (T0 i : ℚ) := by simpa using hpi
    have : N ≤ T0 i := by exact_mod_cast this
    have := (T0_range i hi).2
    omega
  | none =>
    simp only [mh_values, hf]
    have h17 : dmhAt m 0 17 = Dbl.fin 300 := by
      have := dmhAt_zero m 17 (by norm_num)
      simpa [T0] using this
    have hne : ¬ ((N : ℚ) = 300) := by
      have : (300 : ℚ) < (N : ℚ) := by exact_mod_cast h300
      linarith
    have hz : dmhAt m 1 17 - dmhAt m 1 17 = Dbl.fin 0 := by
      have := dmhAt_one m 17
      simp only [Nat.cast_ofNat] at this
      rw [this]
      simp
    simp only [h17, Dbl.beq, Dbl.isNum, Dbl.fin.injEq, hne, decide_False, Bool.and_false,
      Bool.false_eq_true, if_false, hz]
    generalize m.sqrt (Dbl.fin 300) = v
    generalize m.sqrt (Dbl.fin (N : ℚ)) = q
    generalize v * v / q - v = X
    have hX : X * Dbl.fin 0 = Dbl.nan ∨ X * Dbl.fin 0 = Dbl.fin 0 := by
      cases X <;> simp [Dbl.mul_def, Dbl.mul, Dbl.infTimes]
    have hV : v - v = Dbl.nan ∨ v - v = Dbl.fin 0 := by
      cases v <;> simp [Dbl.sub_def, Dbl.add, Dbl.neg]
    rcases hX with h | h <;> rcases hV with h' | h' <;> rw [h, h'] <;>
      simp [Dbl.div_def, Dbl.div]

end MartinEstimation

namespace Dbl

theorem roundQ_of_nonneg (q : ℚ) (hq : 0 ≤ q) : roundQ q = ⌊q + 1 / 2⌋ := by
  simp [roundQ, hq]

theorem neg_div_neg (t : Dbl) (c : ℚ) (hc : 0 < c) (ht : fin 0 < t) : -t / fin c < fin 0 := by
  cases t with
  | nan => simp at ht
  | ninf => simp at ht
  | pinf => simp [neg_def, neg, div_def, div, le_of_lt hc]
  | fin q =>
    have hq : 0 < q := by simpa using ht
    have hc' : c ≠ 0 := ne_of_gt hc
    simp only [neg_def, neg, fin_div_fin _ _ hc', fin_lt_fin]
    exact div_neg_of_neg_of_pos (by linarith) hc

end Dbl

namespace MartinEstimation

theorem nuInit_range (m : Cmath) (tinc : Dbl) (ht : Dbl.fin 0 < tinc) :
    1 ≤ nuInit m tinc ∧ nuInit m tinc ≤ 8 := by
  simp only [nuInit]
  split
  · rename_i hlt
    have hv : ∃ v : Int, 1 ≤ v ∧ v ≤ 7 ∧
        Dbl.max (Dbl.round (qqInit.td / (tinc * Dbl.fin 4))) (Dbl.fin 1) = Dbl.fin (v : ℚ) := by
      cases tinc with
      | nan => simp at ht
      | ninf => simp at ht
      | pinf =>
        refine ⟨1, le_refl _, by norm_num, ?_⟩
        have : Dbl.roundQ 0 = 0 := by decide!
        norm_num [qqInit, Dbl.mul_def, Dbl.mul, Dbl.infTimes, Dbl.div_def, Dbl.div, Dbl.round,
          Dbl.max, this]
      | fin t =>
        have ht0 : (0 : ℚ) < t := by simpa using ht
        have h8 : t * 8 ≠ 0 := by positivity
        have h4 : t * 4 ≠ 0 := by positivity
        have hq8 : (0 : ℚ) ≤ 1.536 / (t * 8) := by positivity
        have hq4 : (0 : ℚ) ≤ 1.536 / (t * 4) := by positivity
        simp only [qqInit, Dbl.ofInt, Int.cast_ofNat, Dbl.fin_mul_fin, Dbl.fin_div_fin _ _ h8,
          Dbl.round, Dbl.fin_lt_fin, Dbl.roundQ_of_nonneg _ hq8] at hlt
        simp only [qqInit, Dbl.fin_mul_fin, Dbl.fin_div_fin _ _ h4, Dbl.round,
          Dbl.roundQ_of_nonneg _ hq4, Dbl.max, Dbl.fin_lt_fin]
        have hlt' : ⌊(1.536 : ℚ) / (t * 8) + 1 / 2⌋ < 4 := by exact_mod_cast hlt
        have hb : (1.536 : ℚ) / (t * 8) + 1 / 2 < 4 := by
          by_contra hcon
          have : (4 : ℤ) ≤ ⌊(1.536 : ℚ) / (t * 8) + 1 / 2⌋ :=
            Int.le_floor.mpr (by push_cast; linarith)
          omega
        have h48 : (1.536 : ℚ) / (t * 4) = 2 * (1.536 / (t * 8)) := by
          field_simp; ring
        have hup : ⌊(1.536 : ℚ) / (t * 4) + 1 / 2⌋ ≤ 7 := by
          have : ⌊(1.536 : ℚ) / (t * 4) + 1 / 2⌋ < 8 :=
            Int.floor_lt.mpr (by push_cast; rw [h48]; linarith)
          omega
        by_cases h1 : ((⌊(1.536 : ℚ) / (t * 4) + 1 / 2⌋ : ℤ) : ℚ) < 1
        · exact ⟨1, le_refl _, by norm_num, by rw [if_pos h1]; simp⟩
        · refine ⟨⌊(1.536 : ℚ) / (t * 4) + 1 / 2⌋, ?_, hup, by rw [if_neg h1]⟩
          have : (1 : ℚ) ≤ ((⌊(1.536 : ℚ) / (t * 4) + 1 / 2⌋ : ℤ) : ℚ) := not_lt.mp h1
          exact_mod_cast this
    obtain ⟨v, hv1, hv7, hve⟩ := hv
    rw [hve, Cmath.toInt_intCast m v (by unfold Dbl.INT_MIN; omega) (by unfold Dbl.INT_MAX; omega)]
    omega
  · simp [qqInit]

theorem tableOK_init (m : Cmath) (hm : m.Lawful) (spectrum : Nat → Cplx) (nrf : Nat)
    (tinc : Dbl) (ht : Dbl.fin 0 < tinc) : TableOK (algoInit m spectrum nrf tinc) := by
  obtain ⟨n, hn4, hn⟩ := nvInit_eq tinc ht
  obtain ⟨hu1, hu8⟩ := nuInit_range m tinc ht
  have hnv : (algoInit m spectrum nrf tinc).nv = Dbl.fin (n : ℚ) := hn
  have hnd : (algoInit m spectrum nrf tinc).nd
      = Dbl.fin (((nuInit m tinc * n).toNat : ℕ) : ℚ) := by
    show Dbl.ofInt (nuInit m tinc) * nvInit tinc = _
    rw [hn, Dbl.ofInt, Dbl.fin_mul_fin]
    congr 1
    have h0 : 0 ≤ nuInit m tinc * n := by positivity
    have : ((nuInit m tinc * n).toNat : ℤ) = nuInit m tinc * n := Int.toNat_of_nonneg h0
    have h2 : (((nuInit m tinc * n).toNat : ℕ) : ℚ) = ((nuInit m tinc * n : ℤ) : ℚ) := by
      rw [← Int.cast_natCast, this]
    rw [h2]; push_cast; ring
  have hnvN : (algoInit m spectrum nrf tinc).nv = Dbl.fin ((n.toNat : ℕ) : ℚ) := by
    rw [hnv]
    congr 1
    have : ((n.toNat : ℕ) : ℤ) = n := Int.toNat_of_nonneg (by omega)
    have h2 : ((n.toNat : ℕ) : ℚ) = ((n : ℤ) : ℚ) := by
      rw [← Int.cast_natCast, this]
    rw [h2]
  have hNn : n.toNat ≤ (nuInit m tinc * n).toNat := by
    apply Int.toNat_le_toNat
    nlinarith
  have hn1 : 1 ≤ n.toNat := by omega
  refine ⟨⟨_, hnd, ?_⟩, ⟨_, hnv, ?_⟩, ?_⟩
  · have : 1 ≤ (nuInit m tinc * n).toNat := le_trans hn1 hNn
    exact_mod_cast this
  · have : (1 : ℤ) ≤ n := by omega
    exact_mod_cast this
  · by_cases h300 : (nuInit m tinc * n).toNat ≤ 300
    · right
      obtain ⟨a, ha, ha1⟩ := mh_values_m_lt_one m hm _ (le_trans hn1 hNn) h300
      obtain ⟨b, hb, hb1⟩ := mh_values_m_lt_one m hm _ hn1 (le_trans hNn h300)
      refine ⟨a, b, ?_, ?_, ha1, hb1⟩
      · show (mh_values m (algoInit m spectrum nrf tinc).nd).1 = _
        rw [hnd]; exact ha
      · show (mh_values m (algoInit m spectrum nrf tinc).nv).1 = _
        rw [hnvN]; exact hb
    · left
      show (mh_values m (algoInit m spectrum nrf tinc).nd).1 = _
      rw [hnd]
      exact mh_values_m_nan m _ (not_le.mp h300)

theorem inv_init (m : Cmath) (hm : m.Lawful) (spectrum : Nat → Cplx) (nrf : Nat) (tinc : Dbl)
    (ht : Dbl.fin 0 < tinc) (hy : FiniteFrame nrf spectrum) :
    Inv nrf (algoInit m spectrum nrf tinc) ∧ (algoInit m spectrum nrf tinc).segment_number = 0 := by
  have hpow : ∀ k, k < nrf → Dbl.NN ((algoInit m spectrum nrf tinc).yft k) := by
    intro k hk
    simp only [algoInit, MathUtil.computePowerSpectrum, forLoop, hk, if_true]
    exact power_NN nrf spectrum hy k hk
  have hp : ∀ k, k < nrf → (algoInit m spectrum nrf tinc).p k
      = (algoInit m spectrum nrf tinc).yft k := by
    intro k hk; simp only [algoInit, forLoop, hk, if_true]
  have hs : ∀ k, k < nrf → (algoInit m spectrum nrf tinc).sn2 k
      = (algoInit m spectrum nrf tinc).yft k := by
    intro k hk; simp only [algoInit, forLoop, hk, if_true]
  have hpm : ∀ k, k < nrf → (algoInit m spectrum nrf tinc).pminu k
      = (algoInit m spectrum nrf tinc).yft k := by
    intro k hk; simp only [algoInit, forLoop, hk, if_true]
  refine ⟨{ aca := ?_, acmax := ?_, amax := ?_, aminh := ?_, qmax := ?_, qmin := ?_, av := rfl,
            seg := le_refl _, table := tableOK_init m hm spectrum nrf tinc ht,
            ac := Dbl.U01_one.U01n, p := ?_, yft := hpow, sn2 := ?_, pminu := ?_,
            actmin := ?_, actminsub := ?_, actbuf := ?_ }, rfl⟩
  · exact hm.exp_neg _ (Dbl.neg_div_neg tinc _ (by norm_num) ht)
  · exact hm.exp_neg _ (Dbl.neg_div_neg tinc _ (by norm_num) ht)
  · exact hm.exp_neg _ (Dbl.neg_div_neg tinc _ (by norm_num) ht)
  · exact hm.exp_neg _ (Dbl.neg_div_neg tinc _ (by norm_num) ht)
  · show Dbl.fin 1 / Dbl.fin 2 = _
    norm_num [Dbl.div_def, Dbl.div]
  · show Dbl.fin 1 / Dbl.fin 14 = _
    norm_num [Dbl.div_def, Dbl.div]
  · intro k hk; rw [hp k hk]; exact Or.inr (hpow k hk)
  · intro k hk; rw [hs k hk]; exact hpow k hk
  · intro k hk; rw [hpm k hk]; exact hpow k hk
  · intro k hk; simp only [algoInit, forLoop, hk, if_true]; exact Dbl.NN_intMax
  · intro k hk; simp only [algoInit, forLoop, hk, if_true]; exact Dbl.NN_intMax
  · intro j k hj hk
    have hj' : j < (nuInit m tinc).toNat := hj
    simp only [algoInit, forLoop, hk, hj', if_true]
    exact Dbl.NN_intMax

theorem inv_algo_reinit (m : Cmath) (hm : m.Lawful) (hx : ∀ x, m.toIntUB x = Dbl.INT_MIN)
    (spectrum : Nat → Cplx) (nrf : Nat) (x : Nat → Dbl) (tinc : Dbl) (s : Statics)
    (ht : Dbl.fin 0 < tinc) (hn : (nrf : Int) ≤ Dbl.INT_MAX) (hy : FiniteFrame nrf spectrum) :
    Inv nrf (algo m spectrum nrf x tinc true false s).1 ∧
    ∀ k, k < nrf → Dbl.NN ((algo m spectrum nrf x tinc true false s).2 k) := by
  obtain ⟨hI, hseg⟩ := inv_init m hm spectrum nrf tinc ht hy
  have hbc : bc m nrf (algoSmooth m nrf (algoInit m spectrum nrf tinc)) = Dbl.nan ∨
      ∀ k, k < nrf → Dbl.QOK ((algoSmooth m nrf (algoInit m spectrum nrf tinc)).qeqi k) := by
    by_cases h0 : nrf = 0
    · right
      intro k hk
      omega
    · left
      apply bc_nan_reinit m hm hx nrf _ (Nat.pos_of_ne_zero h0) hn
      intro k hk
      exact (smooth_qeqi m nrf _ hI k hk).1 hseg
  have hF := inv_frame m hm nrf _ hI hbc
  refine ⟨by simpa [algo] using hF, ?_⟩
  intro k hk
  have := hF.sn2 k hk
  simpa [algo, forLoop, hk, algoOutput] using this

end MartinEstimation

theorem isqrt_step : ∀ a, a < 300 → isqrt (a * 1000000000000) < isqrt ((a + 1) * 1000000000000) := by
  decide!

theorem isqrt_strictMono (a b : Nat) (hab : a < b) (hb : b ≤ 300) :
    isqrt (a * 1000000000000) < isqrt (b * 1000000000000) := by
  induction b with
  | zero => omega
  | succ b ih =>
    rcases Nat.lt_succ_iff_lt_or_eq.mp hab with h | h
    · exact lt_trans (ih h (by omega)) (isqrt_step b (by omega))
    · subst h; exact isqrt_step a (by omega)

theorem refSqrt_nat (a : Nat) :
    refSqrt (Dbl.fin (a : ℚ)) = Dbl.fin ((isqrt (a * 1000000000000) : ℚ) / 1000000) := by
  have h0 : ¬ ((a : ℚ) < 0) := not_lt.mpr (Nat.cast_nonneg a)
  have hf : ⌊(a : ℚ) * 1000000000000⌋ = ((a * 1000000000000 : ℕ) : ℤ) := by
    have : (a : ℚ) * 1000000000000 = (((a * 1000000000000 : ℕ) : ℤ) : ℚ) := by push_cast; ring
    rw [this, Int.floor_intCast]
  simp only [refSqrt, h0, if_false, hf, Int.toNat_natCast]

theorem refExp_NNin (x : Dbl) : Dbl.NNin (refExp x) := by
  cases x with
  | nan => left; rfl
  | ninf => right; simp [refExp]
  | pinf => right; simp [refExp]
  | fin q =>
    right
    simp only [refExp, Dbl.fin_le_fin]
    apply div_nonneg <;> nlinarith [sq_nonneg (q + 3), sq_nonneg (q - 3)]

theorem refMath_lawful : refMath.Lawful where
  pow_two := by
    intro x
    simp [refMath, refPow]
  pow_nonneg := by
    intro x y hx
    show Dbl.NNin (refPow x y)
    unfold refPow
    by_cases h2 : y = Dbl.fin 2
    · rw [if_pos h2]
      rcases hx with rfl | _
      · left; rfl
      · exact Dbl.sq_NNin x
    rw [if_neg h2]
    by_cases h0 : y = Dbl.fin 0
    · rw [if_pos h0]; right; simp
    rw [if_neg h0]
    by_cases h1 : y = Dbl.fin 1
    · rw [if_pos h1]; exact hx
    rw [if_neg h1]
    cases x with
    | nan => left; rfl
    | ninf => left; rfl
    | pinf => left; rfl
    | fin q =>
      show Dbl.NNin (if q < 0 then Dbl.nan
        else if q = 0 then (if y < Dbl.fin 0 then Dbl.pinf else Dbl.fin 0)
        else refExp (y * Dbl.fin (2 * (q - 1) / (q + 1))))
      by_cases hq : q < 0
      · rw [if_pos hq]; left; rfl
      rw [if_neg hq]
      by_cases hq0 : q = 0
      · rw [if_pos hq0]
        by_cases hy : y < Dbl.fin 0
        · rw [if_pos hy]; right; simp
        · rw [if_neg hy]; right; simp
      · rw [if_neg hq0]; exact refExp_NNin _
  exp_neg := by
    intro x hx
    show Dbl.U01 (refExp x)
    cases x with
    | nan => simp at hx
    | pinf => simp at hx
    | ninf => exact ⟨0, rfl, le_refl _, zero_le_one⟩
    | fin q =>
      have hq : q < 0 := by simpa using hx
      have hd : 0 < 12 - 6 * q + q * q := by nlinarith [sq_nonneg (q - 3)]
      refine ⟨_, rfl, ?_, ?_⟩
      · apply div_nonneg <;> nlinarith [sq_nonneg (q + 3), sq_nonneg (q - 3)]
      · rw [div_le_one hd]; linarith
  sqrt_neg := by
    intro q hq
    simp [refMath, refSqrt, hq]
  sqrt_nonneg := by
    intro q hq
    have : ¬ q < 0 := not_lt.mpr hq
    simp only [refMath, refSqrt, this, if_false]
    exact ⟨_, rfl, by positivity⟩
  sqrt_table := by
    intro a b ha hab hb
    refine ⟨_, _, refSqrt_nat a, refSqrt_nat b, ?_, ?_⟩
    · have h0 := isqrt_strictMono 0 a (by omega) (by omega)
      have : (0 : ℚ) < (isqrt (a * 1000000000000) : ℚ) := by
        exact_mod_cast lt_of_le_of_lt (Nat.zero_le _) h0
      positivity
    · have h := isqrt_strictMono a b hab hb
      have : (isqrt (a * 1000000000000) : ℚ) < (isqrt (b * 1000000000000) : ℚ) := by
        exact_mod_cast h
      exact div_lt_div_of_pos_right this (by norm_num)

namespace MartinEstimation

theorem inv_algo_next (m : Cmath) (hm : m.Lawful) (spectrum : Nat → Cplx) (nrf : Nat)
    (x : Nat → Dbl) (tinc : Dbl) (s : Statics) (hy : FiniteFrame nrf spectrum)
    (h : Inv nrf s) :
    Inv nrf (algo m spectrum nrf x tinc false false s).1 ∧
    ∀ k, k < nrf → Dbl.NN ((algo m spectrum nrf x tinc false false s).2 k) := by
  obtain ⟨hI, hseg⟩ := inv_next nrf s spectrum hy h
  have hF := inv_frame m hm nrf _ hI
    (Or.inr (fun k hk => (smooth_qeqi m nrf _ hI k hk).2 hseg))
  refine ⟨by simpa [algo] using hF, ?_⟩
  intro k hk
  have := hF.sn2 k hk
  simpa [algo, forLoop, hk, algoOutput] using this

/-- The sign of `noise_power` on x86-64.  In a session of the Martin estimator that
starts with a reinit frame, every value written to `noise_power` is `≥ 0` for every bin
`k < nrf` after every frame (`y0 :: ys` is any non-empty sequence of frames), under these
assumptions: a `double` that does not fit an `int` converts to `INT_MIN` (the hypothesis
`hx`, which is the x86-64 result of the undefined conversion of line 238), the
`<cmath>` functions are lawful, `tinc > 0`, `nrf` is an `int`, and the spectra are finite.
On a platform that saturates the conversion the conclusion fails
(`noise_power_negative`). -/
theorem noise_power_nonneg (m : Cmath) (hm : m.Lawful)
    (hx : ∀ x, m.toIntUB x = Dbl.INT_MIN) (conf : Conf) (s : Statics) (e : MartinEstimation)
    (y0 : Nat → Cplx) (ys : List (Nat → Cplx)) (k : Nat)
    (he : e._reinit = true) (ht : Dbl.fin 0 < tincOf conf)
    (hn : (conf.spectrumSize : Int) ≤ Dbl.INT_MAX)
    (hfin : ∀ y ∈ y0 :: ys, FiniteFrame conf.spectrumSize y)
    (hk : k < conf.spectrumSize) :
    Dbl.fin 0 ≤ (run m conf (s, e) (y0 :: ys)).2.noise_power k := by
  have key := run_induction m conf (FiniteFrame conf.spectrumSize)
    (fun _ w => Inv conf.spectrumSize w.1 ∧
      ∀ k, k < conf.spectrumSize → Dbl.NN (w.2.noise_power k))
    (fun s x y hy => inv_algo_reinit m hm hx y conf.spectrumSize x (tincOf conf) s ht hn hy)
    (fun _ s x y hy hP => inv_algo_next m hm y conf.spectrumSize x (tincOf conf) s hy hP.1)
    s e he y0 ys hfin
  exact (key.2 k hk).nonneg

/-- The assumptions of `noise_power_nonneg` hold for two frames of power 1 on one bin at
16 kHz with a hop of 256, with the stand-in `refMath`. -/
theorem noise_power_nonneg_witness :
    refMath.Lawful ∧ (∀ x, refMath.toIntUB x = Dbl.INT_MIN) ∧ exMartin._reinit = true ∧
    Dbl.fin 0 < tincOf exConf1 ∧ (exConf1.spectrumSize : Int) ≤ Dbl.INT_MAX ∧
    (∀ y ∈ [constFrame 1, constFrame 1], FiniteFrame exConf1.spectrumSize y) ∧
    Dbl.fin 0 ≤ (run refMath exConf1 (staticsZero, exMartin)
      (constFrame 1 :: [constFrame 1])).2.noise_power 0 :=
  have hfin : ∀ y ∈ [constFrame 1, constFrame 1], FiniteFrame exConf1.spectrumSize y := by
    intro y hy k _
    simp only [List.mem_cons, List.mem_singleton, List.not_mem_nil, or_false, or_self] at hy
    subst hy
    exact ⟨1, 0, rfl, rfl⟩
  ⟨refMath_lawful, fun _ => rfl, rfl, by decide!, by decide, hfin,
    noise_power_nonneg refMath refMath_lawful (fun _ => rfl) exConf1 staticsZero exMartin
      (constFrame 1) [constFrame 1] 0 rfl (by decide!) (by decide) hfin (by decide)⟩

end MartinEstimation

namespace MartinEstimation

theorem dmhAt_two (m : Cmath) (i : Nat) : dmhAt m 2 (i : Int) = Dbl.fin (T2 i) := by
  simp only [dmhAt, Int.toNat_natCast, Nat.cast_nonneg, if_true, T2]

theorem T0_strict : ∀ i, i < 18 → ∀ k, k < i → T0 k < T0 i := by
  decide

theorem mh_found (m : Cmath) (d : ℚ) (i : Nat) (hi : i < 18) (hle : d ≤ (T0 i : ℚ))
    (hgt : ∀ k, k < i → (T0 k : ℚ) < d) :
    (List.range 18).find? (fun (i : Nat) => decide (Dbl.fin d ≤ dmhAt m 0 (i : Int)))
      = some i := by
  have hspec := find_range_spec (fun (i : Nat) => decide (Dbl.fin d ≤ dmhAt m 0 (i : Int))) 18
  cases hf : (List.range 18).find?
      (fun (i : Nat) => decide (Dbl.fin d ≤ dmhAt m 0 (i : Int))) with
  | none =>
    have := hspec.2 hf i hi
    rw [dmhAt_zero m i hi] at this
    simp only [Dbl.fin_le_fin, decide_eq_false_iff_not] at this
    exact absurd hle this
  | some i0 =>
    obtain ⟨hi0, hp, hlow⟩ := hspec.1 i0 hf
    rw [dmhAt_zero m i0 hi0] at hp
    simp only [Dbl.fin_le_fin, decide_eq_true_eq] at hp
    rcases Nat.lt_trichotomy i0 i with h | h | h
    · exact absurd hp (not_le.mpr (hgt i0 h))
    · rw [h]
    · have := hlow i h
      rw [dmhAt_zero m i hi] at this
      simp only [Dbl.fin_le_fin, decide_eq_false_iff_not] at this
      exact absurd hle this

theorem mh_found_none (m : Cmath) (d : Dbl) (h : Dbl.fin 300 < d) :
    (List.range 18).find? (fun (i : Nat) => decide (d ≤ dmhAt m 0 (i : Int))) = none := by
  have hspec := find_range_spec (fun (i : Nat) => decide (d ≤ dmhAt m 0 (i : Int))) 18
  cases hf : (List.range 18).find? (fun (i : Nat) => decide (d ≤ dmhAt m 0 (i : Int))) with
  | none => rfl
  | some i =>
    obtain ⟨hi, hp, _⟩ := hspec.1 i hf
    rw [dmhAt_zero m i hi] at hp
    have h300 : (T0 i : ℚ) ≤ 300 := by exact_mod_cast (T0_range i hi).2
    cases d with
    | nan => simp at h
    | ninf => simp at h
    | pinf => simp at hp
    | fin q =>
      simp only [Dbl.fin_le_fin, decide_eq_true_eq] at hp
      simp only [Dbl.fin_lt_fin] at h
      linarith

/-- C11, what the code does: for every `d > 300` (`+inf` included) `mh_values` finds no row,
sets `ichosen = jchosen = 17`, and since `d ≠ 300` interpolates between row 17 and itself:
both quotients are `0/0` (or `NaN/NaN`), so it returns `m = NaN` and `h = NaN`, not the
last row `(0.94, 5)`. -/
theorem mh_values_above_table (m : Cmath) (d : Dbl) (h : Dbl.fin 300 < d) :
    mh_values m d = (Dbl.nan, Dbl.nan) := by
  have hf := mh_found_none m d h
  have h17 : dmhAt m 0 17 = Dbl.fin 300 := by
    have := dmhAt_zero m 17 (by norm_num)
    simpa [T0] using this
  have hne : Dbl.beq d (Dbl.fin 300) = false := by
    cases d with
    | nan => rfl
    | ninf => simp at h
    | pinf => simp [Dbl.beq]
    | fin q =>
      have : ¬ q = 300 := by
        have : (300 : ℚ) < q := by simpa using h
        linarith
      simp [Dbl.beq, this]
  have hz1 : dmhAt m 1 17 - dmhAt m 1 17 = Dbl.fin 0 := by
    have := dmhAt_one m 17
    simp only [Nat.cast_ofNat] at this
    rw [this]; simp
  have hz2 : dmhAt m 2 17 - dmhAt m 2 17 = Dbl.fin 0 := by
    have := dmhAt_two m 17
    simp only [Nat.cast_ofNat] at this
    rw [this]; simp
  simp only [mh_values, hf, h17, hne, Bool.false_eq_true, if_false, hz1, hz2]
  generalize m.sqrt (Dbl.fin 300) = v
  generalize m.sqrt d = q
  have hX : ∀ X : Dbl, X * Dbl.fin 0 = Dbl.nan ∨ X * Dbl.fin 0 = Dbl.fin 0 := by
    intro X
    cases X <;> simp [Dbl.mul_def, Dbl.mul, Dbl.infTimes]
  have hV : v - v = Dbl.nan ∨ v - v = Dbl.fin 0 := by
    cases v <;> simp [Dbl.sub_def, Dbl.add, Dbl.neg]
  have hdiv : ∀ X : Dbl, X * Dbl.fin 0 / (v - v) = Dbl.nan := by
    intro X
    rcases hX X with h1 | h1 <;> rcases hV with h2 | h2 <;> rw [h1, h2] <;>
      simp [Dbl.div_def, Dbl.div]
  rw [hdiv, hdiv]
  simp

/-- Witness of C11: `d = 301`, and `d = 384`, the `nd` of a session at 16 kHz with a hop of
64 samples. -/
theorem mh_values_above_table_witness :
    Dbl.fin 300 < Dbl.fin 301 ∧ mh_values refMath (Dbl.fin 301) = (Dbl.nan, Dbl.nan) ∧
    (algoInit refMath (constFrame 1) 1 (Dbl.fin 0.004)).nd = Dbl.fin 384 ∧
    (algoInit refMath (constFrame 1) 1 (Dbl.fin 0.004)).md = Dbl.nan :=
  ⟨by decide!, mh_values_above_table refMath (Dbl.fin 301) (by decide!), by decide!, by decide!⟩

theorem mh_values_exact (m : Cmath) (i : Nat) (hi : i < 18) :
    mh_values m (dmhAt m 0 (i : Int)) = (dmhAt m 1 (i : Int), dmhAt m 2 (i : Int)) := by
  rw [dmhAt_zero m i hi]
  have hf := mh_found m (T0 i : ℚ) i hi (le_refl _)
    (fun k hk => by exact_mod_cast T0_strict i hi k hk)
  simp only [mh_values, hf, dmhAt_zero m i hi, Dbl.beq, Dbl.isNum, decide_True, Bool.and_self,
    if_true]

theorem mh_values_interp (m : Cmath) (j : Nat) (hj : j + 1 < 18) (d : ℚ)
    (h1 : (T0 j : ℚ) < d) (h2 : d < (T0 (j + 1) : ℚ)) :
    mh_values m (Dbl.fin d) =
      (dmhAt m 1 ((j + 1 : Nat) : Int)
          + (m.sqrt (dmhAt m 0 ((j + 1 : Nat) : Int)) * m.sqrt (dmhAt m 0 (j : Int))
              / m.sqrt (Dbl.fin d) - m.sqrt (dmhAt m 0 (j : Int)))
            * (dmhAt m 1 (j : Int) - dmhAt m 1 ((j + 1 : Nat) : Int))
            / (m.sqrt (dmhAt m 0 ((j + 1 : Nat) : Int)) - m.sqrt (dmhAt m 0 (j : Int))),
       dmhAt m 2 ((j + 1 : Nat) : Int)
          + (m.sqrt (Dbl.fin d) - m.sqrt (dmhAt m 0 ((j + 1 : Nat) : Int)))
            * (dmhAt m 2 (j : Int) - dmhAt m 2 ((j + 1 : Nat) : Int))
            / (m.sqrt (dmhAt m 0 (j : Int)) - m.sqrt (dmhAt m 0 ((j + 1 : Nat) : Int)))) := by
  have hf := mh_found m d (j + 1) hj (le_of_lt h2) (fun k hk => by
    rcases Nat.lt_succ_iff_lt_or_eq.mp hk with h | h
    · have : (T0 k : ℚ) < (T0 j : ℚ) := by
        exact_mod_cast T0_strict j (Nat.lt_of_succ_lt hj) k h
      linarith
    · rw [h]; exact h1)
  have hne : ¬ d = (T0 (j + 1) : ℚ) := ne_of_lt h2
  have hcast : ((j + 1 : ℕ) : Int) - 1 = (j : Int) := by push_cast; ring
  simp only [mh_values, hf, hcast, dmhAt_zero m (j + 1) hj, Dbl.beq, Dbl.isNum, Dbl.fin.injEq,
    hne, decide_False, Bool.and_false, Bool.false_eq_true, if_false]

theorem interp_between (mi mj qi qj q : ℚ) (h0 : 0 < qj) (h1 : qj < q) (h2 : q < qi) :
    (min mi mj ≤ mi + (qi * qj / q - qj) * (mj - mi) / (qi - qj) ∧
      mi + (qi * qj / q - qj) * (mj - mi) / (qi - qj) ≤ max mi mj) ∧
    (min mi mj ≤ mi + (q - qi) * (mj - mi) / (qj - qi) ∧
      mi + (q - qi) * (mj - mi) / (qj - qi) ≤ max mi mj) := by
  have hq : 0 < q := by linarith
  have hd : 0 < qi - qj := by linarith
  have hs : (qi * qj / q - qj) / (qi - qj) = qj * (qi - q) / (q * (qi - qj)) := by
    field_simp; ring
  have hs0 : 0 ≤ (qi * qj / q - qj) / (qi - qj) := by
    rw [hs]; apply div_nonneg
    · exact mul_nonneg (le_of_lt h0) (by linarith)
    · exact mul_nonneg (le_of_lt hq) (le_of_lt hd)
  have hs1 : (qi * qj / q - qj) / (qi - qj) ≤ 1 := by
    rw [hs, div_le_one (mul_pos hq hd)]
    nlinarith
  have ht : (q - qi) / (qj - qi) = (qi - q) / (qi - qj) := by
    rw [← neg_sub qi q, ← neg_sub qi qj, neg_div_neg_eq]
  have ht0 : 0 ≤ (q - qi) / (qj - qi) := by
    rw [ht]; exact div_nonneg (by linarith) (le_of_lt hd)
  have ht1 : (q - qi) / (qj - qi) ≤ 1 := by
    rw [ht, div_le_one hd]; linarith
  have e1 : mi + (qi * qj / q - qj) * (mj - mi) / (qi - qj)
      = mi + (qi * qj / q - qj) / (qi - qj) * (mj - mi) := by ring
  have e2 : mi + (q - qi) * (mj - mi) / (qj - qi)
      = mi + (q - qi) / (qj - qi) * (mj - mi) := by ring
  rw [e1, e2]
  generalize (qi * qj / q - qj) / (qi - qj) = s at hs0 hs1
  generalize (q - qi) / (qj - qi) = t at ht0 ht1
  rcases le_total mi mj with h | h
  · rw [min_eq_left h, max_eq_right h]
    refine ⟨⟨?_, ?_⟩, ⟨?_, ?_⟩⟩ <;> nlinarith
  · rw [min_eq_right h, max_eq_left h]
    refine ⟨⟨?_, ?_⟩, ⟨?_, ?_⟩⟩ <;> nlinarith

/-- C12: `mh_values` on the 18-point table.  At every abscissa `d_i` it returns exactly
`(m_i, h_i)`.  For `d` strictly between two consecutive abscissae `d_j < d < d_i`
(`i = j + 1` is the first row with `d_i ≥ d`) it returns
`m = m_i + (√d_i · √d_j / √d − √d_j)(m_j − m_i)/(√d_i − √d_j)` and
`h = h_i + (√d − √d_i)(h_j − h_i)/(√d_j − √d_i)`, with the `sqrt` of `<cmath>`; and when
that `sqrt` is positive and increasing at `d_j < d < d_i`, the returned `m` and `h` are
numbers between the values of the two rows. -/
theorem mh_values_table (m : Cmath) :
    (∀ i : Nat, i < 18 →
      mh_values m (dmhAt m 0 (i : Int)) = (dmhAt m 1 (i : Int), dmhAt m 2 (i : Int))) ∧
    (∀ (j : Nat) (d : ℚ), j + 1 < 18 →
      dmhAt m 0 (j : Int) < Dbl.fin d → Dbl.fin d < dmhAt m 0 ((j + 1 : Nat) : Int) →
      mh_values m (Dbl.fin d) =
        (dmhAt m 1 ((j + 1 : Nat) : Int)
            + (m.sqrt (dmhAt m 0 ((j + 1 : Nat) : Int)) * m.sqrt (dmhAt m 0 (j : Int))
                / m.sqrt (Dbl.fin d) - m.sqrt (dmhAt m 0 (j : Int)))
              * (dmhAt m 1 (j : Int) - dmhAt m 1 ((j + 1 : Nat) : Int))
              / (m.sqrt (dmhAt m 0 ((j + 1 : Nat) : Int)) - m.sqrt (dmhAt m 0 (j : Int))),
         dmhAt m 2 ((j + 1 : Nat) : Int)
            + (m.sqrt (Dbl.fin d) - m.sqrt (dmhAt m 0 ((j + 1 : Nat) : Int)))
              * (dmhAt m 2 (j : Int) - dmhAt m 2 ((j + 1 : Nat) : Int))
              / (m.sqrt (dmhAt m 0 (j : Int)) - m.sqrt (dmhAt m 0 ((j + 1 : Nat) : Int)))) ∧
      ∀ qj q qi : ℚ, m.sqrt (dmhAt m 0 (j : Int)) = Dbl.fin qj →
        m.sqrt (Dbl.fin d) = Dbl.fin q →
        m.sqrt (dmhAt m 0 ((j + 1 : Nat) : Int)) = Dbl.fin qi →
        0 < qj → qj < q → q < qi →
        ∃ a b : ℚ, mh_values m (Dbl.fin d) = (Dbl.fin a, Dbl.fin b) ∧
          min (T1 (j + 1)) (T1 j) ≤ a ∧ a ≤ max (T1 (j + 1)) (T1 j) ∧
          min (T2 (j + 1)) (T2 j) ≤ b ∧ b ≤ max (T2 (j + 1)) (T2 j) ∧
          dmhAt m 1 (j : Int) = Dbl.fin (T1 j) ∧
          dmhAt m 1 ((j + 1 : Nat) : Int) = Dbl.fin (T1 (j + 1)) ∧
          dmhAt m 2 (j : Int) = Dbl.fin (T2 j) ∧
          dmhAt m 2 ((j + 1 : Nat) : Int) = Dbl.fin (T2 (j + 1))) := by
  refine ⟨fun i hi => mh_values_exact m i hi, ?_⟩
  intro j d hj h1 h2
  rw [dmhAt_zero m j (Nat.lt_of_succ_lt hj)] at h1
  rw [dmhAt_zero m (j + 1) hj] at h2
  have h1' : (T0 j : ℚ) < d := by simpa using h1
  have h2' : d < (T0 (j + 1) : ℚ) := by simpa using h2
  have hI := mh_values_interp m j hj d h1' h2'
  refine ⟨hI, ?_⟩
  intro qj q qi hqj hq hqi h0 hjq hqi'
  have hb := interp_between (T1 (j + 1)) (T1 j) qi qj q h0 hjq hqi'
  have hb2 := interp_between (T2 (j + 1)) (T2 j) qi qj q h0 hjq hqi'
  have hq0 : q ≠ 0 := by linarith
  have hd1 : qi - qj ≠ 0 := by linarith
  have hd2 : qj - qi ≠ 0 := by linarith
  refine ⟨_, _, ?_, hb.1.1, hb.1.2, hb2.2.1, hb2.2.2, dmhAt_one m j, dmhAt_one m (j + 1),
    dmhAt_two m j, dmhAt_two m (j + 1)⟩
  rw [hI, hqj, hq, hqi, dmhAt_one, dmhAt_one, dmhAt_two, dmhAt_two]
  simp only [Dbl.fin_mul_fin, Dbl.fin_sub_fin, Dbl.fin_div_fin _ _ hq0,
    Dbl.fin_div_fin _ _ hd1, Dbl.fin_div_fin _ _ hd2, Dbl.fin_add_fin]

/-- Witness of C12: `d = 96` lies between the abscissae 80 and 120 (rows 10 and 11); with
the stand-in `sqrt` the returned `m` is between 0.865 and 0.89 and `h` between 3.38 and
4.15. -/
theorem mh_values_table_witness :
    dmhAt refMath 0 10 < Dbl.fin 96 ∧ Dbl.fin 96 < dmhAt refMath 0 11 ∧
    ∃ a b : ℚ, mh_values refMath (Dbl.fin 96) = (Dbl.fin a, Dbl.fin b) ∧
      0.865 ≤ a ∧ a ≤ 0.89 ∧ 3.38 ≤ b ∧ b ≤ 4.15 := by
  refine ⟨by decide!, by decide!, ?_⟩
  obtain ⟨a, b, hab, h1, h2, h3, h4, _⟩ :=
    ((mh_values_table refMath).2 10 96 (by norm_num) (by decide!) (by decide!)).2
      (8944271 / 1000000) (9797958 / 1000000) (10954451 / 1000000)
      (by decide!) (by decide!) (by decide!) (by norm_num) (by norm_num) (by norm_num)
  refine ⟨a, b, hab, ?_, ?_, ?_, ?_⟩
  · have : min (T1 (10 + 1)) (T1 10) = 0.865 := by norm_num [T1, dmh]
    linarith
  · have : max (T1 (10 + 1)) (T1 10) = 0.89 := by norm_num [T1, dmh]
    linarith
  · have : min (T2 (10 + 1)) (T2 10) = 3.38 := by norm_num [T2, dmh]
    linarith
  · have : max (T2 (10 + 1)) (T2 10) = 4.15 := by norm_num [T2, dmh]
    linarith

end MartinEstimation

namespace MartinEstimation

theorem nu_small_val (tinc : Dbl) (ht : Dbl.fin 0 < tinc)
    (hlt : Dbl.round (Dbl.fin 1.536 / (tinc * Dbl.fin 8)) < Dbl.fin 4) :
    ∃ v : Int, 1 ≤ v ∧ v ≤ 7 ∧
      Dbl.max (Dbl.round (Dbl.fin 1.536 / (tinc * Dbl.fin 4))) (Dbl.fin 1) = Dbl.fin (v : ℚ) := by
  cases tinc with
  | nan => simp at ht
  | ninf => simp at ht
  | pinf =>
    refine ⟨1, le_refl _, by norm_num, ?_⟩
    have : Dbl.roundQ 0 = 0 := by decide!
    norm_num [Dbl.mul_def, Dbl.mul, Dbl.infTimes, Dbl.div_def, Dbl.div, Dbl.round,
      Dbl.max, this]
  | fin t =>
    have ht0 : (0 : ℚ) < t := by simpa using ht
    have h8 : t * 8 ≠ 0 := by positivity
    have h4 : t * 4 ≠ 0 := by positivity
    have hq8 : (0 : ℚ) ≤ 1.536 / (t * 8) := by positivity
    have hq4 : (0 : ℚ) ≤ 1.536 / (t * 4) := by positivity
    simp only [Dbl.fin_mul_fin, Dbl.fin_div_fin _ _ h8,
      Dbl.round, Dbl.fin_lt_fin, Dbl.roundQ_of_nonneg _ hq8] at hlt
    simp only [Dbl.fin_mul_fin, Dbl.fin_div_fin _ _ h4, Dbl.round,
      Dbl.roundQ_of_nonneg _ hq4, Dbl.max, Dbl.fin_lt_fin]
    have hlt' : ⌊(1.536 : ℚ) / (t * 8) + 1 / 2⌋ < 4 := by exact_mod_cast hlt
    have hb : (1.536 : ℚ) / (t * 8) + 1 / 2 < 4 := by
      by_contra hcon
      have : (4 : ℤ) ≤ ⌊(1.536 : ℚ) / (t * 8) + 1 / 2⌋ :=
        Int.le_floor.mpr (by push_cast; linarith)
      omega
    have h48 : (1.536 : ℚ) / (t * 4) = 2 * (1.536 / (t * 8)) := by
      field_simp; ring
    have hup : ⌊(1.536 : ℚ) / (t * 4) + 1 / 2⌋ ≤ 7 := by
      have : ⌊(1.536 : ℚ) / (t * 4) + 1 / 2⌋ < 8 :=
        Int.floor_lt.mpr (by push_cast; rw [h48]; linarith)
      omega
    by_cases h1 : ((⌊(1.536 : ℚ) / (t * 4) + 1 / 2⌋ : ℤ) : ℚ) < 1
    · exact ⟨1, le_refl _, by norm_num, by rw [if_pos h1]; simp⟩
    · refine ⟨⌊(1.536 : ℚ) / (t * 4) + 1 / 2⌋, ?_, hup, by rw [if_neg h1]⟩
      have : (1 : ℚ) ≤ ((⌊(1.536 : ℚ) / (t * 4) + 1 / 2⌋ : ℤ) : ℚ) := not_lt.mp h1
      exact_mod_cast this

theorem nvInit_max (tinc : Dbl) :
    nvInit tinc = Dbl.max (Dbl.round (Dbl.fin 1.536 / (tinc * Dbl.fin 8))) (Dbl.fin 4) := by
  simp [nvInit, qqInit, Dbl.ofInt, Dbl.max]

theorem nuInit_cases (m : Cmath) (tinc : Dbl) :
    nuInit m tinc = if Dbl.round (Dbl.fin 1.536 / (tinc * Dbl.fin 8)) < Dbl.fin 4 then
        m.toInt (Dbl.max (Dbl.round (Dbl.fin 1.536 / (tinc * Dbl.fin 4))) (Dbl.fin 1))
      else 8 := by
  simp [nuInit, qqInit, Dbl.ofInt]

theorem round_num (tinc : Dbl) (ht : Dbl.fin 0 < tinc) (c : ℚ) (hc : 0 < c) :
    ∃ r : Int, 0 ≤ r ∧ Dbl.round (Dbl.fin 1.536 / (tinc * Dbl.fin c)) = Dbl.fin (r : ℚ) := by
  cases tinc with
  | nan => simp at ht
  | ninf => simp at ht
  | pinf =>
    refine ⟨0, le_refl _, ?_⟩
    have : Dbl.roundQ 0 = 0 := by decide!
    have hc0 : c ≠ 0 := ne_of_gt hc
    norm_num [Dbl.mul_def, Dbl.mul, Dbl.infTimes, Dbl.div_def, Dbl.div, Dbl.round, this, hc,
      hc0]
  | fin t =>
    have ht0 : (0 : ℚ) < t := by simpa using ht
    have h8 : t * c ≠ 0 := by positivity
    have hq8 : (0 : ℚ) ≤ 1.536 / (t * c) := by positivity
    refine ⟨⌊(1.536 : ℚ) / (t * c) + 1 / 2⌋, Int.floor_nonneg.mpr (by linarith), ?_⟩
    simp only [Dbl.fin_mul_fin, Dbl.fin_div_fin _ _ h8, Dbl.round, Dbl.roundQ_of_nonneg _ hq8]

/-- C13: the window lengths set by the reinit branch, for every `tinc > 0`.  With
`r = round(1.536 / (tinc·8))`: `nv = max(r, 4)`; `nu = 8` when `r ≥ 4` and
`nu = max(round(1.536 / (tinc·4)), 1)` otherwise; `nd = nu·nv`; the initial `subwc` is
`(int) nv`, which equals `nv` (the hypothesis `hfit` says that `nv` fits an `int`, the
only use made of it).  Consequently `nv ≥ 4`, `nu ≥ 1` and `nd ≥ 4`. -/
theorem window_lengths (m : Cmath) (spectrum : Nat → Cplx) (nrf : Nat) (tinc : Dbl)
    (ht : Dbl.fin 0 < tinc) (hfit : nvInit tinc ≤ Dbl.ofInt Dbl.INT_MAX) :
    (algoInit m spectrum nrf tinc).nv
        = Dbl.max (Dbl.round (Dbl.fin 1.536 / (tinc * Dbl.fin 8))) (Dbl.fin 4) ∧
    (Dbl.fin 4 ≤ Dbl.round (Dbl.fin 1.536 / (tinc * Dbl.fin 8)) →
        (algoInit m spectrum nrf tinc).nu = 8) ∧
    (Dbl.round (Dbl.fin 1.536 / (tinc * Dbl.fin 8)) < Dbl.fin 4 →
        Dbl.ofInt (algoInit m spectrum nrf tinc).nu
          = Dbl.max (Dbl.round (Dbl.fin 1.536 / (tinc * Dbl.fin 4))) (Dbl.fin 1)) ∧
    (Dbl.fin 4 ≤ Dbl.round (Dbl.fin 1.536 / (tinc * Dbl.fin 8)) ∨
        Dbl.round (Dbl.fin 1.536 / (tinc * Dbl.fin 8)) < Dbl.fin 4) ∧
    (algoInit m spectrum nrf tinc).nd
        = Dbl.ofInt (algoInit m spectrum nrf tinc).nu * (algoInit m spectrum nrf tinc).nv ∧
    Dbl.ofInt (algoInit m spectrum nrf tinc).subwc = (algoInit m spectrum nrf tinc).nv ∧
    Dbl.fin 4 ≤ (algoInit m spectrum nrf tinc).nv ∧
    1 ≤ (algoInit m spectrum nrf tinc).nu ∧
    Dbl.fin 4 ≤ (algoInit m spectrum nrf tinc).nd := by
  obtain ⟨n, hn4, hn⟩ := nvInit_eq tinc ht
  obtain ⟨hu1, hu8⟩ := nuInit_range m tinc ht
  obtain ⟨r, hr0, hr⟩ := round_num tinc ht 8 (by norm_num)
  have hnv : (algoInit m spectrum nrf tinc).nv = nvInit tinc := rfl
  have hnu : (algoInit m spectrum nrf tinc).nu = nuInit m tinc := rfl
  have hnd : (algoInit m spectrum nrf tinc).nd = Dbl.ofInt (nuInit m tinc) * nvInit tinc := rfl
  have hsw : (algoInit m spectrum nrf tinc).subwc = m.toInt (nvInit tinc) := rfl
  have hmax : n ≤ Dbl.INT_MAX := by
    rw [hn] at hfit
    have : (n : ℚ) ≤ ((Dbl.INT_MAX : Int) : ℚ) := by simpa [Dbl.ofInt] using hfit
    exact_mod_cast this
  rw [hnv, hnu, hnd, hsw]
  refine ⟨nvInit_max tinc, ?_, ?_, ?_, rfl, ?_, ?_, hu1, ?_⟩
  · intro h4
    have : ¬ Dbl.round (Dbl.fin 1.536 / (tinc * Dbl.fin 8)) < Dbl.fin 4 := by
      rw [hr] at h4 ⊢
      simp only [Dbl.fin_le_fin] at h4
      simp only [Dbl.fin_lt_fin]
      linarith
    rw [nuInit_cases, if_neg this]
  · intro hlt
    obtain ⟨v, hv1, hv7, hve⟩ := nu_small_val tinc ht hlt
    rw [nuInit_cases, if_pos hlt, hve,
      Cmath.toInt_intCast m v (by unfold Dbl.INT_MIN; omega) (by unfold Dbl.INT_MAX; omega)]
    rfl
  · rw [hr]
    simp only [Dbl.fin_le_fin, Dbl.fin_lt_fin]
    exact le_or_lt _ _
  · rw [hn, Cmath.toInt_intCast m n (by unfold Dbl.INT_MIN; omega) hmax]
    rfl
  · rw [hn]
    simp only [Dbl.fin_le_fin]
    exact_mod_cast hn4
  · rw [hn]
    simp only [Dbl.ofInt, Dbl.fin_mul_fin, Dbl.fin_le_fin]
    have h1 : (1 : ℚ) ≤ (nuInit m tinc : ℚ) := by exact_mod_cast hu1
    have h2 : (4 : ℚ) ≤ (n : ℚ) := by exact_mod_cast hn4
    nlinarith

/-- Witness of C13: at 16 kHz with a hop of 256 samples (`tinc = 0.016`) the reinit
branch sets `nv = 12`, `nu = 8`, `nd = 96` and `subwc = 12`. -/
theorem window_lengths_witness :
    Dbl.fin 0 < Dbl.fin 0.016 ∧ nvInit (Dbl.fin 0.016) ≤ Dbl.ofInt Dbl.INT_MAX ∧
    Dbl.round (Dbl.fin 1.536 / (Dbl.fin 0.016 * Dbl.fin 8)) = Dbl.fin 12 ∧
    (algoInit refMath (constFrame 1) 1 (Dbl.fin 0.016)).nv = Dbl.fin 12 ∧
    (algoInit refMath (constFrame 1) 1 (Dbl.fin 0.016)).nu = 8 ∧
    (algoInit refMath (constFrame 1) 1 (Dbl.fin 0.016)).nd = Dbl.fin 96 ∧
    (algoInit refMath (constFrame 1) 1 (Dbl.fin 0.016)).subwc = 12 := by
  have h := window_lengths refMath (constFrame 1) 1 (Dbl.fin 0.016) (by decide!) (by decide!)
  have hr : Dbl.round (Dbl.fin 1.536 / (Dbl.fin 0.016 * Dbl.fin 8)) = Dbl.fin 12 := by decide!
  have hnv : (algoInit refMath (constFrame 1) 1 (Dbl.fin 0.016)).nv = Dbl.fin 12 := by
    rw [h.1, hr]; decide!
  have hnu : (algoInit refMath (constFrame 1) 1 (Dbl.fin 0.016)).nu = 8 :=
    h.2.1 (by rw [hr]; decide!)
  refine ⟨by decide!, by decide!, hr, hnv, hnu, ?_, ?_⟩
  · rw [h.2.2.2.2.1, hnu, hnv]; decide!
  · have h5 := h.2.2.2.2.2.1
    rw [hnv] at h5
    have : ((algoInit refMath (constFrame 1) 1 (Dbl.fin 0.016)).subwc : ℚ) = 12 := by
      simpa [Dbl.ofInt] using h5
    exact_mod_cast this

end MartinEstimation

namespace MathUtil

/-- C15, what the code does: with one worker `mapReduce_n` returns
`reduce(baseval, fold)`, where `fold` is the left fold that starts from `baseval`, so
`baseval` enters the result twice, and so does `mapReduce2_n`.  On the array `{10, 20}`
with `baseval = 1`, the identity map and `reduce = plus` the code returns 32 and the
documented fold (`std::accumulate`) 31; on an empty range the code returns 2 and the
fold 1. -/
theorem mapReduce_n_baseval_twice :
    (∀ (α T : Type) (inp : Nat → α) (size : Nat) (baseval : T) (map : α → T)
        (reduce : T → T → T),
      mapReduce_n inp size baseval map reduce
        = reduce baseval (accumulateSpec inp size baseval map reduce)) ∧
    (∀ (α β T : Type) (inp : Nat → α) (inp2 : Nat → β) (size : Nat) (baseval : T)
        (map : α → β → T) (reduce : T → T → T),
      mapReduce2_n inp inp2 size baseval map reduce
        = reduce baseval (accumulateSpec2 inp inp2 size baseval map reduce)) ∧
    mapReduce_n exInts 2 (1 : Int) (fun v => v) (fun a b => a + b) = 32 ∧
    accumulateSpec exInts 2 (1 : Int) (fun v => v) (fun a b => a + b) = 31 ∧
    mapReduce_n exInts 0 (1 : Int) (fun v => v) (fun a b => a + b) = 2 ∧
    accumulateSpec exInts 0 (1 : Int) (fun v => v) (fun a b => a + b) = 1 ∧
    mapReduce2_n exInts exInts 2 (1 : Int) (fun v w => v * w) (fun a b => a + b) = 502 ∧
    accumulateSpec2 exInts exInts 2 (1 : Int) (fun v w => v * w) (fun a b => a + b) = 501 :=
  ⟨fun _ _ _ _ _ _ _ => rfl, fun _ _ _ _ _ _ _ _ _ => rfl, by decide, by decide, by decide,
    by decide, by decide, by decide⟩

end MathUtil

namespace Dbl

theorem lt_irrefl (a : Dbl) : ¬ a < a := by
  cases a <;> simp [lt_def, blt]

theorem ne_of_lt {a b : Dbl} (h : a < b) : a ≠ b := by
  intro hab
  rw [hab] at h
  exact lt_irrefl b h

end Dbl

namespace MartinEstimation

theorem algoBoundary_lmin (m : Cmath) (nrf : Nat) (s : Statics) (i : Nat) :
    (algoBoundary m nrf s).lmin i = if i < nrf then Dbl.fin 0 else s.lmin i := by
  simp [algoBoundary, forLoop]

theorem algoBoundary_pminu (m : Cmath) (nrf : Nat) (s : Statics) (i : Nat) :
    (algoBoundary m nrf s).pminu i = if i < nrf then pminuMin nrf s i else s.pminu i := by
  by_cases hi : i < nrf <;> simp [algoBoundary, forLoop, pminuMin, ringSaved, hi]

theorem algoBoundary_actbuf (m : Cmath) (nrf : Nat) (s : Statics) (j i : Nat) :
    (algoBoundary m nrf s).actbuf j i = ringSaved nrf s j i := by
  show (if j < s.nu.toNat then
      forLoop nrf (fun i => if _ ≠ Dbl.fin 0 then _ else ringSaved nrf s j i) (ringSaved nrf s j)
    else ringSaved nrf s j) i = ringSaved nrf s j i
  by_cases hj : j < s.nu.toNat
  · rw [if_pos hj]
    by_cases hi : i < nrf
    · simp only [forLoop, if_pos hi]
      simp
    · simp only [forLoop, if_neg hi]
  · rw [if_neg hj]

theorem algoWindow_boundary (m : Cmath) (nrf : Nat) (s : Statics)
    (hb : s.nv ≤ Dbl.ofInt s.subwc) :
    algoWindow m nrf s = { algoBoundary m nrf s with subwc := 1 } := by
  have h1 : ¬ (0 < s.subwc ∧ Dbl.ofInt s.subwc < s.nv) :=
    fun h => Dbl.not_le_of_lt _ _ h.2 hb
  simp only [algoWindow, if_neg h1, if_pos hb]
  rfl

/-- C16, what the code does: in `lmin[i] = lminflag[i] && !kmod && ...` the operand
`!kmod` negates the pointer `kmod`, not the entry `kmod[i]` that line 259 reads, and the
pointer is not null, so `lmin[k]` is 0 at every boundary frame.  When `lminflag[k]` is
set, `kmod[k]` is false and `pminu[k] < actminsub[k] < nsm·pminu[k]` for the recomputed
`pminu[k]`, the boundary frame still leaves `pminu[k]` at the recomputed value, which is
not `actminsub[k]`, and the ring keeps the saved minima: nothing is broadcast. -/
theorem lmin_rule_never_applies (m : Cmath) (nrf : Nat) (s : Statics) (k : Nat) (hk : k < nrf)
    (hb : s.nv ≤ Dbl.ofInt s.subwc)
    (_hflag : s.lminflag k = true) (_hkmod : s.kmod k = false)
    (h1 : pminuMin nrf s k < s.actminsub k)
    (_h2 : s.actminsub k < nsmOf m nrf s * pminuMin nrf s k) :
    (algoWindow m nrf s).lmin k = Dbl.fin 0 ∧
    (algoWindow m nrf s).pminu k = pminuMin nrf s k ∧
    (algoWindow m nrf s).pminu k ≠ s.actminsub k ∧
    (algoWindow m nrf s).actminsub k = s.actminsub k ∧
    (∀ j, (algoWindow m nrf s).actbuf j k = ringSaved nrf s j k) := by
  have hp : (algoBoundary m nrf s).pminu k = pminuMin nrf s k := by
    rw [algoBoundary_pminu, if_pos hk]
  rw [algoWindow_boundary m nrf s hb]
  refine ⟨?_, hp, ?_, rfl, fun j => algoBoundary_actbuf m nrf s j k⟩
  · show (algoBoundary m nrf s).lmin k = Dbl.fin 0
    rw [algoBoundary_lmin, if_pos hk]
  · show (algoBoundary m nrf s).pminu k ≠ s.actminsub k
    rw [hp]; exact Dbl.ne_of_lt h1

/-- Witness of C16: one bin at 16 kHz with a hop of 768 samples (`nv = 4`), four frames
`1.5 + 0i` from a reinit and then the frame `10 + 0i`, which is the second sub-window
boundary.  On entry to its sub-window phase `lminflag[0]` is set, `kmod[0]` is false,
the recomputed `pminu[0]` is 1 and `1 < actminsub[0] < nsm`; the frame leaves
`pminu[0] = 1` and the ring slot 0 at the saved `actmin[0]`, both different from
`actminsub[0]`. -/
theorem lmin_rule_never_applies_witness :
    0 < 1 ∧ exBoundary.nv ≤ Dbl.ofInt exBoundary.subwc ∧
    exBoundary.lminflag 0 = true ∧ exBoundary.kmod 0 = false ∧
    pminuMin 1 exBoundary 0 < exBoundary.actminsub 0 ∧
    exBoundary.actminsub 0 < nsmOf refMath 1 exBoundary * pminuMin 1 exBoundary 0 ∧
    (algoWindow refMath 1 exBoundary).pminu 0 = Dbl.fin 1 ∧
    Dbl.fin 2 < exBoundary.actminsub 0 ∧
    (algoWindow refMath 1 exBoundary).pminu 0 ≠ exBoundary.actminsub 0 ∧
    (algoWindow refMath 1 exBoundary).actbuf 0 0 = exBoundary.actmin 0 ∧
    exBoundary.actmin 0 ≠ exBoundary.actminsub 0 := by
  have h := lmin_rule_never_applies refMath 1 exBoundary 0 (by decide) (by decide!)
    (by decide!) (by decide!) (by decide!) (by decide!)
  refine ⟨by decide, by decide!, by decide!, by decide!, by decide!, by decide!, ?_, by decide!,
    h.2.2.1, ?_, by decide!⟩
  · rw [h.2.1]; decide!
  · rw [h.2.2.2.2 0]; decide!

end MartinEstimation

theorem accumulateInt_small (m : Cmath) (a : Nat → Dbl) (n : Nat)
    (h : ∀ k, k < n → ∃ q : ℚ, a k = Dbl.fin q ∧ 0 ≤ q ∧ q < 1) : accumulateInt m a n = 0 := by
  unfold accumulateInt
  induction n with
  | zero => rfl
  | succ n ih =>
    rw [List.range_succ, List.foldl_append, ih (fun k hk => h k (Nat.lt_succ_of_lt hk))]
    obtain ⟨q, hq, h0, h1⟩ := h n (Nat.lt_succ_self n)
    have hf : ⌊q⌋ = 0 := Int.floor_eq_zero_iff.mpr ⟨h0, h1⟩
    simp [hq, Dbl.ofInt, Cmath.toInt, Dbl.truncQ, h0, hf, Dbl.INT_MIN, Dbl.INT_MAX]

theorem accumulate_half (a : Nat → Dbl) (n : Nat) (h : ∀ k, k < n → a k = Dbl.fin (1 / 2)) :
    accumulate a n = Dbl.fin ((n : ℚ) / 2) := by
  unfold accumulate
  induction n with
  | zero => simp
  | succ n ih =>
    rw [List.range_succ, List.foldl_append, ih (fun k hk => h k (Nat.lt_succ_of_lt hk))]
    simp only [List.foldl_cons, List.foldl_nil, h n (Nat.lt_succ_self n), Dbl.fin_add_fin]
    congr 1
    push_cast
    ring

namespace MartinEstimation

theorem algoWindow_qq (m : Cmath) (nrf : Nat) (s : Statics) :
    (algoWindow m nrf s).qq = s.qq := by
  unfold algoWindow
  split_ifs <;> rfl

theorem exLoud_qq : exLoud.qq = qqInit := by
  show (algoWindow refMath 1 _).qq = qqInit
  rw [algoWindow_qq]
  rfl

/-- C17, what the code does: line 238 calls `accumulate(qeqi, qeqi + nrf, 0)` with the
`int` 0 (lines 217 and 223 write `0.`), so the sum is kept in an `int` and every partial
sum is truncated.  When every `Qeqi[k]` is 1/2, the code has `qiav = 0` where the mean
is 1/2, `bc = 1 + 2.12·sqrt(0)`, and the slope index is 0 where the first `i` with
`1/2 < Qi_th[i]` is 3. -/
theorem qiav_int_accumulator (m : Cmath) (nrf : Nat) (s : Statics) (hn : 0 < nrf)
    (h : ∀ k, k < nrf → s.qeqi k = Dbl.fin (1 / 2)) (hq : s.qq = qqInit) :
    qiav m nrf s = Dbl.fin 0 ∧ qiavSpec nrf s = Dbl.fin (1 / 2) ∧
    bc m nrf s = Dbl.fin 1 + Dbl.fin 2.12 * m.sqrt (Dbl.fin 0) ∧
    slopeIndex (qiav m nrf s) s.qq.qith = 0 ∧
    slopeIndex (qiavSpec nrf s) s.qq.qith = 3 := by
  have h0 : qiav m nrf s = Dbl.fin 0 := by
    unfold qiav
    rw [accumulateInt_small m s.qeqi nrf (fun k hk => ⟨1 / 2, h k hk, by norm_num, by norm_num⟩)]
    simp [Dbl.ofInt]
  have h1 : qiavSpec nrf s = Dbl.fin (1 / 2) := by
    unfold qiavSpec
    have hn0 : (nrf : ℚ) ≠ 0 := by exact_mod_cast (Nat.pos_iff_ne_zero.mp hn)
    have hc : ((nrf : ℤ) : ℚ) = (nrf : ℚ) := by push_cast; rfl
    rw [accumulate_half s.qeqi nrf h, Dbl.ofInt, hc, Dbl.fin_div_fin _ _ hn0]
    congr 1
    field_simp
    ring
  refine ⟨h0, h1, ?_, ?_, ?_⟩
  · unfold bc
    rw [h0, hq]
    rfl
  · rw [h0, hq]; decide!
  · rw [h1, hq]; decide!

/-- Witness of C17: one bin, a reinit frame of power 1 and then a frame of power 100.
In the second frame `Qeqi[0] = 1/2`; the code computes `qiav = 0` and `bc = 1`. -/
theorem qiav_int_accumulator_witness :
    0 < 1 ∧ (∀ k, k < 1 → exLoud.qeqi k = Dbl.fin (1 / 2)) ∧ exLoud.qq = qqInit ∧
    qiav refMath 1 exLoud = Dbl.fin 0 ∧ qiavSpec 1 exLoud = Dbl.fin (1 / 2) ∧
    bc refMath 1 exLoud = Dbl.fin 1 ∧
    slopeIndex (qiav refMath 1 exLoud) exLoud.qq.qith = 0 ∧
    slopeIndex (qiavSpec 1 exLoud) exLoud.qq.qith = 3 := by
  have hq : ∀ k, k < 1 → exLoud.qeqi k = Dbl.fin (1 / 2) := by decide!
  have h := qiav_int_accumulator refMath 1 exLoud (by decide) hq exLoud_qq
  exact ⟨by decide, hq, exLoud_qq, h.1, h.2.1, by rw [h.2.2.1]; decide!, h.2.2.2.1, h.2.2.2.2⟩

end MartinEstimation

namespace Dbl

theorem min_le_one (t x : Dbl) (h : t ≤ fin 1) : min t x ≤ fin 1 := by
  unfold min
  split
  · rename_i hx
    cases x <;> cases t <;> simp_all
    exact le_of_lt (lt_of_lt_of_le hx h)
  · exact h

theorem min_of_gt (x : Dbl) (h : fin 1 < x) : min (fin 1) x = fin 1 := by
  unfold min
  rw [if_neg]
  cases x <;> simp_all
  exact le_of_lt h

end Dbl

namespace MartinEstimation

theorem pminuMin_le_one (nrf : Nat) (s : Statics) (i : Nat) : pminuMin nrf s i ≤ Dbl.fin 1 := by
  unfold pminuMin
  have hgen : ∀ (l : List Nat) (t : Dbl), t ≤ Dbl.fin 1 →
      l.foldl (fun tmp j => Dbl.min tmp (ringSaved nrf s j i)) t ≤ Dbl.fin 1 := by
    intro l
    induction l with
    | nil => intro t ht; exact ht
    | cons a l ih => intro t ht; exact ih _ (Dbl.min_le_one t _ ht)
  exact hgen _ _ (by simp)

theorem pminuMin_eq_one (nrf : Nat) (s : Statics) (i : Nat)
    (h : ∀ j, j < s.nu.toNat → Dbl.fin 1 < ringSaved nrf s j i) :
    pminuMin nrf s i = Dbl.fin 1 := by
  unfold pminuMin
  have hgen : ∀ (l : List Nat), (∀ j ∈ l, Dbl.fin 1 < ringSaved nrf s j i) →
      l.foldl (fun tmp j => Dbl.min tmp (ringSaved nrf s j i)) (Dbl.fin 1) = Dbl.fin 1 := by
    intro l
    induction l with
    | nil => intro _; rfl
    | cons a l ih =>
      intro hl
      rw [List.foldl_cons, Dbl.min_of_gt _ (hl a (List.mem_cons_self a l))]
      exact ih (fun j hj => hl j (List.mem_cons_of_mem a hj))
  exact hgen _ (fun j hj => h j (List.mem_range.mp hj))

/-- C18, what the code does: the loop of lines 272-280 starts from `double tmp = 1`, not
from a ring slot, so at a boundary frame the new `pminu[k]` is
`min(1, min_j actbuf[j][k])`: it never exceeds 1, and when every slot of the ring holds
a value above 1 it is 1, below every slot.  (The local-minimum correction that follows
never runs, so this is also the value the frame leaves.) -/
theorem pminu_capped_at_one (m : Cmath) (nrf : Nat) (s : Statics) (k : Nat) (hk : k < nrf)
    (hb : s.nv ≤ Dbl.ofInt s.subwc) :
    (algoWindow m nrf s).pminu k = pminuMin nrf s k ∧
    (algoWindow m nrf s).pminu k ≤ Dbl.fin 1 ∧
    ((∀ j, j < s.nu.toNat → Dbl.fin 1 < ringSaved nrf s j k) →
      (algoWindow m nrf s).pminu k = Dbl.fin 1 ∧
      ∀ j, j < s.nu.toNat → (algoWindow m nrf s).pminu k < (algoWindow m nrf s).actbuf j k) := by
  have hp : (algoWindow m nrf s).pminu k = pminuMin nrf s k := by
    rw [algoWindow_boundary m nrf s hb]
    show (algoBoundary m nrf s).pminu k = pminuMin nrf s k
    rw [algoBoundary_pminu, if_pos hk]
  have ha : ∀ j, (algoWindow m nrf s).actbuf j k = ringSaved nrf s j k := by
    intro j
    rw [algoWindow_boundary m nrf s hb]
    exact algoBoundary_actbuf m nrf s j k
  refine ⟨hp, by rw [hp]; exact pminuMin_le_one nrf s k, fun h => ?_⟩
  have h1 : (algoWindow m nrf s).pminu k = Dbl.fin 1 := by
    rw [hp]; exact pminuMin_eq_one nrf s k h
  exact ⟨h1, fun j hj => by rw [h1, ha j]; exact h j hj⟩

/-- Witness of C18: the second sub-window boundary of the session of `exBoundary` (one
bin, `nu = 8`).  The ring holds the saved minimum 3.03.. in slot 0 and `INT_MAX` in the
seven other slots, all above 1; the frame sets `pminu[0] = 1`. -/
theorem pminu_capped_at_one_witness :
    0 < 1 ∧ exBoundary.nv ≤ Dbl.ofInt exBoundary.subwc ∧ exBoundary.nu = 8 ∧
    (∀ j, j < exBoundary.nu.toNat → Dbl.fin 3 < ringSaved 1 exBoundary j 0) ∧
    (algoWindow refMath 1 exBoundary).pminu 0 = Dbl.fin 1 ∧
    (∀ j, j < exBoundary.nu.toNat →
      (algoWindow refMath 1 exBoundary).pminu 0 < (algoWindow refMath 1 exBoundary).actbuf j 0) := by
  have h := (pminu_capped_at_one refMath 1 exBoundary 0 (by decide) (by decide!)).2.2
    (by decide!)
  exact ⟨by decide, by decide!, by decide!, by decide!, h.1, h.2⟩

end MartinEstimation

namespace MartinEstimation

/-- The ring index, the ring and `nu` on entry to the sub-window phase are those the
previous frame left. -/
theorem pre_ring (m : Cmath) (nrf : Nat) (y : Nat → Cplx) (s : Statics) :
    (algoTrack m nrf (algoSmooth m nrf (algoNext y nrf s))).ibuf = s.ibuf ∧
    (algoTrack m nrf (algoSmooth m nrf (algoNext y nrf s))).actbuf = s.actbuf ∧
    (algoTrack m nrf (algoSmooth m nrf (algoNext y nrf s))).nu = s.nu :=
  ⟨rfl, rfl, rfl⟩

theorem ringSaved_other (nrf : Nat) (s : Statics) (hi : s.ibuf = 0) (j : Nat) (hj : 0 < j)
    (k : Nat) : ringSaved nrf s j k = s.actbuf j k := by
  have : ¬ j = (Int.tmod s.ibuf s.nu).toNat := by
    rw [hi]; simp; omega
  simp only [ringSaved, if_neg this]

theorem ringSaved_zero (nrf : Nat) (s : Statics) (hi : s.ibuf = 0) (k : Nat) (hk : k < nrf) :
    ringSaved nrf s 0 k = s.actmin k := by
  have : 0 = (Int.tmod s.ibuf s.nu).toNat := by
    rw [hi]; simp
  simp only [ringSaved, if_pos this, forLoop, if_pos hk]

/-- The sub-window phase keeps `ibuf = 0` and `nu`, and does not write the ring slots
`j ≥ 1`. -/
theorem window_ring (m : Cmath) (nrf : Nat) (s : Statics) (hi : s.ibuf = 0) :
    (algoWindow m nrf s).ibuf = 0 ∧ (algoWindow m nrf s).nu = s.nu ∧
    ∀ j, 0 < j → ∀ k, (algoWindow m nrf s).actbuf j k = s.actbuf j k := by
  unfold algoWindow
  split_ifs with h1 h2
  · exact ⟨hi, rfl, fun _ _ _ => rfl⟩
  · refine ⟨?_, rfl, fun j hj k => ?_⟩
    · show Int.tmod s.ibuf s.nu = 0
      rw [hi]; simp
    · show (algoBoundary m nrf s).actbuf j k = s.actbuf j k
      rw [algoBoundary_actbuf, ringSaved_other nrf s hi j hj k]
  · exact ⟨hi, rfl, fun _ _ _ => rfl⟩

theorem init_ring (m : Cmath) (y : Nat → Cplx) (nrf : Nat) (tinc : Dbl) (j k : Nat)
    (hj : (j : Int) < nuInit m tinc) (hk : k < nrf) :
    (algoInit m y nrf tinc).actbuf j k = Dbl.ofInt Dbl.INT_MAX := by
  have : j < (nuInit m tinc).toNat := by omega
  show (if j < (nuInit m tinc).toNat then
      forLoop nrf (fun _ => Dbl.ofInt Dbl.INT_MAX) (fun _ => m.uninit)
    else fun _ => m.uninit) k = Dbl.ofInt Dbl.INT_MAX
  rw [if_pos this]
  simp only [forLoop, if_pos hk]

/-- C19, what the code does: line 266 is `ibuf = ibuf % nu` (commented "increment
actbuf storage pointer"), which never increments.  Through every session that starts
with a reinit frame, `ibuf` is 0 after every frame, the ring slots `1 .. nu-1` still
hold the `INT_MAX` the reinit stored in them, and at every boundary frame the saved
`actmin` goes to slot 0 again. -/
theorem ring_index_stuck (m : Cmath) (conf : Conf) (s : Statics) (e : MartinEstimation)
    (y0 : Nat → Cplx) (ys : List (Nat → Cplx)) (he : e._reinit = true)
    (ht : Dbl.fin 0 < tincOf conf) :
    (run m conf (s, e) (y0 :: ys)).1.ibuf = 0 ∧
    1 ≤ (run m conf (s, e) (y0 :: ys)).1.nu ∧
    (∀ j k : Nat, 0 < j → (j : Int) < (run m conf (s, e) (y0 :: ys)).1.nu →
      k < conf.spectrumSize →
      (run m conf (s, e) (y0 :: ys)).1.actbuf j k = Dbl.ofInt Dbl.INT_MAX) ∧
    (∀ (y : Nat → Cplx) (pre : Statics),
      pre = algoTrack m conf.spectrumSize (algoSmooth m conf.spectrumSize
        (algoNext y conf.spectrumSize (run m conf (s, e) (y0 :: ys)).1)) →
      pre.nv ≤ Dbl.ofInt pre.subwc →
      (algoWindow m conf.spectrumSize pre).ibuf = 0 ∧
      ∀ k, k < conf.spectrumSize →
        (algoWindow m conf.spectrumSize pre).actbuf 0 k = pre.actmin k) := by
  have key := run_induction m conf (fun _ => True)
    (fun _ w => w.1.ibuf = 0 ∧ w.1.nu = nuInit m (tincOf conf) ∧
      ∀ j, 0 < j → ∀ k, w.1.actbuf j k
        = (algoInit m y0 conf.spectrumSize (tincOf conf)).actbuf j k)
    (fun s x y _ => by
      have h := window_ring m conf.spectrumSize
        (algoTrack m conf.spectrumSize (algoSmooth m conf.spectrumSize
          (algoInit m y conf.spectrumSize (tincOf conf)))) rfl
      exact ⟨h.1, h.2.1, fun j hj k => h.2.2 j hj k⟩)
    (fun t s x y _ hP => by
      have h := window_ring m conf.spectrumSize
        (algoTrack m conf.spectrumSize (algoSmooth m conf.spectrumSize
          (algoNext y conf.spectrumSize s))) hP.1
      exact ⟨h.1, h.2.1.trans hP.2.1, fun j hj k => (h.2.2 j hj k).trans (hP.2.2 j hj k)⟩)
    s e he y0 ys (fun _ _ => trivial)
  obtain ⟨h1, h2, h3⟩ := key
  refine ⟨h1, ?_, ?_, ?_⟩
  · rw [h2]; exact (nuInit_range m (tincOf conf) ht).1
  · intro j k hj hjn hk
    rw [h3 j hj k]
    rw [h2] at hjn
    exact init_ring m y0 conf.spectrumSize (tincOf conf) j k hjn hk
  · intro y pre hpre hb
    have hi : pre.ibuf = 0 := by rw [hpre]; exact h1
    refine ⟨(window_ring m conf.spectrumSize pre hi).1, fun k hk => ?_⟩
    rw [algoWindow_boundary m conf.spectrumSize pre hb]
    show (algoBoundary m conf.spectrumSize pre).actbuf 0 k = pre.actmin k
    rw [algoBoundary_actbuf, ringSaved_zero conf.spectrumSize pre hi k hk]

/-- Witness of C19: the session of `exBoundary` (one bin, `nv = 4`, `nu = 8`), whose
frames 0 and 4 are sub-window boundaries.  After the second boundary `ibuf` is still 0,
slot 1 of the ring still holds `INT_MAX`, and slot 0 holds the minimum saved by the
second boundary (`exBoundary.actmin`), which replaced the one saved by the first. -/
theorem ring_index_stuck_witness :
    exMartin._reinit = true ∧ Dbl.fin 0 < tincOf exConf48 ∧
    (run refMath exConf48 (staticsZero, exMartin) [constFrame 1.5]).1.subwc = 1 ∧
    (run refMath exConf48 (staticsZero, exMartin) [constFrame 1.5]).1.actbuf 0 0
      = Dbl.ofInt Dbl.INT_MAX ∧
    (run refMath exConf48 (staticsZero, exMartin)
      (constFrame 1.5 :: [constFrame 1.5, constFrame 1.5, constFrame 1.5, constFrame 10])).1.subwc
      = 1 ∧
    (run refMath exConf48 (staticsZero, exMartin)
      (constFrame 1.5 :: [constFrame 1.5, constFrame 1.5, constFrame 1.5, constFrame 10])).1.ibuf
      = 0 ∧
    (run refMath exConf48 (staticsZero, exMartin)
      (constFrame 1.5 :: [constFrame 1.5, constFrame 1.5, constFrame 1.5, constFrame 10])).1.nu
      = 8 ∧
    (run refMath exConf48 (staticsZero, exMartin)
      (constFrame 1.5 :: [constFrame 1.5, constFrame 1.5, constFrame 1.5, constFrame 10])).1.actbuf
      1 0 = Dbl.ofInt Dbl.INT_MAX ∧
    (run refMath exConf48 (staticsZero, exMartin)
      (constFrame 1.5 :: [constFrame 1.5, constFrame 1.5, constFrame 1.5, constFrame 10])).1.actbuf
      0 0 = exBoundary.actmin 0 := by
  have h := ring_index_stuck refMath exConf48 staticsZero exMartin (constFrame 1.5)
    [constFrame 1.5, constFrame 1.5, constFrame 1.5, constFrame 10] rfl (by decide!)
  refine ⟨rfl, by decide!, by decide!, by decide!, by decide!, h.1, by decide!, ?_, by decide!⟩
  exact h.2.2.1 1 0 (by decide) (by decide!) (by decide)

end MartinEstimation

namespace MartinEstimation

/-- The counter and `nv` on entry to the sub-window phase are those the previous frame
left. -/
theorem pre_subwc (m : Cmath) (nrf : Nat) (y : Nat → Cplx) (s : Statics) :
    (algoTrack m nrf (algoSmooth m nrf (algoNext y nrf s))).subwc = s.subwc ∧
    (algoTrack m nrf (algoSmooth m nrf (algoNext y nrf s))).nv = s.nv ∧
    (algoTrack m nrf (algoSmooth m nrf (algoNext y nrf s))).sn2 = s.sn2 :=
  ⟨rfl, rfl, rfl⟩

end MartinEstimation

namespace MartinEstimation

end MartinEstimation

namespace Dbl

theorem Pos.NN {x : Dbl} (h : Pos x) : NN x := by
  obtain ⟨q, rfl, hq⟩ := h
  exact ⟨q, rfl, le_of_lt hq⟩

theorem PosN.NNn {x : Dbl} (h : PosN x) : NNn x := h.imp id Pos.NN

theorem Pos.pos_ne_zero {x : Dbl} (h : Pos x) : x ≠ fin 0 := by
  obtain ⟨q, rfl, hq⟩ := h
  intro h0
  have : q = 0 := fin.inj h0
  linarith

theorem GE1n.ge1_ne_zero {x : Dbl} (h : GE1n x) : x ≠ fin 0 := by
  rcases h with rfl | rfl | ⟨q, rfl, hq⟩
  · simp
  · simp
  · intro h0
    have : q = 0 := fin.inj h0
    linarith

theorem PosN_smooth {a p y : Dbl} (ha : U01n a) (hp : PosN p) (hy : Pos y) :
    PosN (a * p + (fin 1 - a) * y) := by
  rcases ha with rfl | ⟨u, rfl, hu0, hu1⟩
  · left; rfl
  · rcases hp with rfl | ⟨v, rfl, hv0⟩
    · left; rfl
    · obtain ⟨w, rfl, hw0⟩ := hy
      right
      refine ⟨u * v + (1 + -u) * w, rfl, ?_⟩
      rcases eq_or_lt_of_le hu0 with h | h
      · subst h
        have : (0 : ℚ) * v + (1 + -0) * w = w := by ring
        rw [this]
        exact hw0
      · have h1 := mul_pos h hv0
        have h2 := mul_nonneg (by linarith : (0 : ℚ) ≤ 1 + -u) (le_of_lt hw0)
        linarith

theorem Pos_min {a b : Dbl} (ha : Pos a) (hb : Pos b) : Pos (min a b) := by
  unfold min
  split
  · exact hb
  · exact ha

theorem Pos_add {a b : Dbl} (ha : NN a) (hb : Pos b) : Pos (a + b) := by
  obtain ⟨u, rfl, hu⟩ := ha
  obtain ⟨v, rfl, hv⟩ := hb
  exact ⟨u + v, rfl, by linarith⟩

theorem Pos_foldl_min (f : Nat → Dbl) (n : Nat) (init : Dbl) (hi : Pos init)
    (h : ∀ j, j < n → Pos (f j)) :
    Pos ((List.range n).foldl (fun tmp j => min tmp (f j)) init) := by
  induction n with
  | zero => exact hi
  | succ n ih =>
    rw [List.range_succ, List.foldl_append]
    exact Pos_min (ih (fun j hj => h j (Nat.lt_succ_of_lt hj))) (h n (Nat.lt_succ_self n))

theorem Pos_intMax : Pos (ofInt INT_MAX) := ⟨_, rfl, by norm_num [INT_MAX]⟩

end Dbl

theorem accumulate_Pos (a : Nat → Dbl) (n : Nat) (hn : 0 < n)
    (h : ∀ k, k < n → Dbl.Pos (a k)) : Dbl.Pos (accumulate a n) := by
  obtain ⟨n, rfl⟩ := Nat.exists_eq_succ_of_ne_zero (Nat.pos_iff_ne_zero.mp hn)
  have h0 := accumulate_NN a n (fun k hk => (h k (Nat.lt_succ_of_lt hk)).NN)
  unfold accumulate at h0 ⊢
  rw [List.range_succ, List.foldl_append]
  exact Dbl.Pos_add h0 (h n (Nat.lt_succ_self n))

namespace Dbl

theorem track_bin_pos {bc p nd md nv mv q old : Dbl} (hbc : GE1f bc) (hp : PosN p)
    (hN : ∃ N : ℚ, nd = fin N ∧ 1 ≤ N) (hn : ∃ n : ℚ, nv = fin n ∧ 1 ≤ n)
    (hM : md = nan ∨ ∃ a b : ℚ, md = fin a ∧ mv = fin b ∧ a < 1 ∧ b < 1)
    (hq : bc = nan ∨ QOK q)
    (hlt : bc * p * (fin 1 + fin 2 * (nd - fin 1) * (fin 1 - md) / (fin 1 / q - fin 2 * md))
      < old) :
    Pos (bc * p * (fin 1 + fin 2 * (nd - fin 1) * (fin 1 - md) / (fin 1 / q - fin 2 * md))) ∧
    Pos (bc * p * (fin 1 + fin 2 * (nv - fin 1) * (fin 1 - mv) / (fin 1 / q - fin 2 * mv))) := by
  rcases hbc with rfl | ⟨b, rfl, hb⟩
  · simp at hlt
  rcases hp with rfl | ⟨v, rfl, hv⟩
  · simp at hlt
  rcases hM with rfl | ⟨a, a', rfl, rfl, ha1, hb1⟩
  · simp at hlt
  rcases hq with hq | hq | ⟨r, rfl, hr0, hr⟩
  · cases hq
  · subst hq; simp at hlt
  obtain ⟨N, rfl, hN⟩ := hN
  obtain ⟨n, rfl, hn⟩ := hn
  obtain ⟨B, hB, hBe⟩ := bmin_form N a r hN ha1 hr0 hr
  obtain ⟨B', hB', hBe'⟩ := bmin_form n a' r hn hb1 hr0 hr
  rw [hBe, hBe']
  simp only [fin_mul_fin]
  exact ⟨⟨_, rfl, mul_pos (mul_pos (by linarith) hv) (by linarith)⟩,
    ⟨_, rfl, mul_pos (mul_pos (by linarith) hv) (by linarith)⟩⟩

/-- The divisor `1/Qeqi − 2·M` is not zero when `Qeqi` is `NaN` or in `(0, 1/2]` and `M`
is `NaN` or below 1. -/
theorem bias_divisor_ne_zero {q M : Dbl} (hq : QOK q)
    (hM : M = nan ∨ ∃ a : ℚ, M = fin a ∧ 0 < a ∧ a < 1) :
    q ≠ fin 0 ∧ fin 1 / q - fin 2 * M ≠ fin 0 := by
  rcases hq with rfl | ⟨r, rfl, hr0, hr⟩
  · simp
  · have hr' : r ≠ 0 := ne_of_gt hr0
    refine ⟨fun h => hr' (fin.inj h), ?_⟩
    rcases hM with rfl | ⟨a, rfl, ha0, ha1⟩
    · simp
    · rw [fin_div_fin 1 r hr', fin_mul_fin, fin_sub_fin]
      intro h
      have h0 : 1 / r - 2 * a = 0 := fin.inj h
      have h2 : (2 : ℚ) ≤ 1 / r := by
        rw [le_div_iff₀ hr0]; linarith
      linarith

/-- The same divisor on the reinit frame, where `Qeqi` is `NaN` or `+inf`. -/
theorem bias_divisor_reinit {q M : Dbl} (hq : q = nan ∨ q = pinf)
    (hM : M = nan ∨ ∃ a : ℚ, M = fin a ∧ 0 < a ∧ a < 1) :
    q ≠ fin 0 ∧ fin 1 / q - fin 2 * M ≠ fin 0 := by
  rcases hq with rfl | rfl
  · simp
  · refine ⟨by simp, ?_⟩
    rcases hM with rfl | ⟨a, rfl, ha0, ha1⟩
    · simp
    · have h1 : fin 1 / pinf = fin 0 := by simp [div_def, div]
      rw [h1, fin_mul_fin, fin_sub_fin]
      intro h
      have h0 : 0 - 2 * a = 0 := fin.inj h
      linarith

end Dbl

namespace MartinEstimation

theorem smooth_ah (m : Cmath) (hm : m.Lawful) (nrf : Nat) (s : Statics) (h : Inv nrf s)
    (k : Nat) (hk : k < nrf) : Dbl.U01n ((algoSmooth m nrf s).ah k) := by
  have hac : Dbl.U01n (algoSmooth m nrf s).ac :=
    Dbl.U01n_convex h.aca h.ac (Dbl.U01n_max (acb_U01n m hm _) h.acmax)
  simp only [algoSmooth, forLoop, hk, if_true]
  apply Dbl.U01n_max
  · exact Dbl.U01n_div_GE1n
      (Dbl.U01n_mul (Dbl.U01n_mul h.amax.U01n hac) Dbl.U01_one.U01n)
      (Dbl.one_add_NNin (pow2_NNin m hm _))
  · exact Dbl.U01_min h.aminh
      (hm.pow_nonneg _ _ (Dbl.NNin_div (accumulate_NNn _ _ h.p) (accumulate_NN _ _ h.sn2)))

theorem pinv_smooth (m : Cmath) (hm : m.Lawful) (nrf : Nat) (s : Statics) (h : Inv nrf s)
    (hp : PInv nrf s) (hy : ∀ k, k < nrf → Dbl.Pos (s.yft k)) :
    PInv nrf (algoSmooth m nrf s) := by
  have hp' : ∀ k, k < nrf → Dbl.PosN ((algoSmooth m nrf s).p k) := by
    intro k hk
    have := smooth_ah m hm nrf s h k hk
    simp only [algoSmooth, forLoop, hk, if_true] at this ⊢
    exact Dbl.PosN_smooth this (hp.p k hk) (hy k hk)
  exact { table := hp.table, p := hp', sn2 := hp.sn2, pminu := hp.pminu, actmin := hp.actmin,
          actminsub := hp.actminsub, actbuf := hp.actbuf }

theorem pinv_track (m : Cmath) (hm : m.Lawful) (nrf : Nat) (s : Statics) (h : Inv nrf s)
    (hp : PInv nrf s)
    (hq : bc m nrf s = Dbl.nan ∨ ∀ k, k < nrf → Dbl.QOK (s.qeqi k)) :
    PInv nrf (algoTrack m nrf s) := by
  have hbc := bc_GE1f m hm nrf s h.av
  obtain ⟨hN, hn, hM⟩ := h.table
  have key : ∀ k, k < nrf → (algoTrack m nrf s).kmod k = true →
      Dbl.Pos ((algoTrack m nrf s).actmin k) ∧ Dbl.Pos ((algoTrack m nrf s).actminsub k) := by
    intro k hk hkm
    simp only [algoTrack, forLoop, hk, if_true, decide_eq_true_eq] at hkm ⊢
    rw [if_pos hkm, if_pos hkm]
    exact Dbl.track_bin_pos hbc (hp.p k hk) hN hn hM
      (hq.imp id (fun hq => hq k hk)) hkm
  have hkeep : ∀ k, k < nrf → (algoTrack m nrf s).kmod k = false →
      (algoTrack m nrf s).actmin k = s.actmin k ∧
      (algoTrack m nrf s).actminsub k = s.actminsub k := by
    intro k hk hkm
    simp only [algoTrack, forLoop, hk, if_true, decide_eq_false_iff_not] at hkm
    simp only [algoTrack, forLoop, hk, if_true, decide_eq_true_eq, if_neg hkm]
    exact ⟨trivial, trivial⟩
  have hboth : ∀ k, k < nrf →
      Dbl.Pos ((algoTrack m nrf s).actmin k) ∧ Dbl.Pos ((algoTrack m nrf s).actminsub k) := by
    intro k hk
    cases hkm : (algoTrack m nrf s).kmod k with
    | true => exact key k hk hkm
    | false =>
      obtain ⟨h1, h2⟩ := hkeep k hk hkm
      rw [h1, h2]
      exact ⟨hp.actmin k hk, hp.actminsub k hk⟩
  exact { table := hp.table, p := hp.p, sn2 := hp.sn2, pminu := hp.pminu,
          actmin := fun k hk => (hboth k hk).1,
          actminsub := fun k hk => (hboth k hk).2, actbuf := hp.actbuf }

theorem pinv_mid (nrf : Nat) (s : Statics) (h : PInv nrf s) : PInv nrf (algoMid nrf s) := by
  have hp : ∀ k, k < nrf → Dbl.Pos ((algoMid nrf s).pminu k) := by
    intro k hk
    simp only [algoMid, forLoop, hk, if_true]
    exact Dbl.Pos_min (h.actminsub k hk) (h.pminu k hk)
  have hs : ∀ k, k < nrf → Dbl.Pos ((algoMid nrf s).sn2 k) := by
    intro k hk
    have := hp k hk
    simp only [algoMid, forLoop, hk, if_true] at this ⊢
    exact this
  exact { table := h.table, p := h.p, sn2 := hs, pminu := hp, actmin := h.actmin,
          actminsub := h.actminsub, actbuf := h.actbuf }

theorem pinv_boundary (m : Cmath) (nrf : Nat) (s : Statics) (h : PInv nrf s) :
    PInv nrf (algoBoundary m nrf s) := by
  have hbuf1 : ∀ j k, j < s.nu.toNat → k < nrf → Dbl.Pos (ringSaved nrf s j k) := by
    intro j k hj hk
    unfold ringSaved
    split
    · simp only [forLoop, hk, if_true]; exact h.actmin k hk
    · exact h.actbuf j k hj hk
  have hp : ∀ k, k < nrf → Dbl.Pos ((algoBoundary m nrf s).pminu k) := by
    intro k hk
    rw [algoBoundary_pminu, if_pos hk]
    exact Dbl.Pos_foldl_min _ _ _ ⟨1, rfl, zero_lt_one⟩ (fun j hj => hbuf1 j k hj hk)
  have hb : ∀ j k, j < (algoBoundary m nrf s).nu.toNat → k < nrf →
      Dbl.Pos ((algoBoundary m nrf s).actbuf j k) := by
    intro j k hj hk
    rw [algoBoundary_actbuf]
    exact hbuf1 j k hj hk
  have ha : ∀ k, k < nrf → Dbl.Pos ((algoBoundary m nrf s).actmin k) := by
    intro k hk
    simp only [algoBoundary, forLoop, hk, if_true]
    exact Dbl.Pos_intMax
  exact { table := h.table, p := h.p, sn2 := h.sn2, pminu := hp, actmin := ha,
          actminsub := h.actminsub, actbuf := hb }

theorem pinv_subwc (nrf : Nat) (s : Statics) (c : Int) (h : PInv nrf s) :
    PInv nrf { s with subwc := c } :=
  { table := h.table, p := h.p, sn2 := h.sn2, pminu := h.pminu, actmin := h.actmin,
    actminsub := h.actminsub, actbuf := h.actbuf }

theorem pinv_window (m : Cmath) (nrf : Nat) (s : Statics) (h : PInv nrf s) :
    PInv nrf (algoWindow m nrf s) := by
  unfold algoWindow
  apply pinv_subwc
  split_ifs
  · exact pinv_mid nrf s h
  · exact pinv_boundary m nrf s h
  · exact h

theorem pinv_output (m : Cmath) (nrf : Nat) (s : Statics) (h : PInv nrf s) :
    PInv nrf (algoOutput m nrf s) :=
  { table := h.table, p := h.p, sn2 := h.sn2, pminu := h.pminu, actmin := h.actmin,
    actminsub := h.actminsub, actbuf := h.actbuf }

theorem pinv_next (nrf : Nat) (s : Statics) (y : Nat → Cplx) (h : PInv nrf s) :
    PInv nrf (algoNext y nrf s) :=
  { table := h.table, p := h.p, sn2 := h.sn2, pminu := h.pminu, actmin := h.actmin,
    actminsub := h.actminsub, actbuf := h.actbuf }

theorem PositiveFrame.finite {nrf : Nat} {y : Nat → Cplx} (h : PositiveFrame nrf y) :
    FiniteFrame nrf y := by
  intro k hk
  obtain ⟨a, b, ha, hb, _⟩ := h k hk
  exact ⟨a, b, ha, hb⟩

theorem power_Pos (nrf : Nat) (y : Nat → Cplx) (hy : PositiveFrame nrf y) (k : Nat)
    (hk : k < nrf) : Dbl.Pos (MathUtil.CplxToPower (y k)) := by
  obtain ⟨a, b, ha, hb, hne⟩ := hy k hk
  unfold MathUtil.CplxToPower
  rw [ha, hb]
  refine ⟨a * a + b * b, rfl, ?_⟩
  rcases hne with h | h
  · have := mul_self_pos.mpr h
    nlinarith [mul_self_nonneg b]
  · have := mul_self_pos.mpr h
    nlinarith [mul_self_nonneg a]

theorem next_yft_Pos (nrf : Nat) (s : Statics) (y : Nat → Cplx) (hy : PositiveFrame nrf y)
    (k : Nat) (hk : k < nrf) : Dbl.Pos ((algoNext y nrf s).yft k) := by
  simp only [algoNext, MathUtil.computePowerSpectrum, forLoop, hk, if_true]
  exact power_Pos nrf y hy k hk

end MartinEstimation

namespace MartinEstimation

theorem T0_cover : ∀ N, N ≤ 300 → 1 ≤ N →
    (∃ i, i < 18 ∧ T0 i = N) ∨ (∃ j, j < 17 ∧ T0 j < N ∧ N < T0 (j + 1)) := by
  decide!

theorem T1_pos : ∀ i, i < 18 → 1 ≤ i → 0 < T1 i := by
  decide!

theorem mh_values_m_pos (m : Cmath) (hm : m.Lawful) (N : Nat) (h2 : 2 ≤ N) (h300 : N ≤ 300) :
    ∃ a : ℚ, (mh_values m (Dbl.fin (N : ℚ))).1 = Dbl.fin a ∧ 0 < a := by
  rcases T0_cover N h300 (by omega) with ⟨i, hi, hiN⟩ | ⟨j, hj, hj1, hj2⟩
  · have h := mh_values_exact m i hi
    rw [dmhAt_zero m i hi, hiN, dmhAt_one] at h
    have hi1 : 1 ≤ i := by
      rcases Nat.eq_zero_or_pos i with h0 | h0
      · subst h0
        simp [T0] at hiN
        omega
      · exact h0
    exact ⟨T1 i, by rw [h], T1_pos i hi hi1⟩
  · have hj18 : j + 1 < 18 := by omega
    have hj0 : 1 ≤ j := by
      rcases Nat.eq_zero_or_pos j with h0 | h0
      · subst h0
        simp [T0] at hj1 hj2
        omega
      · exact h0
    have hr1 := T0_range j (by omega)
    have hr2 := T0_range (j + 1) hj18
    obtain ⟨ra, rb, hra, hrb, hra0, hrab⟩ := hm.sqrt_table (T0 j) N hr1.1 hj1 h300
    obtain ⟨rb', rc, hrb', hrc, _, hrbc⟩ := hm.sqrt_table N (T0 (j + 1)) (by omega) hj2 hr2.2
    have hbb : rb' = rb := by
      rw [hrb] at hrb'
      exact (Dbl.fin.inj hrb').symm
    subst hbb
    have h := mh_values_interp m j hj18 (N : ℚ) (by exact_mod_cast hj1) (by exact_mod_cast hj2)
    have hb := (interp_between (T1 (j + 1)) (T1 j) rc ra rb' hra0 hrab hrbc).1.1
    have hq0 : rb' ≠ 0 := by linarith
    have hd1 : rc - ra ≠ 0 := by linarith
    have hp1 := T1_pos j (by omega) hj0
    have hp2 := T1_pos (j + 1) hj18 (by omega)
    have hmin : 0 < min (T1 (j + 1)) (T1 j) := lt_min hp2 hp1
    refine ⟨_, ?_, lt_of_lt_of_le hmin hb⟩
    rw [h, dmhAt_zero m j (by omega), dmhAt_zero m (j + 1) hj18, hra, hrb, hrc, dmhAt_one,
      dmhAt_one]
    simp only [Dbl.fin_mul_fin, Dbl.fin_sub_fin, Dbl.fin_div_fin _ _ hq0,
      Dbl.fin_div_fin _ _ hd1, Dbl.fin_add_fin]

theorem mh_values_m_range (m : Cmath) (hm : m.Lawful) (N : Nat) (h2 : 2 ≤ N) :
    (mh_values m (Dbl.fin (N : ℚ))).1 = Dbl.nan ∨
    ∃ a : ℚ, (mh_values m (Dbl.fin (N : ℚ))).1 = Dbl.fin a ∧ 0 < a ∧ a < 1 := by
  by_cases h300 : N ≤ 300
  · right
    obtain ⟨a, ha, ha0⟩ := mh_values_m_pos m hm N h2 h300
    obtain ⟨b, hb, hb1⟩ := mh_values_m_lt_one m hm N (by omega) h300
    have : b = a := by
      rw [ha] at hb
      exact (Dbl.fin.inj hb).symm
    subst this
    exact ⟨b, ha, ha0, hb1⟩
  · left
    exact mh_values_m_nan m N (not_le.mp h300)

theorem tablePos_init (m : Cmath) (hm : m.Lawful) (spectrum : Nat → Cplx) (nrf : Nat)
    (tinc : Dbl) (ht : Dbl.fin 0 < tinc) : TablePos (algoInit m spectrum nrf tinc) := by
  obtain ⟨n, hn4, hn⟩ := nvInit_eq tinc ht
  obtain ⟨hu1, hu8⟩ := nuInit_range m tinc ht
  have hnv : (algoInit m spectrum nrf tinc).nv = Dbl.fin (n : ℚ) := hn
  have hnd : (algoInit m spectrum nrf tinc).nd
      = Dbl.fin (((nuInit m tinc * n).toNat : ℕ) : ℚ) := by
    show Dbl.ofInt (nuInit m tinc) * nvInit tinc = _
    rw [hn, Dbl.ofInt, Dbl.fin_mul_fin]
    congr 1
    have h0 : 0 ≤ nuInit m tinc * n := by positivity
    have : ((nuInit m tinc * n).toNat : ℤ) = nuInit m tinc * n := Int.toNat_of_nonneg h0
    have h2 : (((nuInit m tinc * n).toNat : ℕ) : ℚ) = ((nuInit m tinc * n : ℤ) : ℚ) := by
      rw [← Int.cast_natCast, this]
    rw [h2]; push_cast; ring
  have hnvN : (algoInit m spectrum nrf tinc).nv = Dbl.fin ((n.toNat : ℕ) : ℚ) := by
    rw [hnv]
    congr 1
    have : ((n.toNat : ℕ) : ℤ) = n := Int.toNat_of_nonneg (by omega)
    have h2 : ((n.toNat : ℕ) : ℚ) = ((n : ℤ) : ℚ) := by
      rw [← Int.cast_natCast, this]
    rw [h2]
  have hNn : n.toNat ≤ (nuInit m tinc * n).toNat := by
    apply Int.toNat_le_toNat
    nlinarith
  have hn2 : 2 ≤ n.toNat := by omega
  constructor
  · show (mh_values m (algoInit m spectrum nrf tinc).nd).1 = _ ∨
      ∃ a : ℚ, (mh_values m (algoInit m spectrum nrf tinc).nd).1 = _ ∧ _
    rw [hnd]
    exact mh_values_m_range m hm _ (le_trans hn2 hNn)
  · show (mh_values m (algoInit m spectrum nrf tinc).nv).1 = _ ∨
      ∃ b : ℚ, (mh_values m (algoInit m spectrum nrf tinc).nv).1 = _ ∧ _
    rw [hnvN]
    exact mh_values_m_range m hm _ hn2

theorem pinv_init (m : Cmath) (hm : m.Lawful) (spectrum : Nat → Cplx) (nrf : Nat) (tinc : Dbl)
    (ht : Dbl.fin 0 < tinc) (hy : PositiveFrame nrf spectrum) :
    PInv nrf (algoInit m spectrum nrf tinc) ∧
    ∀ k, k < nrf → Dbl.Pos ((algoInit m spectrum nrf tinc).yft k) := by
  have hpow : ∀ k, k < nrf → Dbl.Pos ((algoInit m spectrum nrf tinc).yft k) := by
    intro k hk
    simp only [algoInit, MathUtil.computePowerSpectrum, forLoop, hk, if_true]
    exact power_Pos nrf spectrum hy k hk
  have hp : ∀ k, k < nrf → (algoInit m spectrum nrf tinc).p k
      = (algoInit m spectrum nrf tinc).yft k := by
    intro k hk
    simp only [algoInit, forLoop, hk, if_true]
  have hs : ∀ k, k < nrf → (algoInit m spectrum nrf tinc).sn2 k
      = (algoInit m spectrum nrf tinc).yft k := by
    intro k hk
    simp only [algoInit, forLoop, hk, if_true]
  have hpm : ∀ k, k < nrf → (algoInit m spectrum nrf tinc).pminu k
      = (algoInit m spectrum nrf tinc).yft k := by
    intro k hk
    simp only [algoInit, forLoop, hk, if_true]
  refine ⟨{ table := tablePos_init m hm spectrum nrf tinc ht,
            p := fun k hk => Or.inr (by rw [hp k hk]; exact hpow k hk),
            sn2 := fun k hk => by rw [hs k hk]; exact hpow k hk,
            pminu := fun k hk => by rw [hpm k hk]; exact hpow k hk,
            actmin := fun k hk => ?_, actminsub := fun k hk => ?_,
            actbuf := fun j k hj hk => ?_ }, hpow⟩
  · simp only [algoInit, forLoop, hk, if_true]; exact Dbl.Pos_intMax
  · simp only [algoInit, forLoop, hk, if_true]; exact Dbl.Pos_intMax
  · have hj' : j < (nuInit m tinc).toNat := hj
    rw [init_ring m spectrum nrf tinc j k (by omega) hk]
    exact Dbl.Pos_intMax

end MartinEstimation

namespace MartinEstimation

theorem pinv_algo_reinit (m : Cmath) (hm : m.Lawful) (hx : ∀ x, m.toIntUB x = Dbl.INT_MIN)
    (spectrum : Nat → Cplx) (nrf : Nat) (x : Nat → Dbl) (tinc : Dbl) (s : Statics)
    (ht : Dbl.fin 0 < tinc) (hn : (nrf : Int) ≤ Dbl.INT_MAX) (hy : PositiveFrame nrf spectrum) :
    PInv nrf (algo m spectrum nrf x tinc true false s).1 := by
  obtain ⟨hI, hseg⟩ := inv_init m hm spectrum nrf tinc ht hy.finite
  obtain ⟨hPI, hyft⟩ := pinv_init m hm spectrum nrf tinc ht hy
  have hbc : bc m nrf (algoSmooth m nrf (algoInit m spectrum nrf tinc)) = Dbl.nan ∨
      ∀ k, k < nrf → Dbl.QOK ((algoSmooth m nrf (algoInit m spectrum nrf tinc)).qeqi k) := by
    by_cases h0 : nrf = 0
    · right
      intro k hk
      omega
    · left
      apply bc_nan_reinit m hm hx nrf _ (Nat.pos_of_ne_zero h0) hn
      intro k hk
      exact (smooth_qeqi m nrf _ hI k hk).1 hseg
  have hF := pinv_output m nrf _ (pinv_window m nrf _ (pinv_track m hm nrf _
    (inv_smooth m hm nrf _ hI) (pinv_smooth m hm nrf _ hI hPI hyft) hbc))
  simpa [algo] using hF

theorem pinv_algo_next (m : Cmath) (hm : m.Lawful) (spectrum : Nat → Cplx) (nrf : Nat)
    (x : Nat → Dbl) (tinc : Dbl) (s : Statics) (hy : PositiveFrame nrf spectrum)
    (h : Inv nrf s) (hp : PInv nrf s) :
    PInv nrf (algo m spectrum nrf x tinc false false s).1 := by
  obtain ⟨hI, hseg⟩ := inv_next nrf s spectrum hy.finite h
  have hF := pinv_output m nrf _ (pinv_window m nrf _ (pinv_track m hm nrf _
    (inv_smooth m hm nrf _ hI)
    (pinv_smooth m hm nrf _ hI (pinv_next nrf s spectrum hp)
      (fun k hk => next_yft_Pos nrf s spectrum hy k hk))
    (Or.inr (fun k hk => (smooth_qeqi m nrf _ hI k hk).2 hseg))))
  simpa [algo] using hF

/-- The divisors of the main processing are not zero on statics that satisfy the two
invariants and hold a positive periodogram. -/
theorem divisors_ok (m : Cmath) (hm : m.Lawful) (nrf : Nat) (s : Statics) (h : Inv nrf s)
    (hp : PInv nrf s) (hy : ∀ k, k < nrf → Dbl.Pos (s.yft k)) (k : Nat) (hk : k < nrf) :
    ∀ d ∈ frameDivisors m nrf s k, d ≠ Dbl.fin 0 := by
  have hn : 0 < nrf := Nat.lt_of_le_of_lt (Nat.zero_le k) hk
  have hq := smooth_qeqi m nrf s h k hk
  have hbias : ∀ M : Dbl, (M = Dbl.nan ∨ ∃ a : ℚ, M = Dbl.fin a ∧ 0 < a ∧ a < 1) →
      (algoSmooth m nrf s).qeqi k ≠ Dbl.fin 0 ∧
      Dbl.fin 1 / (algoSmooth m nrf s).qeqi k - Dbl.fin 2 * M ≠ Dbl.fin 0 := by
    intro M hM
    rcases eq_or_lt_of_le h.seg with h0 | h0
    · exact Dbl.bias_divisor_reinit (hq.1 h0.symm) hM
    · exact Dbl.bias_divisor_ne_zero (hq.2 h0) hM
  intro d hd
  simp only [frameDivisors, List.mem_cons, List.mem_singleton, List.not_mem_nil, or_false] at hd
  rcases hd with rfl | rfl | rfl | rfl | rfl | rfl | rfl | rfl | rfl | rfl
  · exact (accumulate_Pos _ _ hn hy).pos_ne_zero
  · exact (Dbl.one_add_NNin (pow2_NNin m hm _)).ge1_ne_zero
  · exact (hp.sn2 k hk).pos_ne_zero
  · exact (Dbl.one_add_NNin (pow2_NNin m hm _)).ge1_ne_zero
  · exact (accumulate_Pos _ _ hn hp.sn2).pos_ne_zero
  · obtain ⟨q, hq, hq0⟩ := hp.sn2 k hk
    rw [hm.pow_two, hq, Dbl.fin_mul_fin, Dbl.fin_mul_fin]
    intro h0
    have : 2 * (q * q) = 0 := Dbl.fin.inj h0
    have := mul_pos hq0 hq0
    linarith
  · intro h0
    have h1 : ((nrf : ℤ) : ℚ) = 0 := Dbl.fin.inj h0
    have h2 : (0 : ℚ) < ((nrf : ℤ) : ℚ) := by exact_mod_cast hn
    linarith
  · exact (hbias s.md hp.table.1).1
  · exact (hbias s.md hp.table.1).2
  · exact (hbias s.mv hp.table.2).2

/-- The divisors on x86-64, in exact arithmetic.  The code has no guard on any divisor;
what keeps the divisors of the main processing away from zero is the input.  In a session
that starts with a reinit frame and whose spectra have no zero bin (finite parts, not
both zero), with `tinc > 0`, lawful `<cmath>` functions and the x86-64 conversion to
`int` (hypothesis `hx`): in the reinit frame and in every later frame the divisors
`sum(y)`, `sn2[k]`, `sum(sn2)`, `2·sn2[k]²`, `1 + (..)²`, `nrf`, `Qeqi[k]` and
`1/Qeqi[k] − 2·M` of lines 217-243 are not zero, and in every frame after the reinit
frame the frame counter is at least 1.  On the reinit frame `Qeqi[k]` is not zero only
because the division by the zero frame counter made it `+inf`
(`reinit_divides_by_zero`). -/
theorem divisors_nonzero (m : Cmath) (hm : m.Lawful)
    (hx : ∀ x, m.toIntUB x = Dbl.INT_MIN) (conf : Conf) (s : Statics) (e : MartinEstimation)
    (y0 : Nat → Cplx) (ys : List (Nat → Cplx))
    (he : e._reinit = true) (ht : Dbl.fin 0 < tincOf conf)
    (hn : (conf.spectrumSize : Int) ≤ Dbl.INT_MAX)
    (hpos : ∀ y ∈ y0 :: ys, PositiveFrame conf.spectrumSize y) :
    (∀ k, k < conf.spectrumSize →
      ∀ d ∈ frameDivisors m conf.spectrumSize
        (algoInit m y0 conf.spectrumSize (tincOf conf)) k, d ≠ Dbl.fin 0) ∧
    (∀ y, PositiveFrame conf.spectrumSize y → ∀ k, k < conf.spectrumSize →
      1 ≤ (algoNext y conf.spectrumSize (run m conf (s, e) (y0 :: ys)).1).segment_number ∧
      clampDivisor (algoNext y conf.spectrumSize (run m conf (s, e) (y0 :: ys)).1)
        ≠ Dbl.fin 0 ∧
      ∀ d ∈ frameDivisors m conf.spectrumSize
        (algoNext y conf.spectrumSize (run m conf (s, e) (y0 :: ys)).1) k, d ≠ Dbl.fin 0) := by
  have hy0 : PositiveFrame conf.spectrumSize y0 := hpos y0 (List.mem_cons_self y0 ys)
  constructor
  · intro k hk
    obtain ⟨hI, _⟩ := inv_init m hm y0 conf.spectrumSize (tincOf conf) ht hy0.finite
    obtain ⟨hPI, hyft⟩ := pinv_init m hm y0 conf.spectrumSize (tincOf conf) ht hy0
    exact divisors_ok m hm conf.spectrumSize _ hI hPI hyft k hk
  · have key := run_induction m conf (PositiveFrame conf.spectrumSize)
      (fun _ w => Inv conf.spectrumSize w.1 ∧ PInv conf.spectrumSize w.1)
      (fun s x y hy =>
        ⟨(inv_algo_reinit m hm hx y conf.spectrumSize x (tincOf conf) s ht hn hy.finite).1,
          pinv_algo_reinit m hm hx y conf.spectrumSize x (tincOf conf) s ht hn hy⟩)
      (fun _ s x y hy hP =>
        ⟨(inv_algo_next m hm y conf.spectrumSize x (tincOf conf) s hy.finite hP.1).1,
          pinv_algo_next m hm y conf.spectrumSize x (tincOf conf) s hy hP.1 hP.2⟩)
      s e he y0 ys hpos
    intro y hy k hk
    obtain ⟨hI, hseg⟩ := inv_next conf.spectrumSize _ y hy.finite key.1
    have hP := pinv_next conf.spectrumSize _ y key.2
    refine ⟨hseg, ?_, divisors_ok m hm conf.spectrumSize _ hI hP
      (fun k hk => next_yft_Pos conf.spectrumSize _ y hy k hk) k hk⟩
    intro h0
    have h1 : (((algoNext y conf.spectrumSize
        (run m conf (s, e) (y0 :: ys)).1).segment_number : ℤ) : ℚ) = 0 := Dbl.fin.inj h0
    have h2 : (0 : ℚ) < (((algoNext y conf.spectrumSize
        (run m conf (s, e) (y0 :: ys)).1).segment_number : ℤ) : ℚ) := by exact_mod_cast hseg
    linarith

end MartinEstimation

namespace MartinEstimation

/-- The assumptions of `divisors_nonzero` hold for one bin at 16 kHz with a hop of 256
and two frames of power 1 followed by a third one, with the stand-in `refMath`. -/
theorem divisors_nonzero_witness :
    refMath.Lawful ∧ (∀ x, refMath.toIntUB x = Dbl.INT_MIN) ∧ exMartin._reinit = true ∧
    Dbl.fin 0 < tincOf exConf1 ∧ (exConf1.spectrumSize : Int) ≤ Dbl.INT_MAX ∧
    (∀ y ∈ [constFrame 1, constFrame 1], PositiveFrame exConf1.spectrumSize y) ∧
    (∀ d ∈ frameDivisors refMath exConf1.spectrumSize
      (algoInit refMath (constFrame 1) exConf1.spectrumSize (tincOf exConf1)) 0,
      d ≠ Dbl.fin 0) ∧
    clampDivisor (algoNext (constFrame 1) exConf1.spectrumSize
      (run refMath exConf1 (staticsZero, exMartin) (constFrame 1 :: [constFrame 1])).1)
      ≠ Dbl.fin 0 ∧
    (∀ d ∈ frameDivisors refMath exConf1.spectrumSize
      (algoNext (constFrame 1) exConf1.spectrumSize
        (run refMath exConf1 (staticsZero, exMartin) (constFrame 1 :: [constFrame 1])).1) 0,
      d ≠ Dbl.fin 0) :=
  have hone : PositiveFrame exConf1.spectrumSize (constFrame 1) :=
    fun _ _ => ⟨1, 0, rfl, rfl, Or.inl one_ne_zero⟩
  have hpos : ∀ y ∈ [constFrame 1, constFrame 1], PositiveFrame exConf1.spectrumSize y := by
    intro y hy
    simp only [List.mem_cons, List.mem_singleton, List.not_mem_nil, or_false, or_self] at hy
    subst hy
    exact hone
  have h := divisors_nonzero refMath refMath_lawful (fun _ => rfl) exConf1 staticsZero exMartin
    (constFrame 1) [constFrame 1] rfl (by decide!) (by decide) hpos
  ⟨refMath_lawful, fun _ => rfl, rfl, by decide!, by decide, hpos, h.1 0 (by decide),
    (h.2 (constFrame 1) hone 0 (by decide)).2.1, (h.2 (constFrame 1) hone 0 (by decide)).2.2⟩

end MartinEstimation

namespace MartinEstimation

/-- The sub-window length fits an `int` for every `tinc` of at least a nanosecond. -/
theorem nvInit_fits (t : ℚ) (ht : 1 / 1000000000 ≤ t) :
    nvInit (Dbl.fin t) ≤ Dbl.ofInt Dbl.INT_MAX := by
  have ht0 : (0 : ℚ) < t := by linarith
  have h8 : t * 8 ≠ 0 := by positivity
  have hq8 : (0 : ℚ) ≤ 1.536 / (t * 8) := by positivity
  have hub : (1.536 : ℚ) / (t * 8) ≤ 192000000 := by
    rw [div_le_iff₀ (by positivity)]
    nlinarith
  have hfl : ⌊(1.536 : ℚ) / (t * 8) + 1 / 2⌋ ≤ 192000000 := by
    have : ⌊(1.536 : ℚ) / (t * 8) + 1 / 2⌋ < 192000001 :=
      Int.floor_lt.mpr (by push_cast; linarith)
    omega
  rw [nvInit_max]
  simp only [Dbl.fin_mul_fin, Dbl.fin_div_fin _ _ h8, Dbl.round, Dbl.roundQ_of_nonneg _ hq8,
    Dbl.max, Dbl.fin_lt_fin, Dbl.ofInt, Dbl.INT_MAX]
  split
  · simp only [Dbl.fin_le_fin]; norm_num
  · simp only [Dbl.fin_le_fin]
    have : ((⌊(1.536 : ℚ) / (t * 8) + 1 / 2⌋ : ℤ) : ℚ) ≤ ((192000000 : ℤ) : ℚ) := by
      exact_mod_cast hfl
    push_cast at this ⊢
    linarith

end MartinEstimation

namespace SimpleEstimation

theorem run_step (m : Cmath) (conf : Conf) (e : SimpleEstimation) (y : Nat → Cplx)
    (ys : List (Nat → Cplx)) : run m conf e (y :: ys) = run m conf (call m conf e y).2 ys := rfl

/-- After a call `noise_rms` is at most `noise_rms * 1.02`, from a state with
`noise_rms ≥ 0`. -/
theorem call_le (m : Cmath) (conf : Conf) (e : SimpleEstimation) (y : Nat → Cplx)
    (h0 : Dbl.fin 0 ≤ e.noise_rms) :
    (call m conf e y).2.noise_rms ≤ e.noise_rms * Dbl.fin 1.02 := by
  have hself : e.noise_rms ≤ e.noise_rms * Dbl.fin 1.02 := by
    cases hr : e.noise_rms with
    | nan => rw [hr] at h0; simp at h0
    | ninf => rw [hr] at h0; simp at h0
    | pinf => norm_num [Dbl.mul_def, Dbl.mul, Dbl.infTimes]
    | fin r =>
      rw [hr] at h0
      have hr0 : (0 : ℚ) ≤ r := by simpa using h0
      simp only [Dbl.fin_mul_fin, Dbl.fin_le_fin]
      nlinarith
  rw [call_cur]
  split
  · rename_i hc
    show cur m conf.spectrumSize y ≤ e.noise_rms * Dbl.fin 1.02
    rcases hc with hlt | ⟨_, hle⟩
    · generalize cur m conf.spectrumSize y = c at hlt
      generalize e.noise_rms * Dbl.fin 1.02 = b at hself
      generalize e.noise_rms = a at hlt hself
      cases a <;> cases b <;> cases c <;> simp_all
      exact le_of_lt (lt_of_lt_of_le hlt hself)
    · exact hle
  · exact hself

/-- Frames that are each 2% louder than the one before, the first one 2% louder than the
current `noise_rms = r ≥ 0`, are all accepted, and after `i` of them
`noise_rms = r * 1.02 ^ i`. -/
theorem run_louder (m : Cmath) (conf : Conf) :
    ∀ (frames : List (Nat → Cplx)) (e : SimpleEstimation) (r : ℚ),
      e.noise_rms = Dbl.fin r → 0 ≤ r →
      (∀ (i : Nat) (y : Nat → Cplx), frames[i]? = some y →
        cur m conf.spectrumSize y = Dbl.fin (r * 1.02 ^ (i + 1))) →
      (∀ (i : Nat) (y : Nat → Cplx), frames[i]? = some y →
        (call m conf (run m conf e (frames.take i)) y).1 = true) ∧
      (∀ i : Nat, i ≤ frames.length →
        (run m conf e (frames.take i)).noise_rms = Dbl.fin (r * 1.02 ^ i)) := by
  intro frames
  induction frames with
  | nil =>
    intro e r hr _ _
    refine ⟨fun i y h => by simp at h, fun i hi => ?_⟩
    have : i = 0 := by simpa using hi
    subst this
    simpa [run] using hr
  | cons y ys ih =>
    intro e r hr h0 hc
    have hy : cur m conf.spectrumSize y = Dbl.fin (r * 1.02) := by
      have := hc 0 y (by simp)
      simpa using this
    have hacc : cur m conf.spectrumSize y < e.noise_rms ∨
        (e.noise_rms ≤ cur m conf.spectrumSize y ∧
          cur m conf.spectrumSize y ≤ e.noise_rms * Dbl.fin 1.02) := by
      right
      rw [hr, hy]
      simp only [Dbl.fin_mul_fin, Dbl.fin_le_fin]
      constructor
      · nlinarith
      · exact le_refl _
    have h1 : (call m conf e y).1 = true := by
      rw [call_cur, if_pos hacc]
    have h2 : (call m conf e y).2.noise_rms = Dbl.fin (r * 1.02) := by
      rw [call_cur, if_pos hacc]
      exact hy
    have hc' : ∀ (i : Nat) (z : Nat → Cplx), ys[i]? = some z →
        cur m conf.spectrumSize z = Dbl.fin (r * 1.02 * 1.02 ^ (i + 1)) := by
      intro i z hz
      have := hc (i + 1) z (by simpa using hz)
      rw [this]
      congr 1
      ring
    obtain ⟨ih1, ih2⟩ := ih (call m conf e y).2 (r * 1.02) h2 (by nlinarith) hc'
    constructor
    · intro i z hz
      cases i with
      | zero =>
        have : y = z := by simpa using hz
        subst this
        simpa [run] using h1
      | succ i =>
        rw [List.take_succ_cons, run_step]
        exact ih1 i z (by simpa using hz)
    · intro i hi
      cases i with
      | zero => simpa [run] using hr
      | succ i =>
        rw [List.take_succ_cons, run_step, ih2 i (by simpa using hi)]
        congr 1
        ring

theorem exLouder_cur : ∀ (i : Nat) (y : Nat → Cplx), exLouder[i]? = some y →
    cur refMath exConf1.spectrumSize y = Dbl.fin (1 * 1.02 ^ (i + 1)) := by
  intro i y h
  rcases i with _ | _ | _ | i
  · have : constFrame 1.02 = y := by simpa [exLouder] using h
    subst this; decide!
  · have : constFrame 1.0404 = y := by simpa [exLouder] using h
    subst this; decide!
  · have : constFrame 1.061208 = y := by simpa [exLouder] using h
    subst this; decide!
  · simp [exLouder] at h

/-- C21: bounded upward drift of `SimpleEstimation`.  From every state with
`noise_rms ≥ 0` and for every frame, `noise_rms` after the call is at most
`noise_rms * 1.02` before it.  It is not a running minimum: whenever each frame has an rms
2% above the one before (the first one 2% above the current `noise_rms = r`), every frame
is accepted and `noise_rms` is `r * 1.02 ^ i` after `i` frames; and such a sequence
exists, here the three frames of `exLouder` from `noise_rms = 1` (with the stand-in
`sqrt`), after which `noise_rms = 1.061208`. -/
theorem bounded_drift (m : Cmath) (conf : Conf) (e : SimpleEstimation)
    (h0 : Dbl.fin 0 ≤ e.noise_rms) :
    (∀ y : Nat → Cplx, (call m conf e y).2.noise_rms ≤ e.noise_rms * Dbl.fin 1.02) ∧
    (∀ (frames : List (Nat → Cplx)) (r : ℚ), e.noise_rms = Dbl.fin r →
      (∀ (i : Nat) (y : Nat → Cplx), frames[i]? = some y →
        cur m conf.spectrumSize y = Dbl.fin (r * 1.02 ^ (i + 1))) →
      (∀ (i : Nat) (y : Nat → Cplx), frames[i]? = some y →
        (call m conf (run m conf e (frames.take i)) y).1 = true) ∧
      (∀ i : Nat, i ≤ frames.length →
        (run m conf e (frames.take i)).noise_rms = Dbl.fin (r * 1.02 ^ i))) ∧
    (∃ frames : List (Nat → Cplx), frames.length = 3 ∧
      (∀ (i : Nat) (y : Nat → Cplx), frames[i]? = some y →
        cur refMath exConf1.spectrumSize y = Dbl.fin (1 * 1.02 ^ (i + 1))) ∧
      (∀ (i : Nat) (y : Nat → Cplx), frames[i]? = some y →
        (call refMath exConf1 (run refMath exConf1 exSimple (frames.take i)) y).1 = true) ∧
      (∀ i : Nat, i ≤ frames.length →
        (run refMath exConf1 exSimple (frames.take i)).noise_rms = Dbl.fin (1 * 1.02 ^ i)) ∧
      exSimple.noise_rms < (run refMath exConf1 exSimple frames).noise_rms) := by
  refine ⟨fun y => call_le m conf e y h0, ?_, ?_⟩
  · intro frames r hr hc
    have hr0 : (0 : ℚ) ≤ r := by
      rw [hr] at h0
      simpa using h0
    exact run_louder m conf frames e r hr hr0 hc
  · have h := run_louder refMath exConf1 exLouder exSimple 1 rfl zero_le_one exLouder_cur
    refine ⟨exLouder, rfl, exLouder_cur, h.1, h.2, ?_⟩
    have h3 := h.2 3 (le_refl _)
    have ht : exLouder.take 3 = exLouder := rfl
    rw [ht] at h3
    rw [h3]
    show Dbl.fin 1 < Dbl.fin (1 * 1.02 ^ 3)
    simp only [Dbl.fin_lt_fin]
    norm_num

/-- Witness of C21: one bin, `noise_rms = 1`.  The frame of rms 1.02 is accepted and
leaves `noise_rms = 1.02 ≤ 1 * 1.02`; after the three frames of `exLouder`
`noise_rms = 1.061208`. -/
theorem bounded_drift_witness :
    Dbl.fin 0 ≤ exSimple.noise_rms ∧
    (call refMath exConf1 exSimple (constFrame 1.02)).2.noise_rms
      ≤ exSimple.noise_rms * Dbl.fin 1.02 ∧
    (call refMath exConf1 exSimple (constFrame 1.02)).2.noise_rms = Dbl.fin 1.02 ∧
    (run refMath exConf1 exSimple exLouder).noise_rms = Dbl.fin 1.061208 :=
  ⟨by decide!,
    (bounded_drift refMath exConf1 exSimple (by decide!)).1 (constFrame 1.02),
    by decide!, by decide!⟩

end SimpleEstimation

namespace MartinEstimation

/-- C2, the code at the failing input: one bin at 16 kHz with a hop of 256, two frames of
power 1 from a reinit, on a platform whose conversion from `double` to `int` saturates.
The reinit frame divides `qeqimin` by `segment_number = 0`, so `Qeqi[0] = +inf`; line 238
converts it to `int` (undefined in C++; here `INT_MAX`), so `bc` is finite and the
negative `bmind`, `bminv` that `1/Qeqi = 0` gives are recorded as a minimum
(`kmod[0]` is true, `actminsub[0] < 0`).  The reinit frame still writes
`noise_power[0] = 1`; the second frame writes a negative `noise_power[0]`. -/
theorem noise_power_negative :
    Dbl.fin 0 < tincOf exConf1 ∧
    (algoInit satMath (constFrame 1) 1 (Dbl.fin 0.016)).segment_number = 0 ∧
    exSatReinit.qeqi 0 = Dbl.pinf ∧
    accumulateInt satMath exSatReinit.qeqi 1 = Dbl.INT_MAX ∧
    Dbl.fin 1 < bc satMath 1 exSatReinit ∧
    (algoTrack satMath 1 exSatReinit).bminv 0 < Dbl.fin 0 ∧
    (algoTrack satMath 1 exSatReinit).kmod 0 = true ∧
    (algoTrack satMath 1 exSatReinit).actminsub 0 < Dbl.fin 0 ∧
    (run satMath exConf1 (staticsZero, exMartin) [constFrame 1]).2.noise_power 0 = Dbl.fin 1 ∧
    sessSat.2.noise_power 0 < Dbl.fin 0 ∧
    ¬ (Dbl.fin 0 ≤ sessSat.2.noise_power 0) := by
  decide!

/-- C14, what the code does: the reinit branch sets `segment_number = 0` (line 91) and
only the `else` branch increments it (line 211), so in every reinit frame, whatever the
spectrum, `nrf` and `tinc`, line 235 divides `qeqimin` by a frame counter that is zero
(the quotient is `+inf`).  In scenario S6 (`Y[k] = δ_{k,32}`, 64 bins, `tinc = 0.016`)
that makes `Qeqi[32] = +inf`; the same frame also divides by `sn2[0] = 0`, which
nothing guards (line 221 computes `p[0] / sn2[0] = 0/0 = NaN`). -/
theorem reinit_divides_by_zero :
    (∀ (m : Cmath) (spectrum : Nat → Cplx) (nrf : Nat) (tinc : Dbl),
      (algoInit m spectrum nrf tinc).segment_number = 0 ∧
      clampDivisor (algoInit m spectrum nrf tinc) = Dbl.fin 0 ∧
      (algoInit m spectrum nrf tinc).qeqimin / clampDivisor (algoInit m spectrum nrf tinc)
        = Dbl.pinf) ∧
    Dbl.fin 0 < Dbl.fin 0.016 ∧
    clampDivisor exDelta = Dbl.fin 0 ∧
    (algoSmooth refMath 64 exDelta).qeqi 32 = Dbl.pinf ∧
    exDelta.sn2 0 = Dbl.fin 0 ∧
    Dbl.fin 0 ∈ frameDivisors refMath 64 exDelta 0 ∧
    exDelta.p 0 / exDelta.sn2 0 = Dbl.nan := by
  refine ⟨fun m spectrum nrf tinc => ⟨rfl, ?_, ?_⟩, by decide!, by decide!, by decide!,
    by decide!, by decide!, by decide!⟩
  · show Dbl.ofInt 0 = Dbl.fin 0
    simp [Dbl.ofInt]
  · show Dbl.fin 1 / qqInit.qeqmax / Dbl.ofInt 0 = Dbl.pinf
    norm_num [qqInit, Dbl.ofInt, Dbl.div_def, Dbl.div]

theorem callH_values (m : Cmath) (conf : Conf) (y : Nat → Cplx)
    (w r : Heap × Statics × MartinEstimation) (h : callH m conf y w = some r) :
    (r.2.1, r.2.2) = (call m conf y (w.2.1, w.2.2)).2 := by
  unfold callH algoH at h
  split at h
  · rename_i r0 hr0
    split at hr0
    · cases hr0
      cases h
      rfl
    · cases hr0
  · cases h

theorem runH_none (m : Cmath) (conf : Conf) (ys : List (Nat → Cplx)) :
    ys.foldl (fun st y => Option.bind st (callH m conf y)) none = none := by
  induction ys with
  | nil => rfl
  | cons y ys ih => simpa using ih

/-- Where every call has defined behaviour on the heap, `runH` computes the values of
`run`. -/
theorem runH_values (m : Cmath) (conf : Conf) (ys : List (Nat → Cplx)) :
    ∀ (w r : Heap × Statics × MartinEstimation), runH m conf w ys = some r →
      (r.2.1, r.2.2) = run m conf (w.2.1, w.2.2) ys := by
  induction ys with
  | nil =>
    intro w r h
    have : w = r := by simpa [runH] using h
    subst this
    rfl
  | cons y ys ih =>
    intro w r h
    have h' : ys.foldl (fun st y => Option.bind st (callH m conf y)) (callH m conf y w)
        = some r := h
    cases hc : callH m conf y w with
    | none =>
      rw [hc, runH_none] at h'
      cases h'
    | some w1 =>
      rw [hc] at h'
      have h1 := ih w1 r h'
      have h2 := callH_values m conf y w w1 hc
      rw [h1, run_cons, ← h2]

/-- A reinit on a live ring with fewer rows than the new `nu` has undefined behaviour: the
loop of lines 179-182 deletes `actbuf[i]` for `i` up to the new `nu`. -/
theorem reinit_ring_grows (m : Cmath) (spectrum : Nat → Cplx) (nrf : Nat) (x : Nat → Dbl)
    (tinc : Dbl) (rows len : Nat) (s : Statics) (h : (rows : Int) < nuInit m tinc) :
    algoH m spectrum nrf x tinc true false (Heap.live rows len) s = none := by
  have : ¬ (0 ≤ nuInit m tinc ∧ nuInit m tinc ≤ (rows : Int)) := fun hh => by omega
  simp [algoH, algoDefined, this]

/-- C8, the code at the failing inputs, with the heap.  (1) One frame at a hop of 1024
samples leaves a ring of `nu = 6` rows; after `onFFTSizeUpdate()` the next frame, at a
hop of 256 samples, computes the new `nu = 8` first and then deletes 8 rows of the old
ring: the reset frame has undefined behaviour, where the same reset frame after a history
at a hop of 256 is defined.  (2) Once the destructor of a Martin estimator has run, the
static pointers dangle, and the reinit frame of any estimator deletes them again. -/
theorem reset_frees_old_ring :
    nuInit refMath (tincOf exConf1024) = 6 ∧ nuInit refMath (tincOf exConf1) = 8 ∧
    hist1024.map (fun w => w.1) = some (Heap.live 6 1) ∧
    (hist1024.bind (fun w => callH refMath exConf1 (constFrame 1)
      (w.1, w.2.1, specific_onFFTSizeUpdate w.2.2))).isNone = true ∧
    (hist1024.bind (fun w => callH refMath exConf1 (constFrame 1)
      (w.1, w.2.1, specific_onDataUpdate w.2.2))).isNone = true ∧
    hist256.map (fun w => w.1) = some (Heap.live 8 1) ∧
    (hist256.bind (fun w => callH refMath exConf1 (constFrame 1)
      (w.1, w.2.1, specific_onFFTSizeUpdate w.2.2))).isSome = true ∧
    (hist256.bind (fun w => destroyH refMath w)).map (fun v => v.1) = some Heap.dangling ∧
    (hist256.bind (fun w => (destroyH refMath w).bind (fun v =>
      callH refMath exConf1 (constFrame 1) (v.1, v.2, exMartin)))).isNone = true := by
  decide!

end MartinEstimation
